import Mathlib

/-! GoBAS lexer: a shallow embedding of `token/token.go` and `lexer/lexer.go`.

Go strings are byte sequences, so a string is a list of bytes here and every
index, slice and length is a byte offset, as in the Go code.  The lexer reads
its input with `rune(l.input[l.readPosition])`, one byte at a time, so the
current character `ch` is always a byte value (or the 0 sentinel) and is typed
as a byte; `unicode.IsDigit` and `unicode.IsLetter` are therefore only ever
asked about the Latin-1 range, where they are given exactly.

Slicing `s[lo:hi]` panics in Go when the bounds are out of order or past the
end; the embedding returns `none` there.  Loops carry a fuel argument and
return `none` when it runs out; neither happens on a state reached from
`New` (`NextToken_cur`).

`strings.TrimSpace` is given in full, with the UTF-8 decoding it falls back
on.  `strings.ToLower` is given in full on ASCII strings; on a string with a
byte of 0x80 or more it depends on the Unicode case tables, and that path is
the parameter `mapToLower` of `ToLower`, `LookupIdentifier`, `readIdentifier`
and `NextToken`.  Every theorem holds for every `mapToLower`.

`Token.String` formats with `fmt.Sprintf`; its verb `%q` is `strconv.Quote`,
given in full except for `strconv.IsPrint` above U+00FF, which is read from
tables of the Go library and is the parameter `wide`.
-/

namespace GoBAS

/-! ## Go strings -/

/-- One byte of a Go string. -/
abbrev Byte := Fin 256

/-- Go `string`: an immutable sequence of bytes. -/
abbrev GoString := List Byte

/-- Byte with the given value (taken modulo 256). -/
def byteOf (n : Nat) : Byte := ⟨n % 256, Nat.mod_lt n (by decide)⟩

/-- Go conversion `string(r)` of a rune to its UTF-8 encoding; surrogates and
values above U+10FFFF become U+FFFD. -/
def runeString (r : Nat) : GoString :=
  if r < 0x80 then [byteOf r]
  else if r < 0x800 then [byteOf (0xC0 + r / 64), byteOf (0x80 + r % 64)]
  else if 0xD800 ≤ r ∧ r < 0xE000 then [0xEF, 0xBF, 0xBD]
  else if r < 0x10000 then
    [byteOf (0xE0 + r / 4096), byteOf (0x80 + r / 64 % 64), byteOf (0x80 + r % 64)]
  else if r < 0x110000 then
    [byteOf (0xF0 + r / 262144), byteOf (0x80 + r / 4096 % 64),
     byteOf (0x80 + r / 64 % 64), byteOf (0x80 + r % 64)]
  else [0xEF, 0xBF, 0xBD]

/-- UTF-8 bytes of a list of characters. -/
def goStrAux : List Char → GoString
  | [] => []
  | c :: cs => runeString c.toNat ++ goStrAux cs

/-- Go string literal: the UTF-8 bytes of the text. -/
def goStr (s : String) : GoString := goStrAux s.data

/-- Go slice expression `s[lo:hi]`; `none` is the run-time panic. -/
def slice (s : GoString) (lo hi : Nat) : Option GoString :=
  if lo ≤ hi ∧ hi ≤ s.length then some ((s.take hi).drop lo) else none

/-! ## Standard library: `unicode`, `unicode/utf8`, `strings` -/

/-- Go `unicode.IsDigit` on the Latin-1 range: `'0' <= r && r <= '9'`. -/
def isDigit (c : Byte) : Bool := 48 ≤ c.val && c.val ≤ 57

/-- Go `unicode.IsLetter` on the Latin-1 range: A-Z, a-z, U+00AA, U+00B5,
U+00BA, U+00C0-U+00D6, U+00D8-U+00F6, U+00F8-U+00FF. -/
def isLetter (c : Byte) : Bool :=
  (65 ≤ c.val && c.val ≤ 90) || (97 ≤ c.val && c.val ≤ 122) ||
  c.val = 0xAA || c.val = 0xB5 || c.val = 0xBA ||
  (0xC0 ≤ c.val && c.val ≤ 0xD6) || (0xD8 ≤ c.val && c.val ≤ 0xF6) || 0xF8 ≤ c.val

/-- Go `unicode.IsSpace`: the Unicode White_Space property. -/
def isSpace (r : Nat) : Bool :=
  (9 ≤ r && r ≤ 13) || r = 0x20 || r = 0x85 || r = 0xA0 || r = 0x1680 ||
  (0x2000 ≤ r && r ≤ 0x200A) || r = 0x2028 || r = 0x2029 || r = 0x202F ||
  r = 0x205F || r = 0x3000

/-- Go `utf8.RuneError`. -/
def RuneError : Nat := 0xFFFD

/-- Continuation byte 0x80-0xBF. -/
def isCont (b : Byte) : Bool := 0x80 ≤ b.val && b.val ≤ 0xBF

/-- Go `utf8.DecodeRuneInString`: the first rune of `s` and its width in bytes;
an invalid or truncated encoding gives `(RuneError, 1)`, the empty string
`(RuneError, 0)`. -/
def DecodeRuneInString (s : GoString) : Nat × Nat :=
  match s with
  | [] => (RuneError, 0)
  | s0 :: t =>
    if s0.val < 0x80 then (s0.val, 1)
    else if s0.val < 0xC2 ∨ 0xF4 < s0.val then (RuneError, 1)
    else
      let sz := if s0.val < 0xE0 then 2 else if s0.val < 0xF0 then 3 else 4
      let lo := if s0.val = 0xE0 then 0xA0 else if s0.val = 0xF0 then 0x90 else 0x80
      let hi := if s0.val = 0xED then 0x9F else if s0.val = 0xF4 then 0x8F else 0xBF
      if s.length < sz then (RuneError, 1)
      else
        match t with
        | [] => (RuneError, 1)
        | s1 :: t1 =>
          if s1.val < lo ∨ hi < s1.val then (RuneError, 1)
          else if sz ≤ 2 then ((s0.val % 32) * 64 + s1.val % 64, 2)
          else
            match t1 with
            | [] => (RuneError, 1)
            | s2 :: t2 =>
              if !isCont s2 then (RuneError, 1)
              else if sz ≤ 3 then
                ((s0.val % 16) * 4096 + (s1.val % 64) * 64 + s2.val % 64, 3)
              else
                match t2 with
                | [] => (RuneError, 1)
                | s3 :: _ =>
                  if !isCont s3 then (RuneError, 1)
                  else ((s0.val % 8) * 262144 + (s1.val % 64) * 4096 +
                        (s2.val % 64) * 64 + s3.val % 64, 4)

/-- Backward scan of `utf8.DecodeLastRuneInString`:
`for start--; start >= lim; start-- { if RuneStart(s[start]) { break } }`.
The argument and the result are `start + 1`, so that 0 stands for -1. -/
def scanBack (s : GoString) (lim : Nat) : Nat → Nat
  | 0 => 0
  | start + 1 =>
    if start < lim then start + 1
    else if !isCont (s.getD start 0) then start + 1
    else scanBack s lim start

/-- Go `utf8.DecodeLastRuneInString`: the last rune of `s` and its width. -/
def DecodeLastRuneInString (s : GoString) : Nat × Nat :=
  let n := s.length
  if n = 0 then (RuneError, 0)
  else
    let r := s.getD (n - 1) 0
    if r.val < 0x80 then (r.val, 1)
    else
      let lim := n - 4
      let start := scanBack s lim (n - 1) - 1
      let d := DecodeRuneInString (s.drop start)
      if start + d.2 ≠ n then (RuneError, 1) else d

/-- Go `strings.indexFunc(s, unicode.IsSpace, false)` as a loop over the
remaining suffix `s` at byte offset `i`; `none` is -1. -/
def indexNotSpace : Nat → GoString → Nat → Option Nat
  | 0, _, _ => none
  | fuel + 1, s, i =>
    if s = [] then none
    else
      let d := DecodeRuneInString s
      if !isSpace d.1 then some i else indexNotSpace fuel (s.drop d.2) (i + d.2)

/-- Go `strings.TrimLeftFunc(s, unicode.IsSpace)`. -/
def TrimLeftSpace (s : GoString) : GoString :=
  match indexNotSpace (s.length + 1) s 0 with
  | none => []
  | some i => s.drop i

/-- Go `strings.lastIndexFunc(s, unicode.IsSpace, false)`, with `i` the
current end offset; `none` is -1. -/
def lastIndexNotSpace (s : GoString) : Nat → Nat → Option Nat
  | 0, _ => none
  | fuel + 1, i =>
    if i = 0 then none
    else
      let d := DecodeLastRuneInString (s.take i)
      if !isSpace d.1 then some (i - d.2) else lastIndexNotSpace s fuel (i - d.2)

/-- Go `strings.TrimRightFunc(s, unicode.IsSpace)`. -/
def TrimRightSpace (s : GoString) : GoString :=
  match lastIndexNotSpace s (s.length + 1) s.length with
  | none => []
  | some i =>
    if 0x80 ≤ (s.getD i 0).val then s.take (i + (DecodeRuneInString (s.drop i)).2)
    else s.take (i + 1)

/-- Go `strings.asciiSpace`: tab, line feed, vertical tab, form feed,
carriage return, space. -/
def asciiSpace (c : Byte) : Bool := (9 ≤ c.val && c.val ≤ 13) || c.val = 32

/-- Second loop of `strings.TrimSpace`, on the reversed remainder: trim ASCII
space from the end, falling back to `TrimRightFunc` on a non-ASCII byte. -/
def trimSpaceEnd : GoString → GoString
  | [] => []
  | c :: t =>
    if 0x80 ≤ c.val then TrimRightSpace (c :: t).reverse
    else if asciiSpace c then trimSpaceEnd t
    else (c :: t).reverse

/-- Go `strings.TrimSpace`: first loop trims ASCII space from the front and
falls back to `TrimFunc(s[start:], unicode.IsSpace)` on a non-ASCII byte. -/
def TrimSpace : GoString → GoString
  | [] => []
  | c :: t =>
    if 0x80 ≤ c.val then TrimRightSpace (TrimLeftSpace (c :: t))
    else if asciiSpace c then TrimSpace t
    else trimSpaceEnd (c :: t).reverse

/-- Go `strings.ToLower`: an ASCII-only string has its letters A-Z lowered
byte by byte; a string with a byte of 0x80 or more goes through
`strings.Map(unicode.ToLower, s)`, whose result depends on the Unicode case
tables and is the parameter `mapToLower`. -/
def ToLower (mapToLower : GoString → GoString) (s : GoString) : GoString :=
  if s.all (fun c => decide (c.val < 0x80)) then
    s.map (fun c => if 65 ≤ c.val ∧ c.val ≤ 90 then byteOf (c.val + 32) else c)
  else mapToLower s

/-! ## Package `token` -/

/-- Go `token.Token`; `Type_` is the field `Type` (a Go string). -/
structure Token where
  Type_ : GoString
  Literal : GoString
deriving DecidableEq, Repr

def ILLEGAL : GoString := goStr "ILLEGAL"

def EOF : GoString := goStr "EOF"

def NEWLINE : GoString := goStr "NEWLINE"

def LINENO : GoString := goStr "LINENO"

def IDENT : GoString := goStr "IDENT"

def INTEGER : GoString := goStr "INTEGER"

def FLOAT : GoString := goStr "FLOAT"

def STRING : GoString := goStr "STRING"

def BOOLEAN : GoString := goStr "BOOLEAN"

def BUILTIN : GoString := goStr "BUILTIN"

def END : GoString := goStr "END"

def GOSUB : GoString := goStr "GOSUB"

def GOTO : GoString := goStr "GOTO"

def INPUT : GoString := goStr "INPUT"

def LET : GoString := goStr "LET"

def PRINT : GoString := goStr "PRINT"

def REM : GoString := goStr "REM"

def RETURN : GoString := goStr "RETURN"

def FOR : GoString := goStr "FOR"

def NEXT : GoString := goStr "NEXT"

def STEP : GoString := goStr "STEP"

def TO : GoString := goStr "TO"

def IF : GoString := goStr "IF"

def THEN : GoString := goStr "THEN"

def ELSE : GoString := goStr "ELSE"

def AND : GoString := goStr "AND"

def OR : GoString := goStr "OR"

def XOR : GoString := goStr "XOR"

def DEF : GoString := goStr "DEF"

def DIM : GoString := goStr "DIM"

def FN : GoString := goStr "FN"

def READ : GoString := goStr "READ"

def SWAP : GoString := goStr "SWAP"

def DATA : GoString := goStr "DATA"

def ASSIGN : GoString := goStr "="

def ASTERISK : GoString := goStr "*"

def COMMA : GoString := goStr ","

def MINUS : GoString := goStr "-"

def MOD : GoString := goStr "%"

def PLUS : GoString := goStr "+"

def SLASH : GoString := goStr "/"

def POW : GoString := goStr "^"

def COLON : GoString := goStr ":"

def SEMICOLON : GoString := goStr ";"

def LBRACKET : GoString := goStr "("

def RBRACKET : GoString := goStr ")"

def LINDEX : GoString := goStr "["

def RINDEX : GoString := goStr "]"

def GT : GoString := goStr ">"

def GTEQUALS : GoString := goStr ">="

def LT : GoString := goStr "<"

def LTEQUALS : GoString := goStr "<="

def NOTEQUALS : GoString := goStr "<>"

/-- Go `operatorMap`, as its list of entries. -/
def operatorMap : List (GoString × GoString) :=
  [(goStr "=", ASSIGN), (goStr "*", ASTERISK), (goStr ",", COMMA), (goStr "-", MINUS),
   (goStr "%", MOD), (goStr "+", PLUS), (goStr "/", SLASH), (goStr "^", POW),
   (goStr ":", COLON), (goStr ";", SEMICOLON), (goStr "(", LBRACKET), (goStr ")", RBRACKET),
   (goStr "[", LINDEX), (goStr "]", RINDEX), (goStr ">", GT), (goStr "<", LT),
   (goStr ">=", GTEQUALS), (goStr "<=", LTEQUALS), (goStr "<>", NOTEQUALS)]

/-- Go `keywordMap`, as its list of entries. -/
def keywordMap : List (GoString × GoString) :=
  [(goStr "and", AND), (goStr "data", DATA), (goStr "def", DEF), (goStr "dim", DIM),
   (goStr "else", ELSE), (goStr "end", END), (goStr "fn", FN), (goStr "for", FOR),
   (goStr "gosub", GOSUB), (goStr "goto", GOTO), (goStr "if", IF), (goStr "input", INPUT),
   (goStr "let", LET), (goStr "next", NEXT), (goStr "or", OR), (goStr "read", READ),
   (goStr "print", PRINT), (goStr "rem", REM), (goStr "return", RETURN), (goStr "step", STEP),
   (goStr "swap", SWAP), (goStr "then", THEN), (goStr "to", TO), (goStr "xor", XOR)]

/-- Go map index `m[k]` with the comma-ok form: the value (or the zero value
`""`) and whether the key is present. -/
def mapIndex (m : List (GoString × GoString)) (k : GoString) : GoString × Bool :=
  match m.lookup k with
  | some v => (v, true)
  | none => ([], false)

/-- Go `token.LookupOperator`. -/
def LookupOperator (op : GoString) : GoString × Bool :=
  mapIndex operatorMap op

/-- Go `token.LookupIdentifier`. -/
def LookupIdentifier (mapToLower : GoString → GoString) (ident : GoString) : GoString :=
  let lower := ToLower mapToLower ident
  let r := mapIndex keywordMap lower
  if r.2 then r.1 else IDENT

/-! ## Package `lexer` -/

/-- Go `lexer.Lexer`. -/
structure Lexer where
  input : GoString
  position : Nat
  readPosition : Nat
  ch : Byte
  atStartOfLine : Bool
  lineNumberRead : Bool
deriving DecidableEq, Repr

/-- Go `(*Lexer).readChar`. -/
def readChar (l : Lexer) : Lexer :=
  { l with
    ch := if l.readPosition ≥ l.input.length then 0 else l.input.getD l.readPosition 0
    position := l.readPosition
    readPosition := l.readPosition + 1 }

/-- Go `(*Lexer).peekChar`. -/
def peekChar (l : Lexer) : Byte :=
  if l.readPosition ≥ l.input.length then 0 else l.input.getD l.readPosition 0

/-- Go `New`. -/
def New (input : GoString) : Lexer :=
  let l : Lexer :=
    { input := input, position := 0, readPosition := 0, ch := 0,
      atStartOfLine := false, lineNumberRead := false }
  let l := readChar l
  { l with atStartOfLine := true }

/-- The Go loop `for p(l.ch) { l.readChar() }`; `none` when the fuel runs out. -/
def loopWhile (p : Byte → Bool) : Nat → Lexer → Option Lexer
  | 0, _ => none
  | fuel + 1, l => if p l.ch then loopWhile p fuel (readChar l) else some l

/-- Fuel that lets every scanning loop of the lexer run to its end. -/
def loopFuel (l : Lexer) : Nat := l.input.length + 2

/-- Loop condition of `skipWhitespace`: space, tab or carriage return. -/
def isBlank (c : Byte) : Bool := c = 32 || c = 9 || c = 13

/-- Go `(*Lexer).skipWhitespace`. -/
def skipWhitespace (l : Lexer) : Option Lexer :=
  loopWhile isBlank (loopFuel l) l

/-- Go `(*Lexer).readLineNumber`. -/
def readLineNumber (l : Lexer) : Option (GoString × Lexer) := do
  let start := l.position
  let l ← loopWhile isDigit (loopFuel l) l
  let lit ← slice l.input start l.position
  pure (lit, l)

/-- Go `(*Lexer).readLineNumberToken`. -/
def readLineNumberToken (l : Lexer) : Option (Token × Lexer) := do
  let (lit, l) ← readLineNumber l
  let l := { l with lineNumberRead := true }
  let l := { l with atStartOfLine := false }
  pure ({ Type_ := LINENO, Literal := lit }, l)

/-- Go `isIdentifierChar`. -/
def isIdentifierChar (c : Byte) : Bool :=
  isLetter c || isDigit c || c = 95 || c = 36

/-- Loop condition of `readRemComment`: `l.ch != '\n' && l.ch != 0`. -/
def isRemChar (c : Byte) : Bool := c != 10 && c != 0

/-- Go `(*Lexer).readRemComment`. -/
def readRemComment (l : Lexer) : Option (GoString × Lexer) := do
  let start := l.position
  let l ← loopWhile isRemChar (loopFuel l) l
  let span ← slice l.input start l.position
  pure (TrimSpace span, l)

/-- Go `(*Lexer).readIdentifier`. -/
def readIdentifier (mapToLower : GoString → GoString) (l : Lexer) :
    Option (Token × Lexer) := do
  let start := l.position
  let l ← loopWhile isIdentifierChar (loopFuel l) l
  let lit ← slice l.input start l.position
  let tokType := LookupIdentifier mapToLower lit
  if tokType = REM then
    let l ← skipWhitespace l
    let (text, l) ← readRemComment l
    pure ({ Type_ := REM, Literal := text }, l)
  else
    pure ({ Type_ := tokType, Literal := lit }, l)

/-- The loop of `readNumber`, carrying `decimalFound` and `tokType`. -/
def readNumberLoop : Nat → Lexer → Bool → GoString → Option (Lexer × GoString)
  | 0, _, _, _ => none
  | fuel + 1, l, decimalFound, tokType =>
    if isDigit l.ch then readNumberLoop fuel (readChar l) decimalFound tokType
    else if l.ch = 46 ∧ !decimalFound then readNumberLoop fuel (readChar l) true FLOAT
    else some (l, tokType)

/-- Go `(*Lexer).readNumber`. -/
def readNumber (l : Lexer) : Option (Token × Lexer) := do
  let start := l.position
  let (l, tokType) ← readNumberLoop (loopFuel l) l false INTEGER
  let lit ← slice l.input start l.position
  pure ({ Type_ := tokType, Literal := lit }, l)

/-- Loop condition of `readString`: `l.ch != '"' && l.ch != 0`. -/
def isStrChar (c : Byte) : Bool := c != 34 && c != 0

/-- Go `(*Lexer).readString`. -/
def readString (l : Lexer) : Option (GoString × Lexer) := do
  let l := readChar l
  let start := l.position
  let l ← loopWhile isStrChar (loopFuel l) l
  let lit ← slice l.input start l.position
  let l := if l.ch = 34 then readChar l else l
  pure (lit, l)

/-- The single-character tail of `readOperatorOrSymbol`: the operator found
for `string(l.ch)`, or an ILLEGAL token holding `string(l.ch)`. -/
def readSingle (l : Lexer) : Token × Lexer :=
  let r := LookupOperator (runeString l.ch.val)
  if r.2 then ({ Type_ := r.1, Literal := runeString l.ch.val }, readChar l)
  else ({ Type_ := ILLEGAL, Literal := runeString l.ch.val }, readChar l)

/-- Go `(*Lexer).readOperatorOrSymbol`. -/
def readOperatorOrSymbol (l : Lexer) : Token × Lexer :=
  if l.ch = 60 ∨ l.ch = 62 then
    let op := runeString l.ch.val
    let next := peekChar l
    if next = 61 ∨ (l.ch = 60 ∧ next = 62) then
      let l := readChar l
      let op := op ++ runeString l.ch.val
      let r := LookupOperator op
      if r.2 then ({ Type_ := r.1, Literal := op }, readChar l)
      else readSingle l
    else readSingle l
  else readSingle l

/-- The end of `NextToken` after the `switch`:
`if tok.Type == "" { l.readChar() }; return tok`. -/
def finish (r : Token × Lexer) : Token × Lexer :=
  if r.1.Type_ = [] then (r.1, readChar r.2) else r

/-- Go `(*Lexer).NextToken`; `none` is a run-time panic (or exhausted fuel). -/
def NextToken (mapToLower : GoString → GoString) (l : Lexer) : Option (Token × Lexer) := do
  let l ← skipWhitespace l
  if l.ch = 10 then
    let tok : Token := { Type_ := NEWLINE, Literal := [10] }
    let l := readChar l
    let l := { l with atStartOfLine := true }
    let l := { l with lineNumberRead := false }
    pure (tok, l)
  else if (l.atStartOfLine && !l.lineNumberRead) && isDigit l.ch then
    readLineNumberToken l
  else
    let l := if l.atStartOfLine && !l.lineNumberRead then { l with atStartOfLine := false } else l
    if l.ch = 34 then do
      let (lit, l) ← readString l
      pure (finish ({ Type_ := STRING, Literal := lit }, l))
    else if l.ch = 0 then
      pure (finish ({ Type_ := EOF, Literal := [] }, l))
    else if isDigit l.ch || l.ch = 46 then
      readNumber l
    else if isLetter l.ch || l.ch = 95 || l.ch = 36 then
      readIdentifier mapToLower l
    else
      pure (finish (readOperatorOrSymbol l))

/-- The first `n` calls of `NextToken`: the tokens returned, in order, and the
lexer afterwards. -/
def NextTokens (mapToLower : GoString → GoString) : Nat → Lexer → Option (List Token × Lexer)
  | 0, l => some ([], l)
  | n + 1, l => do
    let (tok, l) ← NextToken mapToLower l
    let (toks, l) ← NextTokens mapToLower n l
    pure (tok :: toks, l)

/-! ## Definitions used in the proofs

Every state reached from `New` is a canonical state `cur inp rest a b`: the
cursor stands at the start of a suffix `rest` of the input.  `scan` describes
one `NextToken` call on such a state in terms of `rest` alone; the theorem
`NextToken_cur` shows that `NextToken` computes exactly that. -/

/-- The lexer over `inp` whose cursor stands at the start of the suffix `rest`. -/
def cur (inp rest : GoString) (a b : Bool) : Lexer :=
  { input := inp
    position := inp.length - rest.length
    readPosition := inp.length - rest.length + 1
    ch := rest.headD 0
    atStartOfLine := a
    lineNumberRead := b }

/-- The loop of `readNumber` on the unread input: what is left after the
number, and the token type. -/
def numberRest : GoString → Bool → GoString → GoString × GoString
  | [], _, ty => ([], ty)
  | c :: t, d, ty =>
    if isDigit c then numberRest t d ty
    else if c = 46 ∧ !d then numberRest t true FLOAT
    else (c :: t, ty)

/-- Token of the single-character tail of `readOperatorOrSymbol` at `c`. -/
def singleTok (c : Byte) : Token :=
  if (LookupOperator (runeString c.val)).2 then
    ⟨(LookupOperator (runeString c.val)).1, runeString c.val⟩
  else ⟨ILLEGAL, runeString c.val⟩

/-- Go `readOperatorOrSymbol` on the unread input `c :: t`: the token and what
is left. -/
def scanOp (c : Byte) (t : GoString) : Token × GoString :=
  if c = 60 ∨ c = 62 then
    if t.headD 0 = 61 ∨ (c = 60 ∧ t.headD 0 = 62) then
      if (LookupOperator (runeString c.val ++ runeString (t.headD 0).val)).2 then
        (⟨(LookupOperator (runeString c.val ++ runeString (t.headD 0).val)).1,
          runeString c.val ++ runeString (t.headD 0).val⟩, t.tail)
      else (singleTok (t.headD 0), t.tail)
    else (singleTok c, t)
  else (singleTok c, t)

/-- Result of one `NextToken` call seen from the unread input: the token, the
input left unread, and the two line flags. -/
structure Step where
  tok : Token
  rest : GoString
  atStart : Bool
  lineRead : Bool

/-- One call of `NextToken` when `rest` is unread and the flags are `a`
(atStartOfLine) and `b` (lineNumberRead). -/
def scan (m : GoString → GoString) (rest : GoString) (a b : Bool) : Step :=
  let r := rest.dropWhile isBlank
  let c := r.headD 0
  if c = 10 then ⟨⟨NEWLINE, [10]⟩, r.tail, true, false⟩
  else if (a && !b) && isDigit c then
    ⟨⟨LINENO, r.takeWhile isDigit⟩, r.dropWhile isDigit, false, true⟩
  else
    let a1 := if a && !b then false else a
    if c = 34 then
      ⟨⟨STRING, r.tail.takeWhile isStrChar⟩,
        (if (r.tail.dropWhile isStrChar).headD 0 = 34 then (r.tail.dropWhile isStrChar).tail
         else r.tail.dropWhile isStrChar), a1, b⟩
    else if c = 0 then ⟨⟨EOF, []⟩, r, a1, b⟩
    else if isDigit c || c = 46 then
      ⟨⟨(numberRest r false INTEGER).2, r.take (r.length - (numberRest r false INTEGER).1.length)⟩,
        (numberRest r false INTEGER).1, a1, b⟩
    else if isLetter c || c = 95 || c = 36 then
      if LookupIdentifier m (r.takeWhile isIdentifierChar) = REM then
        ⟨⟨REM, TrimSpace (((r.dropWhile isIdentifierChar).dropWhile isBlank).takeWhile isRemChar)⟩,
          ((r.dropWhile isIdentifierChar).dropWhile isBlank).dropWhile isRemChar, a1, b⟩
      else
        ⟨⟨LookupIdentifier m (r.takeWhile isIdentifierChar), r.takeWhile isIdentifierChar⟩,
          r.dropWhile isIdentifierChar, a1, b⟩
    else ⟨(scanOp c r.tail).1, (scanOp c r.tail).2, a1, b⟩

/-- The `switch` of `NextToken` with what follows it. -/
def dispatch (m : GoString → GoString) (l : Lexer) : Option (Token × Lexer) :=
  if l.ch = 34 then
    (readString l).bind (fun r => some (finish ({ Type_ := STRING, Literal := r.1 }, r.2)))
  else if l.ch = 0 then some (finish ({ Type_ := EOF, Literal := [] }, l))
  else if isDigit l.ch || l.ch = 46 then readNumber l
  else if isLetter l.ch || l.ch = 95 || l.ch = 36 then readIdentifier m l
  else some (finish (readOperatorOrSymbol l))

/-- The line-start bookkeeping of `NextToken` when no line number is read. -/
def clearStart (l : Lexer) : Lexer :=
  if l.atStartOfLine && !l.lineNumberRead then { l with atStartOfLine := false } else l

/-- The first `n` calls of `NextToken` seen from the unread input: the tokens
and the last step's unread input and flags. -/
def scans (m : GoString → GoString) : Nat → GoString → Bool → Bool →
    List Token × GoString × Bool × Bool
  | 0, rest, a, b => ([], rest, a, b)
  | n + 1, rest, a, b =>
    let s := scan m rest a b
    let r := scans m n s.rest s.atStart s.lineRead
    (s.tok :: r.1, r.2)

/-- The tokens returned by the first `n` calls of `NextToken` on `New(s)`. -/
def Tokens (m : GoString → GoString) (n : Nat) (s : GoString) : Option (List Token) :=
  (NextTokens m n (New s)).map Prod.fst

/-- The eight spellings of "rem" in any letter case. -/
def remSpellings : List GoString :=
  [goStr "rem", goStr "reM", goStr "rEm", goStr "rEM",
   goStr "Rem", goStr "ReM", goStr "REm", goStr "REM"]

/-- ASCII lower-casing of one byte, as in the fast path of `strings.ToLower`. -/
def lowerByte (c : Byte) : Byte := if 65 ≤ c.val ∧ c.val ≤ 90 then byteOf (c.val + 32) else c

/-- The text the claim describes: `body` with its leading and trailing space,
tab and carriage return bytes removed. -/
def trimHorizontal (body : GoString) : GoString :=
  ((body.dropWhile isBlank).reverse.dropWhile isBlank).reverse

/-- The 24 keyword spellings, lower case. -/
def keywordSpellings : List GoString :=
  [goStr "end", goStr "gosub", goStr "goto", goStr "input", goStr "let", goStr "print",
   goStr "rem", goStr "return", goStr "for", goStr "next", goStr "step", goStr "to",
   goStr "if", goStr "then", goStr "else", goStr "and", goStr "or", goStr "xor",
   goStr "def", goStr "dim", goStr "fn", goStr "read", goStr "swap", goStr "data"]

/-- The 24 keyword kinds. -/
def keywordKinds : List GoString :=
  [END, GOSUB, GOTO, INPUT, LET, PRINT, REM, RETURN, FOR, NEXT, STEP, TO,
   IF, THEN, ELSE, AND, OR, XOR, DEF, DIM, FN, READ, SWAP, DATA]

/-- ASCII upper-casing of one byte. -/
def upperByte (c : Byte) : Byte := if 97 ≤ c.val ∧ c.val ≤ 122 then byteOf (c.val - 32) else c

/-- The operator spellings in the order the specification lists them. -/
def operatorSpellings : List GoString :=
  [goStr "=", goStr "*", goStr ",", goStr "-", goStr "%", goStr "+", goStr "/", goStr "^",
   goStr ":", goStr ";", goStr "(", goStr ")", goStr "[", goStr "]", goStr ">", goStr ">=",
   goStr "<", goStr "<=", goStr "<>"]

/-- The keys of `operatorMap` that are one byte long. -/
def singleCharOperators : List GoString :=
  (operatorMap.map Prod.fst).filter (fun k => k.length = 1)

/-- The keys of `operatorMap` that are two bytes long. -/
def twoCharOperators : List GoString :=
  (operatorMap.map Prod.fst).filter (fun k => k.length = 2)

/-- Go `strconv.IsPrint`: exact on Latin-1 (U+0020-U+007E and U+00A1-U+00FF
without the soft hyphen U+00AD); above U+00FF it is read from tables of the
Go library, here the parameter `wide`. -/
def IsPrint (wide : Nat → Bool) (r : Nat) : Bool :=
  if r ≤ 0xFF then
    if 0x20 ≤ r ∧ r ≤ 0x7E then true
    else if 0xA1 ≤ r ∧ r ≤ 0xFF then r != 0xAD
    else false
  else wide r

/-- Go `lowerhex[n]` for `n < 16`: the digit of "0123456789abcdef". -/
def lowerhex (n : Nat) : Byte := if n < 10 then byteOf (48 + n) else byteOf (87 + n)

/-- Go `utf8.ValidRune`. -/
def ValidRune (r : Nat) : Bool := r < 0xD800 || (0xDFFF < r && r ≤ 0x10FFFF)

/-- Go `strconv.appendEscapedRune(buf, r, '"', false, false)`: the bytes
appended for the rune `r`. -/
def appendEscapedRune (wide : Nat → Bool) (r : Nat) : GoString :=
  if r = 34 ∨ r = 92 then [92, byteOf r]
  else if IsPrint wide r then runeString r
  else if r = 7 then [92, 97]
  else if r = 8 then [92, 98]
  else if r = 12 then [92, 102]
  else if r = 10 then [92, 110]
  else if r = 13 then [92, 114]
  else if r = 9 then [92, 116]
  else if r = 11 then [92, 118]
  else if r < 32 ∨ r = 0x7F then [92, 120, lowerhex (r / 16 % 16), lowerhex (r % 16)]
  else
    let r := if !ValidRune r then 0xFFFD else r
    if r < 0x10000 then
      [92, 117, lowerhex (r / 4096 % 16), lowerhex (r / 256 % 16), lowerhex (r / 16 % 16),
        lowerhex (r % 16)]
    else
      [92, 85, lowerhex (r / 268435456 % 16), lowerhex (r / 16777216 % 16),
        lowerhex (r / 1048576 % 16), lowerhex (r / 65536 % 16), lowerhex (r / 4096 % 16),
        lowerhex (r / 256 % 16), lowerhex (r / 16 % 16), lowerhex (r % 16)]

/-- The loop of `strconv.appendQuotedWith` over the bytes still to read; `skip`
is the number of bytes of the current rune that are still to pass over. -/
def quoteLoop (wide : Nat → Bool) : Nat → GoString → GoString
  | _, [] => []
  | skip + 1, _ :: t => quoteLoop wide skip t
  | 0, s0 :: t =>
    let d := if 0x80 ≤ s0.val then DecodeRuneInString (s0 :: t) else (s0.val, 1)
    (if d.2 = 1 ∧ d.1 = RuneError then
        [92, 120, lowerhex (s0.val / 16), lowerhex (s0.val % 16)]
      else appendEscapedRune wide d.1) ++ quoteLoop wide (d.2 - 1) t

/-- Go `strconv.Quote`, which `fmt` uses for the verb `%q` on a string. -/
def Quote (wide : Nat → Bool) (s : GoString) : GoString :=
  34 :: (quoteLoop wide 0 s ++ [34])

/-- Go `Token.String`. -/
def Token.String (wide : Nat → Bool) (t : Token) : GoString :=
  if t.Type_ = NEWLINE then goStr "Token\x7bType: NEWLINE, Value: \\n\x7d"
  else if t.Type_ = EOF then goStr "Token\x7bType: EOF\x7d"
  else
    goStr "Token\x7bType: " ++ t.Type_ ++ goStr ", Value: " ++ Quote wide t.Literal ++
      goStr "\x7d"

/-! ## Canonical lexer states -/

theorem New_eq_cur (s : GoString) : New s = cur s s true false := by
  cases s <;> simp [New, readChar, cur]

theorem getD_after (pre : GoString) (c : Byte) (rest : GoString) :
    (pre ++ c :: rest).getD (pre.length + 1) 0 = rest.headD 0 := by
  have : pre ++ c :: rest = (pre ++ [c]) ++ rest := by simp
  rw [this, List.getD_append_right _ _ _ _ (by simp)]
  cases rest <;> simp

theorem readChar_cur (inp : GoString) (c : Byte) (rest : GoString) (a b : Bool)
    (h : (c :: rest) <:+ inp) :
    readChar (cur inp (c :: rest) a b) = cur inp rest a b := by
  obtain ⟨pre, rfl⟩ := h
  have e1 : (pre ++ c :: rest).length - (c :: rest).length + 1 = pre.length + 1 := by
    simp
  have e2 : (pre ++ c :: rest).length - rest.length = pre.length + 1 := by
    simp; omega
  simp only [readChar, cur, e1, e2, getD_after]
  cases rest with
  | nil => simp
  | cons d t => simp

theorem loopWhile_cur (p : Byte → Bool) (hp : p 0 = false) (inp : GoString) (a b : Bool) :
    ∀ (fuel : Nat) (rest : GoString), rest <:+ inp → rest.length + 1 ≤ fuel →
      loopWhile p fuel (cur inp rest a b) = some (cur inp (rest.dropWhile p) a b) := by
  intro fuel
  induction fuel with
  | zero => intro rest _ h; omega
  | succ n ih =>
    intro rest hs hf
    cases rest with
    | nil => simp [loopWhile, cur, hp]
    | cons c t =>
      have hch : (cur inp (c :: t) a b).ch = c := rfl
      by_cases hc : p c = true
      · have hs2 : t <:+ inp := (List.suffix_cons c t).trans hs
        rw [loopWhile, hch, if_pos hc, readChar_cur inp c t a b hs,
          List.dropWhile_cons_of_pos hc]
        exact ih t hs2 (by simp at hf; omega)
      · rw [loopWhile, hch, if_neg hc, List.dropWhile_cons_of_neg hc]

theorem slice_cur (inp r1 r2 : GoString) (h1 : r1 <:+ inp) (h2 : r2 <:+ r1) :
    slice inp (inp.length - r1.length) (inp.length - r2.length)
      = some (r1.take (r1.length - r2.length)) := by
  obtain ⟨pre, rfl⟩ := h1
  obtain ⟨mid, rfl⟩ := h2
  have e1 : (pre ++ (mid ++ r2)).length - (mid ++ r2).length = pre.length := by simp
  have e2 : (pre ++ (mid ++ r2)).length - r2.length = pre.length + mid.length := by
    simp; omega
  have e3 : (mid ++ r2).length - r2.length = mid.length := by simp
  rw [e1, e2, e3]
  have : pre ++ (mid ++ r2) = (pre ++ mid) ++ r2 := by simp
  simp only [slice]
  rw [if_pos (by simp)]
  rw [this, List.take_left' (by simp), List.drop_left, List.take_left]

theorem slice_takeWhile (p : Byte → Bool) (inp r1 : GoString) (h1 : r1 <:+ inp) :
    slice inp (inp.length - r1.length) (inp.length - (r1.dropWhile p).length)
      = some (r1.takeWhile p) := by
  rw [slice_cur inp r1 _ h1 (List.dropWhile_suffix p)]
  congr 1
  have e := List.takeWhile_append_dropWhile p r1
  have hl : r1.length - (r1.dropWhile p).length = (r1.takeWhile p).length := by
    have := congrArg List.length e
    rw [List.length_append] at this
    omega
  rw [hl]
  calc List.take (r1.takeWhile p).length r1
      = List.take (r1.takeWhile p).length (r1.takeWhile p ++ r1.dropWhile p) := by rw [e]
    _ = r1.takeWhile p := List.take_left' rfl

/-! ## The sub-scanners on canonical states -/

theorem fuel_ok {inp rest : GoString} (a b : Bool) (h : rest <:+ inp) :
    rest.length + 1 ≤ loopFuel (cur inp rest a b) := by
  have := h.length_le
  simp only [loopFuel, cur]
  omega

theorem isBlank_zero : isBlank 0 = false := by decide

theorem isDigit_zero : isDigit 0 = false := by decide

theorem isIdentifierChar_zero : isIdentifierChar 0 = false := by decide

theorem skipWhitespace_cur {inp rest : GoString} (a b : Bool) (h : rest <:+ inp) :
    skipWhitespace (cur inp rest a b) = some (cur inp (rest.dropWhile isBlank) a b) :=
  loopWhile_cur isBlank isBlank_zero inp a b _ rest h (fuel_ok a b h)

theorem cur_position (inp rest : GoString) (a b : Bool) :
    (cur inp rest a b).position = inp.length - rest.length := rfl

theorem cur_input (inp rest : GoString) (a b : Bool) : (cur inp rest a b).input = inp := rfl

theorem cur_ch (inp rest : GoString) (a b : Bool) : (cur inp rest a b).ch = rest.headD 0 := rfl

theorem readLineNumber_cur {inp rest : GoString} (a b : Bool) (h : rest <:+ inp) :
    readLineNumber (cur inp rest a b)
      = some (rest.takeWhile isDigit, cur inp (rest.dropWhile isDigit) a b) := by
  simp only [readLineNumber, bind, Option.bind, pure,
    loopWhile_cur isDigit isDigit_zero inp a b _ rest h (fuel_ok a b h), cur_position, cur_input,
    slice_takeWhile isDigit inp rest h]

theorem readLineNumberToken_cur {inp rest : GoString} (a b : Bool) (h : rest <:+ inp) :
    readLineNumberToken (cur inp rest a b)
      = some (⟨LINENO, rest.takeWhile isDigit⟩, cur inp (rest.dropWhile isDigit) false true) := by
  simp only [readLineNumberToken, bind, Option.bind, pure, readLineNumber_cur a b h]
  rfl

theorem readRemComment_cur {inp rest : GoString} (a b : Bool) (h : rest <:+ inp) :
    readRemComment (cur inp rest a b)
      = some (TrimSpace (rest.takeWhile isRemChar), cur inp (rest.dropWhile isRemChar) a b) := by
  simp only [readRemComment, bind, Option.bind, pure,
    loopWhile_cur isRemChar (by decide) inp a b _ rest h (fuel_ok a b h), cur_position, cur_input,
    slice_takeWhile isRemChar inp rest h]

theorem readString_cur {inp t : GoString} (a b : Bool) (h : ((34 : Byte) :: t) <:+ inp) :
    readString (cur inp (34 :: t) a b)
      = some (t.takeWhile isStrChar,
          cur inp (if (t.dropWhile isStrChar).headD 0 = 34 then (t.dropWhile isStrChar).tail
                   else t.dropWhile isStrChar) a b) := by
  have ht : t <:+ inp := (List.suffix_cons _ t).trans h
  have hl := loopWhile_cur isStrChar (by decide) inp a b _ t ht (fuel_ok a b ht)
  have hs := slice_takeWhile isStrChar inp t ht
  simp only [loopFuel, cur_input] at hl
  simp only [readString, bind, Option.bind, pure, readChar_cur inp 34 t a b h, loopFuel, cur_input,
    hl, cur_position, hs, cur_ch]
  split_ifs with hq
  · have hne : t.dropWhile isStrChar ≠ [] := by
      intro e; rw [e] at hq; simp at hq
    obtain ⟨c, r, e⟩ := List.exists_cons_of_ne_nil hne
    have hsuf : (c :: r) <:+ inp := by
      rw [← e]; exact (List.dropWhile_suffix _).trans ht
    rw [e] at hq ⊢
    simp only [List.headD_cons] at hq
    rw [readChar_cur inp c r a b hsuf]
    rfl
  · rfl

theorem numberRest_suffix : ∀ (r : GoString) (d : Bool) (ty : GoString),
    (numberRest r d ty).1 <:+ r := by
  intro r
  induction r with
  | nil => intro d ty; simp [numberRest]
  | cons c t ih =>
    intro d ty
    simp only [numberRest]
    split_ifs
    · exact (ih d ty).trans (List.suffix_cons c t)
    · exact (ih true FLOAT).trans (List.suffix_cons c t)
    · exact List.suffix_refl _

theorem readNumberLoop_cur (inp : GoString) (a b : Bool) :
    ∀ (fuel : Nat) (rest : GoString) (d : Bool) (ty : GoString), rest <:+ inp →
      rest.length + 1 ≤ fuel →
      readNumberLoop fuel (cur inp rest a b) d ty
        = some (cur inp (numberRest rest d ty).1 a b, (numberRest rest d ty).2) := by
  intro fuel
  induction fuel with
  | zero => intro rest _ _ _ h; omega
  | succ n ih =>
    intro rest d ty hs hf
    cases rest with
    | nil => simp [readNumberLoop, cur, numberRest, isDigit_zero]
    | cons c t =>
      have hch : (cur inp (c :: t) a b).ch = c := rfl
      have hs2 : t <:+ inp := (List.suffix_cons c t).trans hs
      have hf2 : t.length + 1 ≤ n := by simp at hf; omega
      rw [readNumberLoop, hch, numberRest]
      split_ifs
      · rw [readChar_cur inp c t a b hs]; exact ih t d ty hs2 hf2
      · rw [readChar_cur inp c t a b hs]; exact ih t true FLOAT hs2 hf2
      · rfl

theorem readNumber_cur {inp rest : GoString} (a b : Bool) (h : rest <:+ inp) :
    readNumber (cur inp rest a b)
      = some (⟨(numberRest rest false INTEGER).2,
                rest.take (rest.length - (numberRest rest false INTEGER).1.length)⟩,
              cur inp (numberRest rest false INTEGER).1 a b) := by
  simp only [readNumber, bind, Option.bind, pure,
    readNumberLoop_cur inp a b _ rest false INTEGER h (fuel_ok a b h), cur_position, cur_input,
    slice_cur inp rest _ h (numberRest_suffix rest false INTEGER)]

theorem readIdentifier_cur (m : GoString → GoString) {inp rest : GoString} (a b : Bool)
    (h : rest <:+ inp) :
    readIdentifier m (cur inp rest a b)
      = some (if LookupIdentifier m (rest.takeWhile isIdentifierChar) = REM then
          (⟨REM, TrimSpace (((rest.dropWhile isIdentifierChar).dropWhile isBlank).takeWhile
              isRemChar)⟩,
            cur inp (((rest.dropWhile isIdentifierChar).dropWhile isBlank).dropWhile isRemChar) a b)
        else
          (⟨LookupIdentifier m (rest.takeWhile isIdentifierChar),
              rest.takeWhile isIdentifierChar⟩,
            cur inp (rest.dropWhile isIdentifierChar) a b)) := by
  have h1 : rest.dropWhile isIdentifierChar <:+ inp := (List.dropWhile_suffix _).trans h
  have h2 : (rest.dropWhile isIdentifierChar).dropWhile isBlank <:+ inp :=
    (List.dropWhile_suffix _).trans h1
  simp only [readIdentifier, bind, Option.bind, pure,
    loopWhile_cur isIdentifierChar isIdentifierChar_zero inp a b _ rest h (fuel_ok a b h),
    cur_position, cur_input, slice_takeWhile isIdentifierChar inp rest h]
  split_ifs with hr
  · simp only [skipWhitespace_cur a b h1, readRemComment_cur a b h2]
  · rfl

theorem readSingle_cur {inp t : GoString} (c : Byte) (a b : Bool) (h : (c :: t) <:+ inp) :
    readSingle (cur inp (c :: t) a b) = (singleTok c, cur inp t a b) := by
  simp only [readSingle, singleTok, cur_ch, List.headD_cons, readChar_cur inp c t a b h]
  split_ifs <;> rfl

theorem peekChar_cur {inp t : GoString} (c : Byte) (a b : Bool) (h : (c :: t) <:+ inp) :
    peekChar (cur inp (c :: t) a b) = t.headD 0 := by
  obtain ⟨pre, rfl⟩ := h
  have e1 : (pre ++ c :: t).length - (c :: t).length + 1 = pre.length + 1 := by simp
  simp only [peekChar, cur, e1, getD_after]
  cases t <;> simp

theorem readOperatorOrSymbol_cur {inp t : GoString} (c : Byte) (a b : Bool)
    (h : (c :: t) <:+ inp) :
    readOperatorOrSymbol (cur inp (c :: t) a b)
      = ((scanOp c t).1, cur inp (scanOp c t).2 a b) := by
  simp only [readOperatorOrSymbol, scanOp, cur_ch, List.headD_cons, peekChar_cur c a b h,
    readChar_cur inp c t a b h]
  by_cases h1 : c = 60 ∨ c = 62
  · rw [if_pos h1, if_pos h1]
    by_cases h2 : t.headD 0 = 61 ∨ (c = 60 ∧ t.headD 0 = 62)
    · rw [if_pos h2, if_pos h2]
      have hne : t ≠ [] := by
        intro e; subst e
        simp at h2
      obtain ⟨n, r, e⟩ := List.exists_cons_of_ne_nil hne
      subst e
      have hs2 : (n :: r) <:+ inp := (List.suffix_cons c _).trans h
      simp only [List.headD_cons, List.tail_cons, cur_ch, readChar_cur inp n r a b hs2,
        readSingle_cur n a b hs2]
      split_ifs <;> rfl
    · rw [if_neg h2, if_neg h2, readSingle_cur c a b h]
  · rw [if_neg h1, if_neg h1, readSingle_cur c a b h]

theorem scanOp_suffix (c : Byte) (t : GoString) : (scanOp c t).2 <:+ t := by
  simp only [scanOp]
  split_ifs <;> first | exact List.suffix_refl _ | exact List.tail_suffix _

/-! ## One call of `NextToken` on the unread input -/

theorem lookup_mem (k v : GoString) : ∀ (mp : List (GoString × GoString)),
    mp.lookup k = some v → v ∈ mp.map Prod.snd := by
  intro mp
  induction mp with
  | nil => intro h; simp at h
  | cons e t ih =>
    obtain ⟨k1, v1⟩ := e
    intro h
    cases hk : (k == k1) with
    | true =>
      simp only [List.lookup, hk] at h
      simp only [Option.some.injEq] at h
      simp [h]
    | false =>
      simp only [List.lookup, hk] at h
      simp [ih h]

/-- Values of a Go map given by its entries include every successful lookup. -/
theorem mapIndex_mem (mp : List (GoString × GoString)) (k : GoString)
    (h : (mapIndex mp k).2 = true) : (mapIndex mp k).1 ∈ mp.map Prod.snd := by
  unfold mapIndex at h ⊢
  cases hl : mp.lookup k with
  | none => rw [hl] at h; simp at h
  | some v => exact lookup_mem k v mp hl

theorem operator_types : ∀ v ∈ operatorMap.map Prod.snd,
    v ≠ [] ∧ v ≠ EOF ∧ v ≠ LINENO ∧ v ≠ NEWLINE ∧ v ≠ REM ∧ v ≠ ILLEGAL := by decide

theorem keyword_types : ∀ v ∈ keywordMap.map Prod.snd,
    v ≠ [] ∧ v ≠ EOF ∧ v ≠ LINENO ∧ v ≠ NEWLINE ∧ v ≠ ILLEGAL := by decide

theorem singleTok_type (c : Byte) : (singleTok c).Type_ ≠ [] ∧ (singleTok c).Type_ ≠ EOF ∧
    (singleTok c).Type_ ≠ LINENO ∧ (singleTok c).Type_ ≠ NEWLINE ∧ (singleTok c).Type_ ≠ REM := by
  simp only [singleTok]
  split_ifs with h
  · have := operator_types _ (mapIndex_mem operatorMap _ h)
    exact ⟨this.1, this.2.1, this.2.2.1, this.2.2.2.1, this.2.2.2.2.1⟩
  · show ILLEGAL ≠ [] ∧ ILLEGAL ≠ EOF ∧ ILLEGAL ≠ LINENO ∧ ILLEGAL ≠ NEWLINE ∧ ILLEGAL ≠ REM
    decide

theorem scanOp_type (c : Byte) (t : GoString) : (scanOp c t).1.Type_ ≠ [] ∧
    (scanOp c t).1.Type_ ≠ EOF ∧ (scanOp c t).1.Type_ ≠ LINENO ∧
    (scanOp c t).1.Type_ ≠ NEWLINE ∧ (scanOp c t).1.Type_ ≠ REM := by
  simp only [scanOp]
  split_ifs with h1 h2 h3
  · have := operator_types _ (mapIndex_mem operatorMap _ h3)
    exact ⟨this.1, this.2.1, this.2.2.1, this.2.2.2.1, this.2.2.2.2.1⟩
  · exact singleTok_type _
  · exact singleTok_type _
  · exact singleTok_type _

theorem finish_of_ne (tok : Token) (l : Lexer) (h : tok.Type_ ≠ []) : finish (tok, l) = (tok, l) := by
  simp [finish, h]

theorem scan_suffix (m : GoString → GoString) (rest : GoString) (a b : Bool) :
    (scan m rest a b).rest <:+ rest := by
  have hr : rest.dropWhile isBlank <:+ rest := List.dropWhile_suffix _
  have ht : (rest.dropWhile isBlank).tail <:+ rest := (List.tail_suffix _).trans hr
  simp only [scan]
  split_ifs <;> first
    | exact ht
    | exact hr
    | exact (List.dropWhile_suffix _).trans hr
    | exact (List.dropWhile_suffix _).trans ht
    | exact (List.tail_suffix _).trans ((List.dropWhile_suffix _).trans ht)
    | exact (numberRest_suffix _ _ _).trans hr
    | exact (List.dropWhile_suffix _).trans
        ((List.dropWhile_suffix _).trans ((List.dropWhile_suffix _).trans hr))
    | exact (scanOp_suffix _ _).trans ht

theorem cur_atStartOfLine (inp rest : GoString) (a b : Bool) :
    (cur inp rest a b).atStartOfLine = a := rfl

theorem cur_lineNumberRead (inp rest : GoString) (a b : Bool) :
    (cur inp rest a b).lineNumberRead = b := rfl

theorem NextToken_eq (m : GoString → GoString) (l : Lexer) :
    NextToken m l = (skipWhitespace l).bind (fun l =>
      if l.ch = 10 then
        some (⟨NEWLINE, [10]⟩, { readChar l with atStartOfLine := true, lineNumberRead := false })
      else if (l.atStartOfLine && !l.lineNumberRead) && isDigit l.ch then readLineNumberToken l
      else dispatch m (clearStart l)) := by
  rfl

theorem clearStart_cur (inp rest : GoString) (a b : Bool) :
    clearStart (cur inp rest a b) = cur inp rest (if a && !b then false else a) b := by
  cases a <;> cases b <;> rfl

theorem dispatch_cur (m : GoString → GoString) {inp : GoString} (c : Byte) (t : GoString)
    (a b : Bool) (hr : (c :: t) <:+ inp) :
    dispatch m (cur inp (c :: t) a b) = some (
      if c = 34 then
        (⟨STRING, t.takeWhile isStrChar⟩,
          cur inp (if (t.dropWhile isStrChar).headD 0 = 34 then (t.dropWhile isStrChar).tail
            else t.dropWhile isStrChar) a b)
      else if c = 0 then (⟨EOF, []⟩, cur inp (c :: t) a b)
      else if isDigit c || c = 46 then
        (⟨(numberRest (c :: t) false INTEGER).2,
            (c :: t).take ((c :: t).length - (numberRest (c :: t) false INTEGER).1.length)⟩,
          cur inp (numberRest (c :: t) false INTEGER).1 a b)
      else if isLetter c || c = 95 || c = 36 then
        (if LookupIdentifier m ((c :: t).takeWhile isIdentifierChar) = REM then
          (⟨REM, TrimSpace ((((c :: t).dropWhile isIdentifierChar).dropWhile isBlank).takeWhile
              isRemChar)⟩,
            cur inp ((((c :: t).dropWhile isIdentifierChar).dropWhile isBlank).dropWhile
              isRemChar) a b)
        else
          (⟨LookupIdentifier m ((c :: t).takeWhile isIdentifierChar),
              (c :: t).takeWhile isIdentifierChar⟩,
            cur inp ((c :: t).dropWhile isIdentifierChar) a b))
      else ((scanOp c t).1, cur inp (scanOp c t).2 a b)) := by
  simp only [dispatch, cur_ch, List.headD_cons]
  by_cases h34 : c = 34
  · subst h34
    simp only [if_true, readString_cur a b hr, Option.bind]
    rw [finish_of_ne _ _ (show STRING ≠ [] by decide)]
  · simp only [if_neg h34]
    by_cases h0 : c = 0
    · subst h0
      simp only [if_true]
      rw [finish_of_ne _ _ (show EOF ≠ [] by decide)]
    · simp only [if_neg h0]
      by_cases hd : (isDigit c || decide (c = 46)) = true
      · simp only [hd, if_true, readNumber_cur a b hr]
      · simp only [hd, if_false, Bool.false_eq_true]
        by_cases hl : (isLetter c || decide (c = 95) || decide (c = 36)) = true
        · simp only [hl, if_true, readIdentifier_cur m a b hr]
        · simp only [hl, if_false, Bool.false_eq_true, readOperatorOrSymbol_cur c a b hr]
          rw [finish_of_ne _ _ (scanOp_type c t).1]

/-- `NextToken` on a canonical state is `scan` on the unread input. -/
theorem NextToken_cur (m : GoString → GoString) {inp rest : GoString} (a b : Bool)
    (h : rest <:+ inp) :
    NextToken m (cur inp rest a b)
      = some ((scan m rest a b).tok,
          cur inp (scan m rest a b).rest (scan m rest a b).atStart (scan m rest a b).lineRead) := by
  have hr : rest.dropWhile isBlank <:+ inp := (List.dropWhile_suffix _).trans h
  simp only [NextToken_eq, skipWhitespace_cur a b h, Option.bind, scan]
  generalize rest.dropWhile isBlank = r at hr
  cases r with
  | nil =>
    have he : EOF ≠ [] := by decide
    simp only [cur_ch, List.headD_nil, clearStart_cur, cur_atStartOfLine, cur_lineNumberRead,
      isDigit_zero, Bool.and_false, Bool.false_eq_true, if_false, dispatch]
    simp [finish, he]
  | cons c t =>
    simp only [cur_ch, List.headD_cons, List.tail_cons, cur_atStartOfLine, cur_lineNumberRead,
      clearStart_cur, dispatch_cur m c t _ b hr]
    by_cases h10 : c = 10
    · subst h10
      simp only [if_true, readChar_cur inp 10 t a b hr]
      rfl
    · simp only [if_neg h10]
      by_cases hln : ((a && !b) && isDigit c) = true
      · simp only [hln, if_true, readLineNumberToken_cur a b hr]
      · simp only [hln, if_false, Bool.false_eq_true]
        split_ifs <;> rfl

theorem scans_suffix (m : GoString → GoString) : ∀ (n : Nat) (rest : GoString) (a b : Bool),
    (scans m n rest a b).2.1 <:+ rest := by
  intro n
  induction n with
  | zero => intro rest a b; exact List.suffix_refl _
  | succ n ih =>
    intro rest a b
    exact (ih _ _ _).trans (scan_suffix m rest a b)

theorem NextTokens_cur (m : GoString → GoString) (inp : GoString) :
    ∀ (n : Nat) (rest : GoString) (a b : Bool), rest <:+ inp →
      NextTokens m n (cur inp rest a b)
        = some ((scans m n rest a b).1,
            cur inp (scans m n rest a b).2.1 (scans m n rest a b).2.2.1
              (scans m n rest a b).2.2.2) := by
  intro n
  induction n with
  | zero => intro rest a b _; rfl
  | succ n ih =>
    intro rest a b h
    simp only [NextTokens, bind, Option.bind, pure, NextToken_cur m a b h,
      ih _ _ _ ((scan_suffix m rest a b).trans h), scans]

theorem NextTokens_New (m : GoString → GoString) (s : GoString) (n : Nat) :
    NextTokens m n (New s)
      = some ((scans m n s true false).1,
          cur s (scans m n s true false).2.1 (scans m n s true false).2.2.1
            (scans m n s true false).2.2.2) := by
  rw [New_eq_cur]
  exact NextTokens_cur m s n s true false (List.suffix_refl s)

theorem scans_length (m : GoString → GoString) : ∀ (n : Nat) (rest : GoString) (a b : Bool),
    (scans m n rest a b).1.length = n := by
  intro n
  induction n with
  | zero => intro rest a b; rfl
  | succ n ih => intro rest a b; simp [scans, ih]

theorem scan_nil (m : GoString → GoString) (rest : GoString) (a b : Bool)
    (h : rest.dropWhile isBlank = []) :
    scan m rest a b = ⟨⟨EOF, []⟩, [], (if a && !b then false else a), b⟩ := by
  simp [scan, h, isDigit_zero]

theorem scan_cons (m : GoString → GoString) (rest : GoString) (a b : Bool) (c : Byte)
    (t : GoString) (h : rest.dropWhile isBlank = c :: t) :
    scan m rest a b =
      if c = 10 then ⟨⟨NEWLINE, [10]⟩, t, true, false⟩
      else if (a && !b) && isDigit c then
        ⟨⟨LINENO, (c :: t).takeWhile isDigit⟩, (c :: t).dropWhile isDigit, false, true⟩
      else if c = 34 then
        ⟨⟨STRING, t.takeWhile isStrChar⟩,
          (if (t.dropWhile isStrChar).headD 0 = 34 then (t.dropWhile isStrChar).tail
           else t.dropWhile isStrChar), (if a && !b then false else a), b⟩
      else if c = 0 then ⟨⟨EOF, []⟩, c :: t, (if a && !b then false else a), b⟩
      else if isDigit c || c = 46 then
        ⟨⟨(numberRest (c :: t) false INTEGER).2,
            (c :: t).take ((c :: t).length - (numberRest (c :: t) false INTEGER).1.length)⟩,
          (numberRest (c :: t) false INTEGER).1, (if a && !b then false else a), b⟩
      else if isLetter c || c = 95 || c = 36 then
        if LookupIdentifier m ((c :: t).takeWhile isIdentifierChar) = REM then
          ⟨⟨REM, TrimSpace ((((c :: t).dropWhile isIdentifierChar).dropWhile isBlank).takeWhile
              isRemChar)⟩,
            (((c :: t).dropWhile isIdentifierChar).dropWhile isBlank).dropWhile isRemChar,
            (if a && !b then false else a), b⟩
        else
          ⟨⟨LookupIdentifier m ((c :: t).takeWhile isIdentifierChar),
              (c :: t).takeWhile isIdentifierChar⟩,
            (c :: t).dropWhile isIdentifierChar, (if a && !b then false else a), b⟩
      else ⟨(scanOp c t).1, (scanOp c t).2, (if a && !b then false else a), b⟩ := by
  simp only [scan, h, List.headD_cons, List.tail_cons]

theorem LookupIdentifier_mem (m : GoString → GoString) (s : GoString) :
    LookupIdentifier m s ∈ IDENT :: keywordMap.map Prod.snd := by
  simp only [LookupIdentifier]
  split_ifs with h
  · exact List.mem_cons_of_mem _ (mapIndex_mem keywordMap _ h)
  · exact List.mem_cons_self _ _

theorem ident_types : ∀ v ∈ IDENT :: keywordMap.map Prod.snd,
    v ≠ [] ∧ v ≠ EOF ∧ v ≠ LINENO ∧ v ≠ NEWLINE ∧ v ≠ ILLEGAL := by decide

theorem numberRest_type : ∀ (r : GoString) (d : Bool) (ty : GoString),
    (numberRest r d ty).2 = ty ∨ (numberRest r d ty).2 = FLOAT := by
  intro r
  induction r with
  | nil => intro d ty; left; rfl
  | cons c t ih =>
    intro d ty
    simp only [numberRest]
    split_ifs
    · exact ih d ty
    · right; rcases ih true FLOAT with h | h <;> exact h
    · left; rfl

theorem number_type (r : GoString) :
    (numberRest r false INTEGER).2 = INTEGER ∨ (numberRest r false INTEGER).2 = FLOAT :=
  numberRest_type r false INTEGER

theorem dropWhile_cons_suffix (p : Byte → Bool) (c : Byte) (t : GoString) (h : p c = true) :
    (c :: t).dropWhile p <:+ t := by
  rw [List.dropWhile_cons_of_pos h]
  exact List.dropWhile_suffix p

theorem numberRest_cons_suffix (c : Byte) (t : GoString)
    (h : (isDigit c || decide (c = 46)) = true) :
    (numberRest (c :: t) false INTEGER).1 <:+ t := by
  simp only [numberRest]
  split_ifs with h1 h2
  · exact numberRest_suffix _ _ _
  · exact numberRest_suffix _ _ _
  · simp at h h2
    rcases h with h | h
    · exact absurd h h1
    · exact absurd h h2

theorem isIdentifierChar_of_start (c : Byte) (h : (isLetter c || c = 95 || c = 36) = true) :
    isIdentifierChar c = true := by
  simp only [isIdentifierChar]
  simp only [Bool.or_eq_true, decide_eq_true_eq] at h ⊢
  rcases h with (h | h) | h
  · exact Or.inl (Or.inl (Or.inl h))
  · exact Or.inl (Or.inr h)
  · exact Or.inr h

/-- Every call either returns EOF with the cursor on the 0 sentinel (and stays
there), or returns another token and consumes at least one byte. -/
theorem scan_progress (m : GoString → GoString) (rest : GoString) (a b : Bool) :
    ((scan m rest a b).tok = ⟨EOF, []⟩ ∧ (rest.dropWhile isBlank).headD 0 = 0 ∧
        (scan m rest a b).rest = rest.dropWhile isBlank) ∨
    ((scan m rest a b).tok.Type_ ≠ EOF ∧ (rest.dropWhile isBlank).headD 0 ≠ 0 ∧
        (scan m rest a b).rest <:+ (rest.dropWhile isBlank).tail) := by
  cases hr : rest.dropWhile isBlank with
  | nil => left; rw [scan_nil m rest a b hr]; exact ⟨rfl, rfl, rfl⟩
  | cons c t =>
    rw [scan_cons m rest a b c t hr]
    simp only [List.headD_cons, List.tail_cons]
    by_cases h10 : c = 10
    · right; subst h10; rw [if_pos rfl]
      exact ⟨(show NEWLINE ≠ EOF by decide), by decide, List.suffix_refl _⟩
    rw [if_neg h10]
    by_cases hln : ((a && !b) && isDigit c) = true
    · right; rw [if_pos hln]
      have hd : isDigit c = true := by simp at hln; exact hln.2
      refine ⟨(show LINENO ≠ EOF by decide), ?_, dropWhile_cons_suffix _ _ _ hd⟩
      intro h0; subst h0; simp [isDigit_zero] at hd
    rw [if_neg hln]
    by_cases h34 : c = 34
    · right; subst h34; rw [if_pos rfl]
      refine ⟨(show STRING ≠ EOF by decide), by decide, ?_⟩
      show (if (t.dropWhile isStrChar).headD 0 = 34 then (t.dropWhile isStrChar).tail
           else t.dropWhile isStrChar) <:+ t
      split_ifs
      · exact (List.tail_suffix _).trans (List.dropWhile_suffix _)
      · exact List.dropWhile_suffix _
    rw [if_neg h34]
    by_cases h0 : c = 0
    · left; subst h0; rw [if_pos rfl]; exact ⟨rfl, rfl, rfl⟩
    rw [if_neg h0]
    by_cases hd : (isDigit c || decide (c = 46)) = true
    · right; rw [if_pos hd]
      refine ⟨?_, h0, numberRest_cons_suffix c t hd⟩
      show (numberRest (c :: t) false INTEGER).2 ≠ EOF
      rcases number_type (c :: t) with h | h <;> rw [h] <;> decide
    rw [if_neg hd]
    by_cases hl : (isLetter c || decide (c = 95) || decide (c = 36)) = true
    · right; rw [if_pos hl]
      have hi := isIdentifierChar_of_start c hl
      by_cases hrem : LookupIdentifier m ((c :: t).takeWhile isIdentifierChar) = REM
      · rw [if_pos hrem]
        refine ⟨(show REM ≠ EOF by decide), h0, ?_⟩
        exact (List.dropWhile_suffix _).trans
          ((List.dropWhile_suffix _).trans (dropWhile_cons_suffix _ _ _ hi))
      · rw [if_neg hrem]
        refine ⟨?_, h0, dropWhile_cons_suffix _ _ _ hi⟩
        exact (ident_types _ (LookupIdentifier_mem m _)).2.1
    rw [if_neg hl]
    right
    exact ⟨(scanOp_type c t).2.1, h0, scanOp_suffix c t⟩

theorem scans_eof (m : GoString → GoString) : ∀ (k : Nat) (rest : GoString) (a b : Bool),
    (rest.dropWhile isBlank).headD 0 = 0 →
    (scans m k rest a b).1 = List.replicate k ⟨EOF, []⟩ := by
  intro k
  induction k with
  | zero => intro rest a b _; rfl
  | succ k ih =>
    intro rest a b h
    rcases scan_progress m rest a b with ⟨h1, _, h3⟩ | ⟨_, h2, _⟩
    · simp only [scans, List.replicate_succ, h1]
      congr 1
      apply ih
      rw [h3, List.dropWhile_idempotent]
      exact h
    · exact absurd h h2

theorem scans_until_eof (m : GoString → GoString) : ∀ (N : Nat) (rest : GoString) (a b : Bool),
    rest.length ≤ N →
    ∃ n, n ≤ rest.length ∧ ∀ k,
      (∀ t ∈ (scans m (n + k) rest a b).1.take n, t.Type_ ≠ EOF) ∧
      (scans m (n + k) rest a b).1.drop n = List.replicate k ⟨EOF, []⟩ := by
  intro N
  induction N with
  | zero =>
    intro rest a b h
    refine ⟨0, Nat.zero_le _, fun k => ⟨by simp, ?_⟩⟩
    have : rest = [] := List.length_eq_zero.mp (Nat.le_zero.mp h)
    subst this
    simpa using scans_eof m k [] a b rfl
  | succ N ih =>
    intro rest a b h
    rcases scan_progress m rest a b with ⟨_, h2, _⟩ | ⟨h1, h2, h3⟩
    · refine ⟨0, Nat.zero_le _, fun k => ⟨by simp, ?_⟩⟩
      simpa using scans_eof m k rest a b h2
    · have hne : rest.dropWhile isBlank ≠ [] := by
        intro e; rw [e] at h2; exact h2 rfl
      have hlen : (scan m rest a b).rest.length < rest.length := by
        have l1 := h3.length_le
        have l2 := (List.dropWhile_suffix isBlank (l := rest)).length_le
        have l3 := List.length_pos.mpr hne
        rw [List.length_tail] at l1
        omega
      obtain ⟨n, hn, hk⟩ := ih (scan m rest a b).rest (scan m rest a b).atStart
        (scan m rest a b).lineRead (by omega)
      refine ⟨n + 1, by omega, fun k => ?_⟩
      have e : n + 1 + k = (n + k) + 1 := by omega
      rw [e]
      simp only [scans, List.take_succ_cons, List.drop_succ_cons, List.mem_cons]
      refine ⟨?_, (hk k).2⟩
      intro t ht
      rcases ht with rfl | ht
      · exact h1
      · exact (hk k).1 t ht

/-- C1: repeated NextToken calls on New(s) return n <= len(s) non-EOF tokens,
and from then on every call returns the token EOF with empty text. -/
theorem C1_eof_within_length (m : GoString → GoString) (s : GoString) :
    ∃ n, n ≤ s.length ∧ ∀ k, ∃ toks l,
      NextTokens m (n + k) (New s) = some (toks, l) ∧
      toks.length = n + k ∧
      (∀ t ∈ toks.take n, t.Type_ ≠ EOF) ∧
      toks.drop n = List.replicate k ⟨EOF, []⟩ := by
  obtain ⟨n, hn, hk⟩ := scans_until_eof m s.length s true false (Nat.le_refl _)
  refine ⟨n, hn, fun k => ⟨_, _, NextTokens_New m s (n + k), scans_length m _ _ _ _, hk k⟩⟩

/-- C2: after any number of NextToken calls on New(s) no call has panicked, the
state satisfies position <= len(input) and readPosition = position + 1, and
the next call returns as well. -/
theorem C2_never_fails (m : GoString → GoString) (s : GoString) (k : Nat) :
    ∃ toks l, NextTokens m k (New s) = some (toks, l) ∧
      l.input = s ∧ l.position ≤ l.input.length ∧ l.readPosition = l.position + 1 ∧
      ∃ tok l1, NextToken m l = some (tok, l1) := by
  refine ⟨_, _, NextTokens_New m s k, rfl, ?_, rfl, _, _,
    NextToken_cur m _ _ (scans_suffix m k s true false)⟩
  simp only [cur]
  omega

theorem clear_eq (a b : Bool) : (if (a && !b) = true then false else a) = (a && b) := by
  cases a <;> cases b <;> rfl

/-- How one call moves the two line flags, by the kind of token returned. -/
theorem scan_flags (m : GoString → GoString) (rest : GoString) (a b : Bool) :
    ((scan m rest a b).tok.Type_ = NEWLINE ∧ (scan m rest a b).atStart = true ∧
        (scan m rest a b).lineRead = false) ∨
    ((scan m rest a b).tok.Type_ = LINENO ∧ a = true ∧ b = false ∧
        (isDigit ((rest.dropWhile isBlank).headD 0) = true) ∧
        (scan m rest a b).atStart = false ∧ (scan m rest a b).lineRead = true) ∨
    ((scan m rest a b).tok.Type_ ≠ NEWLINE ∧ (scan m rest a b).tok.Type_ ≠ LINENO ∧
        (scan m rest a b).atStart = (a && b) ∧ (scan m rest a b).lineRead = b) := by
  cases hr : rest.dropWhile isBlank with
  | nil =>
    right; right
    rw [scan_nil m rest a b hr]
    exact ⟨(show EOF ≠ NEWLINE by decide), (show EOF ≠ LINENO by decide), clear_eq a b, rfl⟩
  | cons c t =>
    rw [scan_cons m rest a b c t hr]
    simp only [List.headD_cons]
    by_cases h10 : c = 10
    · left; rw [if_pos h10]; exact ⟨rfl, rfl, rfl⟩
    rw [if_neg h10]
    by_cases hln : ((a && !b) && isDigit c) = true
    · right; left; rw [if_pos hln]
      simp only [Bool.and_eq_true, Bool.not_eq_true'] at hln
      exact ⟨rfl, hln.1.1, hln.1.2, hln.2, rfl, rfl⟩
    rw [if_neg hln]
    right; right
    by_cases h34 : c = 34
    · rw [if_pos h34]
      exact ⟨(show STRING ≠ NEWLINE by decide), (show STRING ≠ LINENO by decide), clear_eq a b, rfl⟩
    rw [if_neg h34]
    by_cases h0 : c = 0
    · rw [if_pos h0]
      exact ⟨(show EOF ≠ NEWLINE by decide), (show EOF ≠ LINENO by decide), clear_eq a b, rfl⟩
    rw [if_neg h0]
    by_cases hd : (isDigit c || decide (c = 46)) = true
    · rw [if_pos hd]
      refine ⟨?_, ?_, clear_eq a b, rfl⟩
      · show (numberRest (c :: t) false INTEGER).2 ≠ NEWLINE
        rcases number_type (c :: t) with h | h <;> rw [h] <;> decide
      · show (numberRest (c :: t) false INTEGER).2 ≠ LINENO
        rcases number_type (c :: t) with h | h <;> rw [h] <;> decide
    rw [if_neg hd]
    by_cases hl : (isLetter c || decide (c = 95) || decide (c = 36)) = true
    · rw [if_pos hl]
      by_cases hrem : LookupIdentifier m ((c :: t).takeWhile isIdentifierChar) = REM
      · rw [if_pos hrem]
        exact ⟨(show REM ≠ NEWLINE by decide), (show REM ≠ LINENO by decide), clear_eq a b, rfl⟩
      · rw [if_neg hrem]
        have := ident_types _ (LookupIdentifier_mem m ((c :: t).takeWhile isIdentifierChar))
        exact ⟨this.2.2.2.1, this.2.2.1, clear_eq a b, rfl⟩
    rw [if_neg hl]
    exact ⟨(scanOp_type c t).2.2.2.1, (scanOp_type c t).2.2.1, clear_eq a b, rfl⟩

theorem scans_lineno (m : GoString → GoString) : ∀ (k : Nat) (rest : GoString) (a b : Bool),
    ¬ (a = true ∧ b = true) → ∀ (i : Nat) (t : Token),
    (scans m k rest a b).1[i]? = some t → t.Type_ = LINENO →
    (i = 0 ∧ a = true) ∨
      (0 < i ∧ ∃ p, (scans m k rest a b).1[i - 1]? = some p ∧ p.Type_ = NEWLINE) := by
  intro k
  induction k with
  | zero => intro rest a b _ i t h; simp [scans] at h
  | succ k ih =>
    intro rest a b hab i t hi ht
    have hf := scan_flags m rest a b
    simp only [scans] at hi ⊢
    cases i with
    | zero =>
      left
      simp only [List.getElem?_cons_zero, Option.some.injEq] at hi
      subst hi
      rcases hf with ⟨h1, _⟩ | ⟨_, h2, _⟩ | ⟨_, h3, _⟩
      · rw [h1] at ht; exact absurd ht (by decide)
      · exact ⟨rfl, h2⟩
      · exact absurd ht h3
    | succ j =>
      right
      refine ⟨Nat.succ_pos j, ?_⟩
      simp only [List.getElem?_cons_succ] at hi
      have hab2 : ¬ ((scan m rest a b).atStart = true ∧ (scan m rest a b).lineRead = true) := by
        rcases hf with ⟨_, _, h⟩ | ⟨_, _, _, _, h, _⟩ | ⟨_, _, h1, h2⟩
        · rw [h]; simp
        · rw [h]; simp
        · rw [h1, h2]; intro hc; apply hab; simpa using hc
      rcases ih _ _ _ hab2 j t hi ht with ⟨hj, ha⟩ | ⟨hj, p, hp, hpt⟩
      · subst hj
        refine ⟨(scan m rest a b).tok, by simp, ?_⟩
        rcases hf with ⟨h, _⟩ | ⟨_, _, _, _, h, _⟩ | ⟨_, _, h1, _⟩
        · exact h
        · rw [h] at ha; exact absurd ha (by decide)
        · rw [h1] at ha
          exfalso; apply hab; simpa using ha
      · refine ⟨p, ?_, hpt⟩
        obtain ⟨j1, rfl⟩ : ∃ j1, j = j1 + 1 := ⟨j - 1, by omega⟩
        simpa using hp

/-- C3: in the tokens returned by successive NextToken calls on New(s), every
LINENO token is the first token or comes right after a NEWLINE token; hence
between two LINENO tokens there is a NEWLINE token. -/
theorem C3_lineno_only_at_line_start (m : GoString → GoString) (s : GoString) (k : Nat) :
    ∃ toks l, NextTokens m k (New s) = some (toks, l) ∧
      (∀ (i : Nat) (t : Token), toks[i]? = some t → t.Type_ = LINENO →
        i = 0 ∨ ∃ p : Token, toks[i - 1]? = some p ∧ p.Type_ = NEWLINE) ∧
      (∀ (i j : Nat) (t u : Token), i < j → toks[i]? = some t → t.Type_ = LINENO →
        toks[j]? = some u → u.Type_ = LINENO →
        ∃ (n : Nat) (p : Token), i < n ∧ n < j ∧ toks[n]? = some p ∧ p.Type_ = NEWLINE) := by
  refine ⟨_, _, NextTokens_New m s k, ?_, ?_⟩
  · intro i t hi ht
    rcases scans_lineno m k s true false (by simp) i t hi ht with ⟨h, _⟩ | ⟨_, h⟩
    · exact Or.inl h
    · exact Or.inr h
  · intro i j t u hij hi ht hj hu
    rcases scans_lineno m k s true false (by simp) j u hj hu with ⟨h, _⟩ | ⟨_, p, hp, hpt⟩
    · omega
    · refine ⟨j - 1, p, ?_, by omega, hp, hpt⟩
      have : i ≠ j - 1 := by
        intro e
        rw [← e, hi] at hp
        simp only [Option.some.injEq] at hp
        rw [← hp, ht] at hpt
        exact absurd hpt (by decide)
      omega

theorem Tokens_eq (m : GoString → GoString) (n : Nat) (s : GoString) :
    Tokens m n s = some (scans m n s true false).1 := by
  simp only [Tokens, NextTokens_New, Option.map]

/-- The first call of `NextToken` on `New(s)`: token and lexer afterwards. -/
theorem First_eq (m : GoString → GoString) (s : GoString) :
    NextToken m (New s) = some ((scan m s true false).tok,
      cur s (scan m s true false).rest (scan m s true false).atStart
        (scan m s true false).lineRead) := by
  rw [New_eq_cur]
  exact NextToken_cur m true false (List.suffix_refl s)

/-! ## Scanning a known run of bytes -/

theorem while_stop (p : Byte → Bool) (r : GoString) (h : p (r.headD 0) = false) :
    r.takeWhile p = [] ∧ r.dropWhile p = r := by
  cases r with
  | nil => exact ⟨rfl, rfl⟩
  | cons c t =>
    simp only [List.headD_cons] at h
    simp [h]

theorem while_run (p : Byte → Bool) (d r : GoString) (hd : ∀ x ∈ d, p x = true)
    (h : p (r.headD 0) = false) :
    (d ++ r).takeWhile p = d ∧ (d ++ r).dropWhile p = r := by
  rw [List.takeWhile_append_of_pos hd, List.dropWhile_append_of_pos hd,
    (while_stop p r h).1, (while_stop p r h).2]
  simp

theorem headD_append_of_ne (d r : GoString) (h : d ≠ []) : (d ++ r).headD 0 = d.headD 0 := by
  cases d with
  | nil => exact absurd rfl h
  | cons c t => rfl

theorem headD_mem (d : GoString) (h : d ≠ []) : d.headD 0 ∈ d := by
  cases d with
  | nil => exact absurd rfl h
  | cons c t => simp

theorem numberRest_digits (d r : GoString) (dec : Bool) (ty : GoString)
    (hd : ∀ x ∈ d, isDigit x = true) :
    numberRest (d ++ r) dec ty = numberRest r dec ty := by
  induction d with
  | nil => rfl
  | cons c t ih =>
    have hc : isDigit c = true := hd c (by simp)
    simp only [List.cons_append, numberRest, hc, if_true]
    exact ih (fun x hx => hd x (List.mem_cons_of_mem _ hx))

theorem numberRest_stop (r : GoString) (dec : Bool) (ty : GoString)
    (h1 : isDigit (r.headD 0) = false) (h2 : r.headD 0 ≠ 46 ∨ dec = true) :
    numberRest r dec ty = (r, ty) := by
  cases r with
  | nil => rfl
  | cons c t =>
    simp only [List.headD_cons] at h1 h2
    simp only [numberRest, h1, Bool.false_eq_true, if_false]
    rw [if_neg]
    rintro ⟨e, hdec⟩
    rcases h2 with h2 | h2
    · exact h2 e
    · simp [h2] at hdec

theorem take_length_sub (d r : GoString) : (d ++ r).take ((d ++ r).length - r.length) = d := by
  have : (d ++ r).length - r.length = d.length := by simp
  rw [this, List.take_left]

set_option maxRecDepth 100000 in
theorem digit_facts : ∀ c : Byte, isDigit c = true →
    isBlank c = false ∧ c ≠ 10 ∧ c ≠ 34 ∧ c ≠ 0 ∧ c ≠ 46 := by
  decide

theorem scan_of_blank (m : GoString → GoString) (w rest : GoString) (a b : Bool)
    (hw : ∀ x ∈ w, isBlank x = true) : scan m (w ++ rest) a b = scan m rest a b := by
  simp only [scan, List.dropWhile_append_of_pos hw]

theorem scan_LINENO (m : GoString → GoString) (d r : GoString) (hne : d ≠ [])
    (hd : ∀ x ∈ d, isDigit x = true) (hr : isDigit (r.headD 0) = false) :
    scan m (d ++ r) true false = ⟨⟨LINENO, d⟩, r, false, true⟩ := by
  obtain ⟨c, t, rfl⟩ := List.exists_cons_of_ne_nil hne
  have hc : isDigit c = true := hd c (by simp)
  have hf := digit_facts c hc
  have hb : (c :: t ++ r).dropWhile isBlank = c :: (t ++ r) := by
    rw [List.cons_append, List.dropWhile_cons_of_neg (by simp [hf.1])]
  rw [scan_cons m _ _ _ c (t ++ r) hb, if_neg hf.2.1, if_pos (by simp [hc])]
  have := while_run isDigit (c :: t) r hd hr
  rw [List.cons_append] at this
  rw [this.1, this.2]

theorem scan_NEWLINE (m : GoString → GoString) (r : GoString) (a b : Bool) :
    scan m (10 :: r) a b = ⟨⟨NEWLINE, [10]⟩, r, true, false⟩ := by
  have hb : ((10 : Byte) :: r).dropWhile isBlank = 10 :: r :=
    List.dropWhile_cons_of_neg (by decide)
  rw [scan_cons m _ _ _ 10 r hb, if_pos rfl]

theorem scan_end (m : GoString → GoString) (a b : Bool) :
    scan m [] a b = ⟨⟨EOF, []⟩, [], a && b, b⟩ := by
  rw [scan_nil m [] a b rfl, clear_eq]

theorem scan_INTEGER (m : GoString → GoString) (d r : GoString) (a b : Bool)
    (hab : (a && !b) = false) (hne : d ≠ []) (hd : ∀ x ∈ d, isDigit x = true)
    (hr : isDigit (r.headD 0) = false) (hr2 : r.headD 0 ≠ 46) :
    scan m (d ++ r) a b = ⟨⟨INTEGER, d⟩, r, a, b⟩ := by
  obtain ⟨c, t, rfl⟩ := List.exists_cons_of_ne_nil hne
  have hc : isDigit c = true := hd c (by simp)
  have hf := digit_facts c hc
  have hb : (c :: t ++ r).dropWhile isBlank = c :: (t ++ r) := by
    rw [List.cons_append, List.dropWhile_cons_of_neg (by simp [hf.1])]
  rw [scan_cons m _ _ _ c (t ++ r) hb, if_neg hf.2.1, if_neg (by simp [hab]),
    if_neg hf.2.2.1, if_neg hf.2.2.2.1, if_pos (by simp [hc])]
  have e : c :: (t ++ r) = (c :: t) ++ r := rfl
  rw [e, numberRest_digits (c :: t) r false INTEGER hd,
    numberRest_stop r false INTEGER hr (Or.inl hr2)]
  simp only [take_length_sub, hab, Bool.false_eq_true, if_false]

/-- C4: for non-empty digit strings d1 and d2, the tokens of d1 " " d2 are
LINENO d1, INTEGER d2, EOF, and the tokens of d1 "\n" d2 are LINENO d1,
NEWLINE, LINENO d2, EOF. -/
theorem C4_lineno_then_integer (m : GoString → GoString) (d1 d2 : GoString)
    (h1 : d1 ≠ []) (h2 : d2 ≠ []) (hd1 : ∀ x ∈ d1, isDigit x = true)
    (hd2 : ∀ x ∈ d2, isDigit x = true) :
    Tokens m 3 (d1 ++ goStr " " ++ d2)
      = some [⟨LINENO, d1⟩, ⟨INTEGER, d2⟩, ⟨EOF, goStr ""⟩] ∧
    Tokens m 4 (d1 ++ goStr "\n" ++ d2)
      = some [⟨LINENO, d1⟩, ⟨NEWLINE, goStr "\n"⟩, ⟨LINENO, d2⟩, ⟨EOF, goStr ""⟩] := by
  have e1 : d1 ++ goStr " " ++ d2 = d1 ++ (32 :: d2) := by
    rw [List.append_assoc]; rfl
  have e2 : d1 ++ goStr "\n" ++ d2 = d1 ++ (10 :: d2) := by
    rw [List.append_assoc]; rfl
  have e3 : goStr "\n" = [10] := rfl
  have e4 : goStr "" = [] := rfl
  have hz : isDigit (([] : GoString).headD 0) = false := by decide
  have hz2 : ([] : GoString).headD 0 ≠ 46 := by decide
  constructor
  · rw [Tokens_eq, e1, e4]
    simp only [scans]
    rw [scan_LINENO m d1 (32 :: d2) h1 hd1 (show isDigit 32 = false by decide)]
    simp only []
    have hsp : scan m (32 :: d2) false true = scan m d2 false true :=
      scan_of_blank m [32] d2 false true (by simp [isBlank])
    rw [hsp]
    have := scan_INTEGER m d2 [] false true rfl h2 hd2 hz hz2
    rw [List.append_nil] at this
    rw [this]
    simp only [scan_end]
  · rw [Tokens_eq, e2, e3, e4]
    simp only [scans]
    rw [scan_LINENO m d1 (10 :: d2) h1 hd1 (show isDigit 10 = false by decide)]
    simp only [scan_NEWLINE]
    have := scan_LINENO m d2 [] h2 hd2 hz
    rw [List.append_nil] at this
    rw [this]
    simp only [scan_end]

set_option maxRecDepth 100000 in
theorem C4_witness :
    (goStr "10" ≠ [] ∧ goStr "20" ≠ [] ∧ (∀ x ∈ goStr "10", isDigit x = true) ∧
      (∀ x ∈ goStr "20", isDigit x = true)) ∧
    (Tokens id 3 (goStr "10" ++ goStr " " ++ goStr "20")
      = some [⟨LINENO, goStr "10"⟩, ⟨INTEGER, goStr "20"⟩, ⟨EOF, goStr ""⟩] ∧
    Tokens id 4 (goStr "10" ++ goStr "\n" ++ goStr "20")
      = some [⟨LINENO, goStr "10"⟩, ⟨NEWLINE, goStr "\n"⟩, ⟨LINENO, goStr "20"⟩,
              ⟨EOF, goStr ""⟩]) :=
  ⟨⟨by decide, by decide, by decide, by decide⟩,
   C4_lineno_then_integer id (goStr "10") (goStr "20") (by decide) (by decide) (by decide)
    (by decide)⟩

theorem scanOp_two (c n : Byte) (t : GoString)
    (h : (c = 60 ∧ n = 61) ∨ (c = 62 ∧ n = 61) ∨ (c = 60 ∧ n = 62)) :
    scanOp c (n :: t) = (⟨[c, n], [c, n]⟩, t) := by
  rcases h with ⟨rfl, rfl⟩ | ⟨rfl, rfl⟩ | ⟨rfl, rfl⟩ <;> rfl

theorem scanOp_lt (n : Byte) (t : GoString) (h1 : n ≠ 61) (h2 : n ≠ 62) :
    scanOp 60 (n :: t) = (⟨LT, goStr "<"⟩, n :: t) := by
  have e : singleTok 60 = ⟨LT, goStr "<"⟩ := by decide
  simp [scanOp, h1, h2, e]

theorem scanOp_gt (n : Byte) (t : GoString) (h1 : n ≠ 61) :
    scanOp 62 (n :: t) = (⟨GT, goStr ">"⟩, n :: t) := by
  have e : singleTok 62 = ⟨GT, goStr ">"⟩ := by decide
  have e2 : ¬ ((62 : Byte) = 60) := by decide
  simp [scanOp, h1, e, e2]

theorem scan_op (m : GoString → GoString) (c : Byte) (t : GoString) (a b : Bool)
    (hc : c = 60 ∨ c = 62) :
    scan m (c :: t) a b = ⟨(scanOp c t).1, (scanOp c t).2, a && b, b⟩ := by
  have hb : (c :: t).dropWhile isBlank = c :: t :=
    List.dropWhile_cons_of_neg (by rcases hc with rfl | rfl <;> decide)
  have hd : isDigit c = false := by rcases hc with rfl | rfl <;> decide
  have hl : (isLetter c || decide (c = 95) || decide (c = 36)) = false := by
    rcases hc with rfl | rfl <;> decide
  have h10 : c ≠ 10 := by rcases hc with rfl | rfl <;> decide
  have h34 : c ≠ 34 := by rcases hc with rfl | rfl <;> decide
  have h0 : c ≠ 0 := by rcases hc with rfl | rfl <;> decide
  have h46 : (isDigit c || decide (c = 46)) = false := by rcases hc with rfl | rfl <;> decide
  rw [scan_cons m _ a b c t hb, if_neg h10, if_neg (by simp [hd]), if_neg h34, if_neg h0,
    if_neg (by simp [h46]), if_neg (by simp [hl]), clear_eq]

/-- C5: "<=", ">=" and "<>" at the start of the input give one two-character
operator token and leave the cursor on the byte after them; "<" followed by a
byte other than '=' and '>', and ">" followed by a byte other than '=', give
the one-character token and leave the cursor on that next byte; e.g. "><"
gives GT then LT. -/
theorem C5_two_character_operators (m : GoString → GoString) (r : GoString) (c : Byte) :
    NextToken m (New (goStr "<=" ++ r)) = some (⟨LTEQUALS, goStr "<="⟩,
      { input := goStr "<=" ++ r, position := 2, readPosition := 3, ch := r.headD 0,
        atStartOfLine := false, lineNumberRead := false }) ∧
    NextToken m (New (goStr ">=" ++ r)) = some (⟨GTEQUALS, goStr ">="⟩,
      { input := goStr ">=" ++ r, position := 2, readPosition := 3, ch := r.headD 0,
        atStartOfLine := false, lineNumberRead := false }) ∧
    NextToken m (New (goStr "<>" ++ r)) = some (⟨NOTEQUALS, goStr "<>"⟩,
      { input := goStr "<>" ++ r, position := 2, readPosition := 3, ch := r.headD 0,
        atStartOfLine := false, lineNumberRead := false }) ∧
    (c ≠ 61 ∧ c ≠ 62 →
      NextToken m (New (goStr "<" ++ c :: r)) = some (⟨LT, goStr "<"⟩,
        { input := goStr "<" ++ c :: r, position := 1, readPosition := 2, ch := c,
          atStartOfLine := false, lineNumberRead := false })) ∧
    (c ≠ 61 →
      NextToken m (New (goStr ">" ++ c :: r)) = some (⟨GT, goStr ">"⟩,
        { input := goStr ">" ++ c :: r, position := 1, readPosition := 2, ch := c,
          atStartOfLine := false, lineNumberRead := false })) ∧
    Tokens m 3 (goStr "><") = some [⟨GT, goStr ">"⟩, ⟨LT, goStr "<"⟩, ⟨EOF, goStr ""⟩] := by
  have two : ∀ (x n : Byte), ((x = 60 ∧ n = 61) ∨ (x = 62 ∧ n = 61) ∨ (x = 60 ∧ n = 62)) →
      NextToken m (New (x :: n :: r)) = some (⟨[x, n], [x, n]⟩,
        { input := x :: n :: r, position := 2, readPosition := 3, ch := r.headD 0,
          atStartOfLine := false, lineNumberRead := false }) := by
    intro x n h
    have hx : x = 60 ∨ x = 62 := by rcases h with ⟨h, _⟩ | ⟨h, _⟩ | ⟨h, _⟩ <;> simp [h]
    rw [First_eq, scan_op m x (n :: r) true false hx, scanOp_two x n r h]
    simp [cur]
    omega
  refine ⟨two 60 61 (Or.inl ⟨rfl, rfl⟩), two 62 61 (Or.inr (Or.inl ⟨rfl, rfl⟩)),
    two 60 62 (Or.inr (Or.inr ⟨rfl, rfl⟩)), ?_, ?_, ?_⟩
  · rintro ⟨h1, h2⟩
    show NextToken m (New (60 :: c :: r)) = _
    rw [First_eq, scan_op m 60 (c :: r) true false (Or.inl rfl), scanOp_lt c r h1 h2]
    simp [cur]
    rfl
  · intro h1
    show NextToken m (New (62 :: c :: r)) = _
    rw [First_eq, scan_op m 62 (c :: r) true false (Or.inr rfl), scanOp_gt c r h1]
    simp [cur]
    rfl
  · rw [Tokens_eq]
    have e : goStr "><" = [62, 60] := rfl
    rw [e]
    simp only [scans]
    rw [scan_op m 62 [60] true false (Or.inr rfl), scanOp_gt 60 [] (by decide)]
    simp only []
    rw [scan_op m 60 [] _ _ (Or.inl rfl)]
    have e2 : scanOp 60 [] = (⟨LT, goStr "<"⟩, []) := by decide
    rw [e2]
    simp only [scan_end]
    rfl

theorem C5_witness :
    ((32 : Byte) ≠ 61 ∧ (32 : Byte) ≠ 62) ∧
    NextToken id (New (goStr "<" ++ 32 :: goStr "b")) = some (⟨LT, goStr "<"⟩,
        { input := goStr "<" ++ 32 :: goStr "b", position := 1, readPosition := 2, ch := 32,
          atStartOfLine := false, lineNumberRead := false }) ∧
    NextToken id (New (goStr ">" ++ 32 :: goStr "b")) = some (⟨GT, goStr ">"⟩,
        { input := goStr ">" ++ 32 :: goStr "b", position := 1, readPosition := 2, ch := 32,
          atStartOfLine := false, lineNumberRead := false }) :=
  ⟨by decide,
   (C5_two_character_operators id (goStr "b") 32).2.2.2.1 (by decide),
   (C5_two_character_operators id (goStr "b") 32).2.2.2.2.1 (by decide)⟩

theorem lookup_mem_pair (k v : GoString) : ∀ (mp : List (GoString × GoString)),
    mp.lookup k = some v → (k, v) ∈ mp := by
  intro mp
  induction mp with
  | nil => intro h; simp at h
  | cons e t ih =>
    obtain ⟨k1, v1⟩ := e
    intro h
    cases hk : (k == k1) with
    | true =>
      simp only [List.lookup, hk, Option.some.injEq] at h
      have : k = k1 := by simpa using hk
      simp [h, this]
    | false =>
      simp only [List.lookup, hk] at h
      exact List.mem_cons_of_mem _ (ih h)

theorem keyword_rem : ∀ e ∈ keywordMap, e.2 = REM → e.1 = goStr "rem" := by decide

theorem LookupIdentifier_rem (m : GoString → GoString) (s : GoString)
    (h : LookupIdentifier m s = REM) : ToLower m s = goStr "rem" := by
  simp only [LookupIdentifier] at h
  split_ifs at h with hf
  · unfold mapIndex at h hf
    cases hl : keywordMap.lookup (ToLower m s) with
    | none => rw [hl] at hf; simp at hf
    | some v =>
      rw [hl] at h
      simp only at h
      have := keyword_rem _ (lookup_mem_pair _ _ _ hl)
      exact this h
  · exact absurd h (by decide)

theorem ToLower_ascii (m : GoString → GoString) (s : GoString) (h : ∀ x ∈ s, x.val < 128) :
    ToLower m s = s.map lowerByte := by
  simp only [ToLower]
  rw [if_pos]
  · rfl
  · simpa using h

set_option maxRecDepth 100000 in
theorem lowerByte_rem : ∀ c : Byte,
    (lowerByte c = 114 → c = 114 ∨ c = 82) ∧ (lowerByte c = 101 → c = 101 ∨ c = 69) ∧
    (lowerByte c = 109 → c = 109 ∨ c = 77) := by
  decide

theorem rem_spelling (s : GoString) (h : s.map lowerByte = goStr "rem") : s ∈ remSpellings := by
  have e : goStr "rem" = [114, 101, 109] := rfl
  rw [e] at h
  have hl : s.length = 3 := by
    have := congrArg List.length h
    simpa using this
  obtain ⟨a, b, c, rfl⟩ := List.length_eq_three.mp hl
  simp only [List.map_cons, List.map_nil, List.cons.injEq, and_true] at h
  obtain ⟨ha, hb, hc⟩ := h
  have h1 := (lowerByte_rem a).1 ha
  have h2 := (lowerByte_rem b).2.1 hb
  have h3 := (lowerByte_rem c).2.2 hc
  rcases h1 with rfl | rfl <;> rcases h2 with rfl | rfl <;> rcases h3 with rfl | rfl <;> decide

theorem LookupIdentifier_not_rem (m : GoString → GoString) (w : GoString)
    (hw : ∀ x ∈ w, x.val < 128) (hrem : w ∉ remSpellings) : LookupIdentifier m w ≠ REM := by
  intro h
  have := LookupIdentifier_rem m w h
  rw [ToLower_ascii m w hw] at this
  exact hrem (rem_spelling w this)

set_option maxRecDepth 100000 in
theorem identifierChar_facts : ∀ c : Byte, isIdentifierChar c = true →
    isBlank c = false ∧ c ≠ 10 ∧ c ≠ 34 ∧ c ≠ 0 ∧ c ≠ 46 ∧
    (isDigit c = false → (isLetter c || decide (c = 95) || decide (c = 36)) = true) := by
  decide

theorem scan_identifier (m : GoString → GoString) (w r : GoString) (a b : Bool) (hne : w ≠ [])
    (hw : ∀ x ∈ w, isIdentifierChar x = true) (h0 : isDigit (w.headD 0) = false)
    (hrem : LookupIdentifier m w ≠ REM) (hr : isIdentifierChar (r.headD 0) = false) :
    scan m (w ++ r) a b = ⟨⟨LookupIdentifier m w, w⟩, r, a && b, b⟩ := by
  obtain ⟨c, t, rfl⟩ := List.exists_cons_of_ne_nil hne
  have hc : isIdentifierChar c = true := hw c (by simp)
  simp only [List.headD_cons] at h0
  have hf := identifierChar_facts c hc
  have hb : (c :: t ++ r).dropWhile isBlank = c :: (t ++ r) := by
    rw [List.cons_append, List.dropWhile_cons_of_neg (by simp [hf.1])]
  have hrun := while_run isIdentifierChar (c :: t) r hw hr
  rw [List.cons_append] at hrun
  rw [scan_cons m _ _ _ c (t ++ r) hb, if_neg hf.2.1, if_neg (by simp [h0]), if_neg hf.2.2.1,
    if_neg hf.2.2.2.1, if_neg (by simp [h0, hf.2.2.2.2.1]), if_pos (hf.2.2.2.2.2 h0),
    hrun.1, hrun.2, if_neg hrem, clear_eq]

theorem lookup_none (k : GoString) : ∀ (mp : List (GoString × GoString)),
    mp.lookup k = none → ∀ e ∈ mp, k ≠ e.1 := by
  intro mp
  induction mp with
  | nil => intro _ e he; simp at he
  | cons e t ih =>
    obtain ⟨k1, v1⟩ := e
    intro h
    cases hk : (k == k1) with
    | true => simp [List.lookup, hk] at h
    | false =>
      simp only [List.lookup, hk] at h
      intro e he
      rcases List.mem_cons.mp he with rfl | he
      · simpa using hk
      · exact ih h e he

/-- On an ASCII word `LookupIdentifier` is the keyword table applied to the
lower-cased word: the entry's kind when there is one, IDENT otherwise. -/
theorem LookupIdentifier_ascii (m : GoString → GoString) (w : GoString)
    (hw : ∀ x ∈ w, x.val < 128) :
    (∃ e ∈ keywordMap, w.map lowerByte = e.1 ∧ LookupIdentifier m w = e.2) ∨
    ((∀ e ∈ keywordMap, w.map lowerByte ≠ e.1) ∧ LookupIdentifier m w = IDENT) := by
  simp only [LookupIdentifier, ToLower_ascii m w hw, mapIndex]
  cases hl : keywordMap.lookup (w.map lowerByte) with
  | none =>
    right
    exact ⟨lookup_none _ keywordMap hl, rfl⟩
  | some v =>
    left
    exact ⟨(w.map lowerByte, v), lookup_mem_pair _ _ _ hl, rfl, rfl⟩

set_option maxRecDepth 100000 in
/-- C6: a non-empty ASCII word w of letters, digits, '_' and '$' that does not
start with a digit and is not a spelling of "rem", followed by nothing or by a
byte that is not an identifier character, is returned whole as the first
token, with its casing kept and with kind LookupIdentifier(w): the kind of the
keyword that w lower-cased spells, or IDENT when it spells none; "pRiNt"
gives PRINT "pRiNt" and "name$" gives IDENT "name$". -/
theorem C6_identifier_or_keyword (m : GoString → GoString) :
    (∀ (w r : GoString), w ≠ [] → (∀ x ∈ w, x.val < 128 ∧ isIdentifierChar x = true) →
      isDigit (w.headD 0) = false → w ∉ remSpellings → isIdentifierChar (r.headD 0) = false →
      NextToken m (New (w ++ r)) = some (⟨LookupIdentifier m w, w⟩,
        { input := w ++ r, position := w.length, readPosition := w.length + 1,
          ch := r.headD 0, atStartOfLine := false, lineNumberRead := false }) ∧
      ((∃ e ∈ keywordMap, w.map lowerByte = e.1 ∧ LookupIdentifier m w = e.2) ∨
       ((∀ e ∈ keywordMap, w.map lowerByte ≠ e.1) ∧ LookupIdentifier m w = IDENT))) ∧
    LookupIdentifier m (goStr "pRiNt") = PRINT ∧
    LookupIdentifier m (goStr "name$") = IDENT ∧
    Tokens m 2 (goStr "pRiNt") = some [⟨PRINT, goStr "pRiNt"⟩, ⟨EOF, goStr ""⟩] ∧
    Tokens m 2 (goStr "name$") = some [⟨IDENT, goStr "name$"⟩, ⟨EOF, goStr ""⟩] := by
  have main : ∀ (w r : GoString), w ≠ [] → (∀ x ∈ w, x.val < 128 ∧ isIdentifierChar x = true) →
      isDigit (w.headD 0) = false → w ∉ remSpellings → isIdentifierChar (r.headD 0) = false →
      scan m (w ++ r) true false = ⟨⟨LookupIdentifier m w, w⟩, r, false, false⟩ := by
    intro w r hne hw h0 hrem hr
    exact scan_identifier m w r true false hne (fun x hx => (hw x hx).2) h0
      (LookupIdentifier_not_rem m w (fun x hx => (hw x hx).1) hrem) hr
  have l1 : LookupIdentifier m (goStr "pRiNt") = PRINT := by
    simp only [LookupIdentifier, ToLower_ascii m (goStr "pRiNt") (by decide)]
    decide
  have l2 : LookupIdentifier m (goStr "name$") = IDENT := by
    simp only [LookupIdentifier, ToLower_ascii m (goStr "name$") (by decide)]
    decide
  refine ⟨?_, l1, l2, ?_, ?_⟩
  · intro w r hne hw h0 hrem hr
    refine ⟨?_, LookupIdentifier_ascii m w (fun x hx => (hw x hx).1)⟩
    rw [First_eq, main w r hne hw h0 hrem hr]
    simp [cur]
  · have := main (goStr "pRiNt") [] (by decide) (by decide) (by decide) (by decide) (by decide)
    rw [List.append_nil] at this
    rw [Tokens_eq]
    simp only [scans, this, scan_end, l1]
    rfl
  · have := main (goStr "name$") [] (by decide) (by decide) (by decide) (by decide) (by decide)
    rw [List.append_nil] at this
    rw [Tokens_eq]
    simp only [scans, this, scan_end, l2]
    rfl

set_option maxRecDepth 100000 in
theorem C6_witness :
    (goStr "Total_1" ≠ [] ∧ (∀ x ∈ goStr "Total_1", x.val < 128 ∧ isIdentifierChar x = true) ∧
      isDigit ((goStr "Total_1").headD 0) = false ∧ goStr "Total_1" ∉ remSpellings ∧
      isIdentifierChar ((goStr " = 2").headD 0) = false) ∧
    NextToken id (New (goStr "Total_1" ++ goStr " = 2"))
      = some (⟨LookupIdentifier id (goStr "Total_1"), goStr "Total_1"⟩,
        { input := goStr "Total_1" ++ goStr " = 2", position := (goStr "Total_1").length,
          readPosition := (goStr "Total_1").length + 1, ch := (goStr " = 2").headD 0,
          atStartOfLine := false, lineNumberRead := false }) :=
  ⟨⟨by decide, by decide, by decide, by decide, by decide⟩,
   ((C6_identifier_or_keyword id).1 (goStr "Total_1") (goStr " = 2") (by decide) (by decide)
     (by decide) (by decide) (by decide)).1⟩

theorem scan_string (m : GoString → GoString) (s r : GoString) (a b : Bool)
    (hs : ∀ x ∈ s, isStrChar x = true) (hr : isStrChar (r.headD 0) = false) :
    scan m (34 :: (s ++ r)) a b =
      ⟨⟨STRING, s⟩, (if r.headD 0 = 34 then r.tail else r), a && b, b⟩ := by
  have hb : ((34 : Byte) :: (s ++ r)).dropWhile isBlank = 34 :: (s ++ r) :=
    List.dropWhile_cons_of_neg (by decide)
  have hrun := while_run isStrChar s r hs hr
  rw [scan_cons m _ a b 34 (s ++ r) hb, if_neg (by decide),
    if_neg (by simp [show isDigit 34 = false by decide]), if_pos rfl, hrun.1, hrun.2, clear_eq]

/-- C7: for a byte string s with no '"' byte and no NUL byte, the tokens of
'"' s '"' and of the unterminated '"' s are both STRING s, EOF: the text is
the interior, byte for byte. -/
theorem C7_string_literal (m : GoString → GoString) (s : GoString)
    (hs : ∀ x ∈ s, x ≠ 34 ∧ x ≠ 0) :
    Tokens m 2 (goStr "\"" ++ s ++ goStr "\"") = some [⟨STRING, s⟩, ⟨EOF, goStr ""⟩] ∧
    Tokens m 2 (goStr "\"" ++ s) = some [⟨STRING, s⟩, ⟨EOF, goStr ""⟩] := by
  have hs2 : ∀ x ∈ s, isStrChar x = true := by
    intro x hx
    simp [isStrChar, (hs x hx).1, (hs x hx).2]
  have e1 : goStr "\"" ++ s ++ goStr "\"" = 34 :: (s ++ [34]) := by
    rw [List.append_assoc]; rfl
  have e2 : goStr "\"" ++ s = 34 :: (s ++ []) := by
    rw [List.append_nil]; rfl
  constructor
  · rw [Tokens_eq, e1]
    simp only [scans]
    rw [scan_string m s [34] true false hs2 (by decide)]
    simp only [List.headD_cons, if_true, List.tail_cons, scan_end]
    rfl
  · rw [Tokens_eq, e2]
    simp only [scans]
    rw [scan_string m s [] true false hs2 (by decide)]
    have : ¬ (([] : GoString).headD 0 = 34) := by decide
    simp only [this, if_false, scan_end]
    rfl

set_option maxRecDepth 100000 in
theorem C7_witness :
    (∀ x ∈ goStr "a\\n\nこ", x ≠ 34 ∧ x ≠ 0) ∧
    Tokens id 2 (goStr "\"" ++ goStr "a\\n\nこ" ++ goStr "\"")
      = some [⟨STRING, goStr "a\\n\nこ"⟩, ⟨EOF, goStr ""⟩] ∧
    Tokens id 2 (goStr "\"" ++ goStr "a\\n\nこ")
      = some [⟨STRING, goStr "a\\n\nこ"⟩, ⟨EOF, goStr ""⟩] :=
  ⟨by decide, C7_string_literal id (goStr "a\\n\nこ") (by decide)⟩

/-! ## `strings.TrimSpace` -/

set_option maxRecDepth 100000 in
theorem blank_facts : ∀ c : Byte, isBlank c = true → ¬ (0x80 ≤ c.val) ∧ asciiSpace c = true := by
  decide

theorem TrimSpace_dropWhile_blank (s : GoString) :
    TrimSpace (s.dropWhile isBlank) = TrimSpace s := by
  induction s with
  | nil => rfl
  | cons c t ih =>
    by_cases hc : isBlank c = true
    · rw [List.dropWhile_cons_of_pos hc, ih]
      have := blank_facts c hc
      simp only [TrimSpace, if_neg this.1, this.2, if_true]
    · rw [List.dropWhile_cons_of_neg hc]

theorem TrimLeftSpace_sublist (s : GoString) : (TrimLeftSpace s).Sublist s := by
  simp only [TrimLeftSpace]
  split
  · exact List.nil_sublist _
  · exact List.drop_sublist _ _

theorem TrimRightSpace_sublist (s : GoString) : (TrimRightSpace s).Sublist s := by
  simp only [TrimRightSpace]
  split
  · exact List.nil_sublist _
  · split_ifs <;> exact List.take_sublist _ _

theorem trimSpaceEnd_sublist : ∀ (s : GoString), (trimSpaceEnd s).Sublist s.reverse := by
  intro s
  induction s with
  | nil => exact List.nil_sublist _
  | cons c t ih =>
    simp only [trimSpaceEnd]
    split_ifs
    · exact TrimRightSpace_sublist _
    · rw [List.reverse_cons]
      exact ih.trans (List.sublist_append_left _ _)
    · exact List.Sublist.refl _

theorem TrimSpace_sublist : ∀ (s : GoString), (TrimSpace s).Sublist s := by
  intro s
  induction s with
  | nil => exact List.nil_sublist _
  | cons c t ih =>
    simp only [TrimSpace]
    split_ifs
    · exact (TrimRightSpace_sublist _).trans (TrimLeftSpace_sublist _)
    · exact ih.trans (List.sublist_cons_self c t)
    · have := trimSpaceEnd_sublist (c :: t).reverse
      rwa [List.reverse_reverse] at this

theorem trimSpaceEnd_ascii : ∀ (s : GoString), (∀ x ∈ s, x.val < 128) →
    trimSpaceEnd s = (s.dropWhile asciiSpace).reverse := by
  intro s
  induction s with
  | nil => intro _; rfl
  | cons c t ih =>
    intro h
    have hc : ¬ (0x80 ≤ c.val) := by have := h c (by simp); omega
    simp only [trimSpaceEnd, if_neg hc]
    by_cases hs : asciiSpace c = true
    · rw [if_pos hs, List.dropWhile_cons_of_pos hs]
      exact ih (fun x hx => h x (List.mem_cons_of_mem _ hx))
    · rw [if_neg hs, List.dropWhile_cons_of_neg hs]

/-- On an ASCII string `strings.TrimSpace` removes the leading and the trailing
bytes that are tab, line feed, vertical tab, form feed, carriage return or
space, and nothing else. -/
theorem TrimSpace_ascii : ∀ (s : GoString), (∀ x ∈ s, x.val < 128) →
    TrimSpace s = ((s.dropWhile asciiSpace).reverse.dropWhile asciiSpace).reverse := by
  intro s
  induction s with
  | nil => intro _; rfl
  | cons c t ih =>
    intro h
    have hc : ¬ (0x80 ≤ c.val) := by have := h c (by simp); omega
    simp only [TrimSpace, if_neg hc]
    by_cases hs : asciiSpace c = true
    · rw [if_pos hs, List.dropWhile_cons_of_pos hs]
      exact ih (fun x hx => h x (List.mem_cons_of_mem _ hx))
    · rw [if_neg hs, List.dropWhile_cons_of_neg hs]
      apply trimSpaceEnd_ascii
      intro x hx
      exact h x (List.mem_reverse.mp hx)

theorem dropWhile_congr_mem (p q : Byte → Bool) : ∀ (s : GoString),
    (∀ x ∈ s, p x = q x) → s.dropWhile p = s.dropWhile q := by
  intro s
  induction s with
  | nil => intro _; rfl
  | cons c t ih =>
    intro h
    have hc := h c (by simp)
    simp only [List.dropWhile_cons, hc]
    split_ifs
    · exact ih (fun x hx => h x (List.mem_cons_of_mem _ hx))
    · rfl

set_option maxRecDepth 100000 in
theorem asciiSpace_blank : ∀ c : Byte, c ≠ 10 → c ≠ 11 → c ≠ 12 → asciiSpace c = isBlank c := by
  decide

theorem TrimSpace_horizontal (s : GoString)
    (h : ∀ x ∈ s, x.val < 128 ∧ x ≠ 10 ∧ x ≠ 11 ∧ x ≠ 12) :
    TrimSpace s = trimHorizontal s := by
  rw [TrimSpace_ascii s (fun x hx => (h x hx).1), trimHorizontal]
  have e : ∀ x ∈ s, asciiSpace x = isBlank x := fun x hx =>
    asciiSpace_blank x (h x hx).2.1 (h x hx).2.2.1 (h x hx).2.2.2
  rw [dropWhile_congr_mem asciiSpace isBlank s e]
  congr 1
  apply dropWhile_congr_mem
  intro x hx
  apply e
  have := (List.dropWhile_suffix isBlank).subset (List.mem_reverse.mp hx)
  exact this

set_option maxRecDepth 100000 in
theorem remSpellings_facts : ∀ k ∈ remSpellings,
    k ≠ [] ∧ (∀ x ∈ k, x.val < 128 ∧ isIdentifierChar x = true) ∧
    isDigit (k.headD 0) = false ∧ mapIndex keywordMap (k.map lowerByte) = (REM, true) := by
  decide

theorem LookupIdentifier_remSpelling (m : GoString → GoString) (k : GoString)
    (hk : k ∈ remSpellings) : LookupIdentifier m k = REM := by
  have hf := remSpellings_facts k hk
  simp only [LookupIdentifier, ToLower_ascii m k (fun x hx => (hf.2.1 x hx).1), hf.2.2.2, if_true]

/-- A spelling of "rem" followed by a byte that is not an identifier character:
the REM token takes the rest of the line. -/
theorem scan_REM (m : GoString → GoString) (k r : GoString) (a b : Bool)
    (hk : k ∈ remSpellings) (hr : isIdentifierChar (r.headD 0) = false) :
    scan m (k ++ r) a b =
      ⟨⟨REM, TrimSpace ((r.dropWhile isBlank).takeWhile isRemChar)⟩,
        (r.dropWhile isBlank).dropWhile isRemChar, a && b, b⟩ := by
  have hfk := remSpellings_facts k hk
  obtain ⟨c, t, rfl⟩ := List.exists_cons_of_ne_nil hfk.1
  have hw : ∀ x ∈ c :: t, isIdentifierChar x = true := fun x hx => (hfk.2.1 x hx).2
  have hc : isIdentifierChar c = true := hw c (by simp)
  have h0 : isDigit c = false := hfk.2.2.1
  have hf := identifierChar_facts c hc
  have hb : (c :: t ++ r).dropWhile isBlank = c :: (t ++ r) := by
    rw [List.cons_append, List.dropWhile_cons_of_neg (by simp [hf.1])]
  have hrun := while_run isIdentifierChar (c :: t) r hw hr
  rw [List.cons_append] at hrun
  rw [scan_cons m _ _ _ c (t ++ r) hb, if_neg hf.2.1, if_neg (by simp [h0]), if_neg hf.2.2.1,
    if_neg hf.2.2.2.1, if_neg (by simp [h0, hf.2.2.2.2.1]), if_pos (hf.2.2.2.2.2 h0),
    hrun.1, hrun.2, if_pos (LookupIdentifier_remSpelling m _ hk), clear_eq]

theorem takeWhile_all (p : Byte → Bool) (s : GoString) (h : ∀ x ∈ s, p x = true) :
    s.takeWhile p = s := List.takeWhile_eq_self_iff.mpr h

set_option maxRecDepth 100000 in
/-- C8 (as stated) fails: after "rem " the body vertical-tab "x" has no line
feed and no NUL, the claim leaves it unchanged (a vertical tab is not space,
tab or carriage return), but the REM token's text is "x". -/
theorem C8_counterexample :
    goStr "rem" ∈ remSpellings ∧
    (goStr "\x0bx").all (fun x => x != 10 && x != 0) = true ∧
    (NextToken id (New (goStr "rem" ++ goStr " " ++ goStr "\x0bx"))).map Prod.fst
      = some ⟨REM, goStr "x"⟩ ∧
    trimHorizontal (goStr "\x0bx") = goStr "\x0bx" ∧
    (NextToken id (New (goStr "rem" ++ goStr " " ++ goStr "\x0bx"))).map Prod.fst
      ≠ some ⟨REM, trimHorizontal (goStr "\x0bx")⟩ := by
  decide

theorem dropWhile_head (p : Byte → Bool) (hp : p 0 = false) (s : GoString) :
    p ((s.dropWhile p).headD 0) = false := by
  induction s with
  | nil => exact hp
  | cons c t ih =>
    by_cases hc : p c = true
    · rw [List.dropWhile_cons_of_pos hc]; exact ih
    · rw [List.dropWhile_cons_of_neg hc]
      simpa using hc

theorem takeWhile_mem (p : Byte → Bool) (s : GoString) : ∀ x ∈ s.takeWhile p, p x = true := by
  intro x hx
  exact List.mem_takeWhile_imp hx

/-- A call that returns a REM token comes from the comment branch: its text is
the trimmed span up to the next line feed or 0 byte, where the cursor stops. -/
theorem scan_rem_branch (m : GoString → GoString) (rest : GoString) (a b : Bool)
    (h : (scan m rest a b).tok.Type_ = REM) :
    ∃ span : GoString, (∀ x ∈ span, isRemChar x = true) ∧
      (scan m rest a b).tok.Literal = TrimSpace span ∧
      isRemChar ((scan m rest a b).rest.headD 0) = false := by
  cases hr : rest.dropWhile isBlank with
  | nil =>
    rw [scan_nil m rest a b hr] at h
    exact absurd h (show EOF ≠ REM by decide)
  | cons c t =>
    rw [scan_cons m rest a b c t hr] at h ⊢
    by_cases h10 : c = 10
    · rw [if_pos h10] at h; exact absurd h (show NEWLINE ≠ REM by decide)
    rw [if_neg h10] at h ⊢
    by_cases hln : ((a && !b) && isDigit c) = true
    · rw [if_pos hln] at h; exact absurd h (show LINENO ≠ REM by decide)
    rw [if_neg hln] at h ⊢
    by_cases h34 : c = 34
    · rw [if_pos h34] at h; exact absurd h (show STRING ≠ REM by decide)
    rw [if_neg h34] at h ⊢
    by_cases h0 : c = 0
    · rw [if_pos h0] at h; exact absurd h (show EOF ≠ REM by decide)
    rw [if_neg h0] at h ⊢
    by_cases hd : (isDigit c || decide (c = 46)) = true
    · rw [if_pos hd] at h
      exfalso
      have h' : (numberRest (c :: t) false INTEGER).2 = REM := h
      rcases number_type (c :: t) with e | e <;> rw [e] at h' <;> exact absurd h' (by decide)
    rw [if_neg hd] at h ⊢
    by_cases hl : (isLetter c || decide (c = 95) || decide (c = 36)) = true
    · rw [if_pos hl] at h ⊢
      by_cases hrem : LookupIdentifier m ((c :: t).takeWhile isIdentifierChar) = REM
      · rw [if_pos hrem]
        exact ⟨_, takeWhile_mem isRemChar _, rfl, dropWhile_head isRemChar (by decide) _⟩
      · rw [if_neg hrem] at h
        exact absurd h hrem
    rw [if_neg hl] at h
    exact absurd h (scanOp_type c t).2.2.2.2

/-- With the cursor on a line feed the next token is NEWLINE; on a 0 byte or
at the end of the input it is EOF. -/
theorem scan_at_line_end (m : GoString → GoString) (r : GoString) (a b : Bool)
    (h : isRemChar (r.headD 0) = false) :
    (r.headD 0 = 10 ∧ (scan m r a b).tok = ⟨NEWLINE, [10]⟩) ∨
    (r.headD 0 = 0 ∧ (scan m r a b).tok = ⟨EOF, []⟩) := by
  cases r with
  | nil => right; exact ⟨rfl, by rw [scan_end]⟩
  | cons c t =>
    simp only [List.headD_cons] at h ⊢
    simp only [isRemChar, Bool.and_eq_false_iff, bne_eq_false_iff_eq] at h
    rcases h with rfl | rfl
    · left; exact ⟨rfl, by rw [scan_NEWLINE]⟩
    · right
      refine ⟨rfl, ?_⟩
      have hb : ((0 : Byte) :: t).dropWhile isBlank = 0 :: t :=
        List.dropWhile_cons_of_neg (by decide)
      rw [scan_cons m _ a b 0 t hb, if_neg (by decide),
        if_neg (by simp [show isDigit 0 = false by decide]), if_neg (by decide), if_pos rfl]

theorem cur_getD {inp rest : GoString} (a b : Bool) (h : rest <:+ inp) :
    inp.getD (cur inp rest a b).position 0 = rest.headD 0 := by
  obtain ⟨pre, rfl⟩ := h
  have e : (cur (pre ++ rest) rest a b).position = pre.length := by simp [cur]
  rw [e, List.getD_append_right _ _ _ _ (Nat.le_refl _)]
  cases rest <;> simp

set_option maxRecDepth 100000 in
/-- C9 (as amended): whenever a NextToken call on a state reached from New(s)
returns a REM token, its text has no line feed and the call leaves the cursor
on a line feed, on a NUL byte, or at the end of the input, without consuming
it; the next call returns NEWLINE in the first case and EOF in the other two.
For "10 REM a\n20 END" the tokens are LINENO "10", REM "a", NEWLINE,
LINENO "20", END "END", EOF. -/
theorem C9_rem_stops_before_line_end (m : GoString → GoString) (s : GoString) (n : Nat) :
    (∃ (toks : List Token) (l : Lexer) (tok : Token) (l1 : Lexer) (tok2 : Token) (l2 : Lexer),
      NextTokens m n (New s) = some (toks, l) ∧
      NextToken m l = some (tok, l1) ∧
      NextToken m l1 = some (tok2, l2) ∧
      (tok.Type_ = REM →
        (10 : Byte) ∉ tok.Literal ∧
        l1.ch = s.getD l1.position 0 ∧
        ((l1.position < s.length ∧ s.getD l1.position 0 = 10 ∧ tok2 = ⟨NEWLINE, goStr "\n"⟩) ∨
         (l1.position < s.length ∧ s.getD l1.position 0 = 0 ∧ tok2 = ⟨EOF, goStr ""⟩) ∨
         (l1.position = s.length ∧ tok2 = ⟨EOF, goStr ""⟩)))) ∧
    Tokens m 6 (goStr "10 REM a\n20 END")
      = some [⟨LINENO, goStr "10"⟩, ⟨REM, goStr "a"⟩, ⟨NEWLINE, goStr "\n"⟩,
              ⟨LINENO, goStr "20"⟩, ⟨END, goStr "END"⟩, ⟨EOF, goStr ""⟩] := by
  constructor
  · have h0 := scans_suffix m n s true false
    have h1 := (scan_suffix m (scans m n s true false).2.1 (scans m n s true false).2.2.1
      (scans m n s true false).2.2.2).trans h0
    refine ⟨_, _, _, _, _, _, NextTokens_New m s n, NextToken_cur m _ _ h0,
      NextToken_cur m _ _ h1, ?_⟩
    intro hrem
    obtain ⟨span, hspan, hlit, hstop⟩ := scan_rem_branch m _ _ _ hrem
    refine ⟨?_, ?_, ?_⟩
    · intro hmem
      rw [hlit] at hmem
      have := hspan 10 ((TrimSpace_sublist span).subset hmem)
      exact absurd this (by decide)
    · rw [cur_getD _ _ h1]; rfl
    · rw [cur_getD _ _ h1]
      generalize (scan m (scans m n s true false).2.1 (scans m n s true false).2.2.1
        (scans m n s true false).2.2.2) = st at h1 hstop ⊢
      have hpos : (cur s st.rest st.atStart st.lineRead).position = s.length - st.rest.length := rfl
      have hle := h1.length_le
      rw [hpos]
      rcases scan_at_line_end m st.rest st.atStart st.lineRead hstop with ⟨hc, ht⟩ | ⟨hc, ht⟩
      · left
        have hne : st.rest ≠ [] := by
          intro e; rw [e] at hc; exact absurd hc (by decide)
        have := List.length_pos.mpr hne
        exact ⟨by omega, hc, ht⟩
      · by_cases hne : st.rest = []
        · right; right
          rw [hne]
          refine ⟨by simp, ?_⟩
          rw [hne] at ht
          exact ht
        · right; left
          have := List.length_pos.mpr hne
          exact ⟨by omega, hc, ht⟩
  · rw [Tokens_eq]
    have e : (goStr "10 REM a\n20 END")
        = goStr "10" ++ 32 :: (goStr "REM" ++ goStr " a\n20 END") := by decide
    rw [e]
    simp only [scans]
    rw [scan_LINENO m (goStr "10") (32 :: (goStr "REM" ++ goStr " a\n20 END")) (by decide)
      (by decide) (show isDigit 32 = false by decide)]
    simp only []
    have hsp : ∀ r : GoString, scan m (32 :: r) false true = scan m r false true := fun r =>
      scan_of_blank m [32] r false true (by simp [isBlank])
    rw [hsp, scan_REM m (goStr "REM") (goStr " a\n20 END") false true (by decide)
      (show isIdentifierChar 32 = false by decide)]
    simp only []
    have e2 : (List.dropWhile isRemChar (List.dropWhile isBlank (goStr " a\n20 END")))
        = 10 :: (goStr "20" ++ 32 :: (goStr "END" ++ [])) := by decide
    have e3 : TrimSpace (List.takeWhile isRemChar (List.dropWhile isBlank (goStr " a\n20 END")))
        = goStr "a" := by decide
    rw [e2, e3, scan_NEWLINE]
    simp only []
    rw [scan_LINENO m (goStr "20") (32 :: (goStr "END" ++ [])) (by decide) (by decide)
      (show isDigit 32 = false by decide)]
    simp only []
    rw [hsp, scan_identifier m (goStr "END") [] false true (by decide) (by decide) (by decide)
      (LookupIdentifier_not_rem m _ (by decide) (by decide))
      (show isIdentifierChar 0 = false by decide)]
    simp only [scan_end]
    have e4 : LookupIdentifier m (goStr "END") = END := by
      simp only [LookupIdentifier, ToLower_ascii m (goStr "END") (by decide)]
      decide
    rw [e4]
    rfl

set_option maxRecDepth 100000 in
/-- C9 (as stated) fails on an input with a NUL byte: after the REM token of
"REM a" NUL "b" the cursor is at offset 5 of 7, on the NUL byte, which is
neither a line feed nor the end of the input. -/
theorem C9_counterexample :
    NextToken id (New (goStr "REM a\x00b")) = some (⟨REM, goStr "a"⟩,
      { input := goStr "REM a\x00b", position := 5, readPosition := 6, ch := 0,
        atStartOfLine := false, lineNumberRead := false }) ∧
    (goStr "REM a\x00b").length = 7 ∧
    (goStr "REM a\x00b").getD 5 0 = 0 ∧
    ¬ ((goStr "REM a\x00b").getD 5 0 = 10 ∨ 5 = (goStr "REM a\x00b").length) := by
  decide

theorem runeString_ascii (c : Byte) (h : c.val < 128) : runeString c.val = [c] := by
  have hb : byteOf c.val = c := by
    apply Fin.ext
    simp only [byteOf]
    exact Nat.mod_eq_of_lt c.isLt
  simp only [runeString, if_pos h, hb]

set_option maxRecDepth 100000 in
theorem operator_lt_gt : (LookupOperator [60]).2 = true ∧ (LookupOperator [62]).2 = true := by
  decide

/-- An ASCII byte that starts no other kind of token and is no operator gives
one ILLEGAL token holding that byte. -/
theorem scan_ILLEGAL (m : GoString → GoString) (c : Byte) (r : GoString) (a b : Bool)
    (hascii : c.val < 128) (h0 : c ≠ 0) (hbl : isBlank c = false) (h10 : c ≠ 10) (h34 : c ≠ 34)
    (h46 : c ≠ 46) (hd : isDigit c = false) (hl : isLetter c = false) (h95 : c ≠ 95)
    (h36 : c ≠ 36) (hop : (LookupOperator [c]).2 = false) :
    scan m (c :: r) a b = ⟨⟨ILLEGAL, [c]⟩, r, a && b, b⟩ := by
  have hb : (c :: r).dropWhile isBlank = c :: r :=
    List.dropWhile_cons_of_neg (by simp [hbl])
  have h60 : c ≠ 60 := by
    intro e; rw [e, operator_lt_gt.1] at hop; exact absurd hop (by decide)
  have h62 : c ≠ 62 := by
    intro e; rw [e, operator_lt_gt.2] at hop; exact absurd hop (by decide)
  have hs : scanOp c r = (⟨ILLEGAL, [c]⟩, r) := by
    simp only [scanOp, singleTok, runeString_ascii c hascii, hop]
    simp [h60, h62]
  rw [scan_cons m _ a b c r hb, if_neg h10, if_neg (by simp [hd]), if_neg h34, if_neg h0,
    if_neg (by simp [hd, h46]), if_neg (by simp [hl, h95, h36]), hs, clear_eq]

set_option maxRecDepth 100000 in
/-- C10 (as amended): for every single ASCII character c other than NUL that is
not a space, tab, carriage return, line feed, '"', '.', digit, letter, '_',
'$' or a single-character operator, and every string r, the first NextToken
call on New(c r) returns one ILLEGAL token whose text is c and leaves the
cursor on the first byte of r; "@5" gives ILLEGAL "@", INTEGER "5", EOF. -/
theorem C10_illegal_ascii_character (m : GoString → GoString) :
    (∀ (c : Byte) (r : GoString), c.val < 128 → c ≠ 0 → isBlank c = false → c ≠ 10 → c ≠ 34 →
      c ≠ 46 → isDigit c = false → isLetter c = false → c ≠ 95 → c ≠ 36 →
      (LookupOperator [c]).2 = false →
      NextToken m (New (c :: r)) = some (⟨ILLEGAL, [c]⟩,
        { input := c :: r, position := 1, readPosition := 2, ch := r.headD 0,
          atStartOfLine := false, lineNumberRead := false })) ∧
    Tokens m 3 (goStr "@5")
      = some [⟨ILLEGAL, goStr "@"⟩, ⟨INTEGER, goStr "5"⟩, ⟨EOF, goStr ""⟩] := by
  constructor
  · intro c r hascii h0 hbl h10 h34 h46 hd hl h95 h36 hop
    rw [First_eq, scan_ILLEGAL m c r true false hascii h0 hbl h10 h34 h46 hd hl h95 h36 hop]
    simp [cur]
  · rw [Tokens_eq]
    have e : goStr "@5" = 64 :: (goStr "5" ++ []) := by decide
    rw [e]
    simp only [scans]
    rw [scan_ILLEGAL m 64 (goStr "5" ++ []) true false (by decide) (by decide) (by decide)
      (by decide) (by decide) (by decide) (by decide) (by decide) (by decide) (by decide)
      (by decide)]
    simp only [Bool.and_false]
    rw [scan_INTEGER m (goStr "5") [] false false rfl (by decide) (by decide) (by decide)
      (by decide)]
    simp only [scan_end]
    rfl

set_option maxRecDepth 100000 in
theorem C10_witness :
    ((64 : Byte).val < 128 ∧ (64 : Byte) ≠ 0 ∧ isBlank 64 = false ∧ (64 : Byte) ≠ 10 ∧
      (64 : Byte) ≠ 34 ∧ (64 : Byte) ≠ 46 ∧ isDigit 64 = false ∧ isLetter 64 = false ∧
      (64 : Byte) ≠ 95 ∧ (64 : Byte) ≠ 36 ∧ (LookupOperator [64]).2 = false) ∧
    NextToken id (New (64 :: goStr "5")) = some (⟨ILLEGAL, [64]⟩,
        { input := 64 :: goStr "5", position := 1, readPosition := 2,
          ch := (goStr "5").headD 0, atStartOfLine := false, lineNumberRead := false }) :=
  ⟨by decide,
   (C10_illegal_ascii_character id).1 64 (goStr "5") (by decide) (by decide) (by decide)
     (by decide) (by decide) (by decide) (by decide) (by decide) (by decide) (by decide)
     (by decide)⟩

set_option maxRecDepth 100000 in
/-- C10 (as stated) fails for a character outside ASCII: the euro sign U+20AC
is none of the excluded characters, but the lexer reads its first UTF-8 byte
0xE2 as the Latin-1 letter U+00E2 and returns IDENT with that one byte as
text, leaving the cursor inside the character. -/
theorem C10_counterexample :
    goStr "€" = [0xE2, 0x82, 0xAC] ∧
    NextToken id (New (goStr "€" ++ goStr "5")) = some (⟨IDENT, [0xE2]⟩,
      { input := goStr "€" ++ goStr "5", position := 1, readPosition := 2, ch := 0x82,
        atStartOfLine := false, lineNumberRead := false }) ∧
    (NextToken id (New (goStr "€" ++ goStr "5"))).map Prod.fst
      ≠ some ⟨ILLEGAL, goStr "€"⟩ := by
  decide

theorem operator_types_number : ∀ v ∈ operatorMap.map Prod.snd, v ≠ INTEGER ∧ v ≠ FLOAT := by
  decide

theorem ident_types_number : ∀ v ∈ IDENT :: keywordMap.map Prod.snd, v ≠ INTEGER ∧ v ≠ FLOAT := by
  decide

theorem scanOp_type_number (c : Byte) (t : GoString) :
    (scanOp c t).1.Type_ ≠ INTEGER ∧ (scanOp c t).1.Type_ ≠ FLOAT := by
  have hs : ∀ x : Byte, (singleTok x).Type_ ≠ INTEGER ∧ (singleTok x).Type_ ≠ FLOAT := by
    intro x
    simp only [singleTok]
    split_ifs with h
    · exact operator_types_number _ (mapIndex_mem operatorMap _ h)
    · exact ⟨(show ILLEGAL ≠ INTEGER by decide), (show ILLEGAL ≠ FLOAT by decide)⟩
  simp only [scanOp]
  split_ifs with h1 h2 h3
  · exact operator_types_number _ (mapIndex_mem operatorMap _ h3)
  · exact hs _
  · exact hs _
  · exact hs _

/-- What the loop of `readNumber` consumes: digits and at most one '.', and the
token type says whether a '.' was consumed. -/
theorem numberRest_spec : ∀ (r : GoString) (d : Bool) (ty : GoString),
    ∃ pre : GoString, r = pre ++ (numberRest r d ty).1 ∧
      (∀ x ∈ pre, isDigit x = true ∨ x = 46) ∧
      (((numberRest r d ty).2 = ty ∧ pre.count 46 = 0) ∨
       (d = false ∧ (numberRest r d ty).2 = FLOAT ∧ pre.count 46 = 1)) := by
  intro r
  induction r with
  | nil => intro d ty; exact ⟨[], rfl, by simp, Or.inl ⟨rfl, rfl⟩⟩
  | cons c t ih =>
    intro d ty
    simp only [numberRest]
    by_cases hc : isDigit c = true
    · rw [if_pos hc]
      obtain ⟨pre, h1, h2, h3⟩ := ih d ty
      have hne : c ≠ 46 := (digit_facts c hc).2.2.2.2
      refine ⟨c :: pre, by rw [List.cons_append, ← h1], ?_, ?_⟩
      · intro x hx
        rcases List.mem_cons.mp hx with rfl | hx
        · exact Or.inl hc
        · exact h2 x hx
      · rw [List.count_cons_of_ne (Ne.symm hne)]
        exact h3
    · rw [if_neg hc]
      by_cases hdot : c = 46 ∧ (!d) = true
      · rw [if_pos hdot]
        obtain ⟨pre, h1, h2, h3⟩ := ih true FLOAT
        have hd : d = false := by simpa using hdot.2
        refine ⟨c :: pre, by rw [List.cons_append, ← h1], ?_, Or.inr ⟨hd, ?_, ?_⟩⟩
        · intro x hx
          rcases List.mem_cons.mp hx with rfl | hx
          · exact Or.inr hdot.1
          · exact h2 x hx
        · rcases h3 with h3 | h3
          · exact h3.1
          · exact h3.2.1
        · rcases h3 with h3 | h3
          · rw [hdot.1, List.count_cons_self, h3.2]
          · exact absurd h3.1 (by decide)
      · rw [if_neg hdot]
        exact ⟨[], rfl, by simp, Or.inl ⟨rfl, rfl⟩⟩

/-- A call that returns an INTEGER or FLOAT token comes from `readNumber`. -/
theorem scan_number_branch (m : GoString → GoString) (rest : GoString) (a b : Bool)
    (h : (scan m rest a b).tok.Type_ = INTEGER ∨ (scan m rest a b).tok.Type_ = FLOAT) :
    ∃ (c : Byte) (t : GoString), (isDigit c || decide (c = 46)) = true ∧
      (scan m rest a b).tok = ⟨(numberRest (c :: t) false INTEGER).2,
        (c :: t).take ((c :: t).length - (numberRest (c :: t) false INTEGER).1.length)⟩ := by
  have no : ∀ ty : GoString, ty ≠ INTEGER → ty ≠ FLOAT → ¬ (ty = INTEGER ∨ ty = FLOAT) := by
    intro ty h1 h2 h3
    rcases h3 with h3 | h3
    · exact h1 h3
    · exact h2 h3
  cases hr : rest.dropWhile isBlank with
  | nil =>
    rw [scan_nil m rest a b hr] at h
    exact absurd h (no EOF (by decide) (by decide))
  | cons c t =>
    rw [scan_cons m rest a b c t hr] at h ⊢
    by_cases h10 : c = 10
    · rw [if_pos h10] at h; exact absurd h (no NEWLINE (by decide) (by decide))
    rw [if_neg h10] at h ⊢
    by_cases hln : ((a && !b) && isDigit c) = true
    · rw [if_pos hln] at h; exact absurd h (no LINENO (by decide) (by decide))
    rw [if_neg hln] at h ⊢
    by_cases h34 : c = 34
    · rw [if_pos h34] at h; exact absurd h (no STRING (by decide) (by decide))
    rw [if_neg h34] at h ⊢
    by_cases h0 : c = 0
    · rw [if_pos h0] at h; exact absurd h (no EOF (by decide) (by decide))
    rw [if_neg h0] at h ⊢
    by_cases hd : (isDigit c || decide (c = 46)) = true
    · rw [if_pos hd]
      exact ⟨c, t, hd, rfl⟩
    rw [if_neg hd] at h
    by_cases hl : (isLetter c || decide (c = 95) || decide (c = 36)) = true
    · rw [if_pos hl] at h
      by_cases hrem : LookupIdentifier m ((c :: t).takeWhile isIdentifierChar) = REM
      · rw [if_pos hrem] at h; exact absurd h (no REM (by decide) (by decide))
      · rw [if_neg hrem] at h
        have := ident_types_number _ (LookupIdentifier_mem m ((c :: t).takeWhile isIdentifierChar))
        exact absurd h (no _ this.1 this.2)
    rw [if_neg hl] at h
    exact absurd h (no _ (scanOp_type_number c t).1 (scanOp_type_number c t).2)

/-- The text of a number token: non-empty, digits and '.', with no '.' when the
type is INTEGER and exactly one when it is FLOAT. -/
theorem number_text (c : Byte) (t : GoString) (hc : (isDigit c || decide (c = 46)) = true) :
    (c :: t).take ((c :: t).length - (numberRest (c :: t) false INTEGER).1.length) ≠ [] ∧
    (∀ x ∈ (c :: t).take ((c :: t).length - (numberRest (c :: t) false INTEGER).1.length),
      isDigit x = true ∨ x = 46) ∧
    (((numberRest (c :: t) false INTEGER).2 = INTEGER ∧
      ((c :: t).take ((c :: t).length - (numberRest (c :: t) false INTEGER).1.length)).count 46
        = 0) ∨
     ((numberRest (c :: t) false INTEGER).2 = FLOAT ∧
      ((c :: t).take ((c :: t).length - (numberRest (c :: t) false INTEGER).1.length)).count 46
        = 1)) := by
  obtain ⟨pre, h1, h2, h3⟩ := numberRest_spec (c :: t) false INTEGER
  have hl := (numberRest_cons_suffix c t hc).length_le
  have htake : (c :: t).take ((c :: t).length - (numberRest (c :: t) false INTEGER).1.length)
      = pre := by
    generalize (numberRest (c :: t) false INTEGER).1 = R at h1
    rw [h1]
    exact take_length_sub pre R
  rw [htake]
  refine ⟨?_, h2, ?_⟩
  · intro e
    rw [e, List.nil_append] at h1
    have := congrArg List.length h1
    simp only [List.length_cons] at this
    omega
  · rcases h3 with h3 | h3
    · exact Or.inl h3
    · exact Or.inr h3.2

set_option maxRecDepth 100000 in
theorem number_start_facts : ∀ c : Byte, (isDigit c || decide (c = 46)) = true →
    isBlank c = false ∧ c ≠ 10 ∧ c ≠ 34 ∧ c ≠ 0 := by
  decide

/-- Away from the line-number position, a digit or '.' starts `readNumber`. -/
theorem scan_number (m : GoString → GoString) (c : Byte) (t : GoString) (a b : Bool)
    (hab : (a && !b) = false) (hc : (isDigit c || decide (c = 46)) = true) :
    scan m (c :: t) a b =
      ⟨⟨(numberRest (c :: t) false INTEGER).2,
        (c :: t).take ((c :: t).length - (numberRest (c :: t) false INTEGER).1.length)⟩,
       (numberRest (c :: t) false INTEGER).1, a, b⟩ := by
  have hf := number_start_facts c hc
  have hb : (c :: t).dropWhile isBlank = c :: t :=
    List.dropWhile_cons_of_neg (by simp [hf.1])
  rw [scan_cons m _ a b c t hb, if_neg hf.2.1, if_neg (by simp [hab]), if_neg hf.2.2.1,
    if_neg hf.2.2.2, if_pos hc]
  simp only [hab, Bool.false_eq_true, if_false]

/-- Digits, one '.', digits, then a byte that is not a digit: one FLOAT token. -/
theorem scan_FLOAT (m : GoString → GoString) (d1 d2 r : GoString) (a b : Bool)
    (hab : (a && !b) = false) (hd1 : ∀ x ∈ d1, isDigit x = true)
    (hd2 : ∀ x ∈ d2, isDigit x = true) (hr : isDigit (r.headD 0) = false) :
    scan m (d1 ++ 46 :: (d2 ++ r)) a b = ⟨⟨FLOAT, d1 ++ 46 :: d2⟩, r, a, b⟩ := by
  have hn : numberRest (d1 ++ 46 :: (d2 ++ r)) false INTEGER = (r, FLOAT) := by
    rw [numberRest_digits d1 _ false INTEGER hd1]
    have h46 : isDigit 46 = false := by decide
    simp only [numberRest, h46, Bool.false_eq_true, if_false]
    rw [if_pos (by simp), numberRest_digits d2 r true FLOAT hd2,
      numberRest_stop r true FLOAT hr (Or.inr rfl)]
  have hc : ∃ c t, d1 ++ 46 :: (d2 ++ r) = c :: t ∧ (isDigit c || decide (c = 46)) = true := by
    cases d1 with
    | nil => exact ⟨46, d2 ++ r, rfl, by decide⟩
    | cons c t => exact ⟨c, t ++ 46 :: (d2 ++ r), rfl, by simp [hd1 c (by simp)]⟩
  obtain ⟨c, t, e, hc⟩ := hc
  have hs := scan_number m c t a b hab hc
  rw [← e, hn] at hs
  rw [hs]
  have e2 : d1 ++ 46 :: (d2 ++ r) = (d1 ++ 46 :: d2) ++ r := by simp
  simp only []
  rw [e2, take_length_sub]

set_option maxRecDepth 100000 in
/-- C11: every INTEGER token returned by NextToken on a state reached from
New(s) has a non-empty text of ASCII digits (so no '.'), and every FLOAT token
has a text of ASCII digits and exactly one '.'; after a line number, "1.2.3"
gives FLOAT "1.2" and then FLOAT ".3", a separate token that starts at the
second '.'. -/
theorem C11_number_token_text (m : GoString → GoString) (s : GoString) (n : Nat) :
    (∃ (toks : List Token) (l : Lexer) (tok : Token) (l1 : Lexer),
      NextTokens m n (New s) = some (toks, l) ∧
      NextToken m l = some (tok, l1) ∧
      (tok.Type_ = INTEGER →
        tok.Literal ≠ [] ∧ (∀ x ∈ tok.Literal, isDigit x = true) ∧ (46 : Byte) ∉ tok.Literal) ∧
      (tok.Type_ = FLOAT →
        (∀ x ∈ tok.Literal, isDigit x = true ∨ x = 46) ∧ tok.Literal.count 46 = 1)) ∧
    Tokens m 4 (goStr "10 1.2.3")
      = some [⟨LINENO, goStr "10"⟩, ⟨FLOAT, goStr "1.2"⟩, ⟨FLOAT, goStr ".3"⟩,
              ⟨EOF, goStr ""⟩] := by
  constructor
  · have h0 := scans_suffix m n s true false
    refine ⟨_, _, _, _, NextTokens_New m s n, NextToken_cur m _ _ h0, ?_, ?_⟩
    · intro hty
      obtain ⟨c, t, hc, htok⟩ := scan_number_branch m _ _ _ (Or.inl hty)
      rw [htok] at hty ⊢
      have ht := number_text c t hc
      simp only at hty
      rcases ht.2.2 with h | h
      · have hcount := h.2
        have hno : (46 : Byte) ∉
            (c :: t).take ((c :: t).length - (numberRest (c :: t) false INTEGER).1.length) :=
          List.count_eq_zero.mp hcount
        refine ⟨ht.1, ?_, hno⟩
        intro x hx
        rcases ht.2.1 x hx with hd | hd
        · exact hd
        · rw [hd] at hx; exact absurd hx hno
      · rw [h.1] at hty; exact absurd hty (by decide)
    · intro hty
      obtain ⟨c, t, hc, htok⟩ := scan_number_branch m _ _ _ (Or.inr hty)
      rw [htok] at hty ⊢
      have ht := number_text c t hc
      simp only at hty
      rcases ht.2.2 with h | h
      · rw [h.1] at hty; exact absurd hty (by decide)
      · exact ⟨ht.2.1, h.2⟩
  · rw [Tokens_eq]
    have e : goStr "10 1.2.3" = goStr "10" ++ 32 :: (goStr "1" ++ 46 :: (goStr "2" ++ goStr ".3"))
        := by decide
    rw [e]
    simp only [scans]
    rw [scan_LINENO m (goStr "10") (32 :: (goStr "1" ++ 46 :: (goStr "2" ++ goStr ".3")))
      (by decide) (by decide) (show isDigit 32 = false by decide)]
    simp only []
    have hsp : ∀ r : GoString, scan m (32 :: r) false true = scan m r false true := fun r =>
      scan_of_blank m [32] r false true (by simp [isBlank])
    rw [hsp, scan_FLOAT m (goStr "1") (goStr "2") (goStr ".3") false true rfl (by decide)
      (by decide) (by decide)]
    simp only []
    have e2 : goStr ".3" = [] ++ 46 :: (goStr "3" ++ []) := by decide
    rw [e2, scan_FLOAT m [] (goStr "3") [] false true rfl (by decide) (by decide) (by decide)]
    simp only [scan_end]
    rfl

/-- One call on a canonical state: the cursor moves forward, or it stays and the
call returns EOF with the cursor on a 0 byte or at the end of the input. -/
theorem scan_position (m : GoString → GoString) {inp rest : GoString} (a b : Bool)
    (h : rest <:+ inp) :
    inp.length - rest.length < inp.length - (scan m rest a b).rest.length ∨
    (inp.length - (scan m rest a b).rest.length = inp.length - rest.length ∧
      (scan m rest a b).tok = ⟨EOF, []⟩ ∧ rest.headD 0 = 0) := by
  have hle := h.length_le
  have hd := (List.dropWhile_suffix isBlank (l := rest)).length_le
  rcases scan_progress m rest a b with ⟨h1, h2, h3⟩ | ⟨_, h2, h3⟩
  · rw [h3]
    by_cases hb : rest.dropWhile isBlank = rest
    · right
      rw [hb] at h2 ⊢
      exact ⟨rfl, h1, h2⟩
    · left
      have hlt : (rest.dropWhile isBlank).length < rest.length := by
        rcases Nat.lt_or_ge (rest.dropWhile isBlank).length rest.length with hlt | hge
        · exact hlt
        · exact absurd ((List.dropWhile_suffix isBlank).eq_of_length (by omega)) hb
      omega
  · left
    have hne : rest.dropWhile isBlank ≠ [] := by
      intro e; rw [e] at h2; exact h2 rfl
    have l1 := h3.length_le
    have l3 := List.length_pos.mpr hne
    rw [List.length_tail] at l1
    omega

/-- C12 (as amended): on every state reached from New(s), a NextToken call
either moves the cursor position forward by at least one, or leaves it where
it is, returns EOF with empty text, and the cursor is on the 0 sentinel: at
the end of the input (position = len(input)) or on a NUL byte of it. -/
theorem C12_progress_or_eof (m : GoString → GoString) (s : GoString) (n : Nat) :
    ∃ (toks : List Token) (l : Lexer) (tok : Token) (l1 : Lexer),
      NextTokens m n (New s) = some (toks, l) ∧
      NextToken m l = some (tok, l1) ∧
      (l.position + 1 ≤ l1.position ∨
       (l1.position = l.position ∧ tok = ⟨EOF, goStr ""⟩ ∧ l.ch = 0 ∧
         (l.position = s.length ∨ (l.position < s.length ∧ s.getD l.position 0 = 0)))) := by
  have h0 := scans_suffix m n s true false
  refine ⟨_, _, _, _, NextTokens_New m s n, NextToken_cur m _ _ h0, ?_⟩
  generalize (scans m n s true false).2.1 = rest at h0
  generalize (scans m n s true false).2.2.1 = a
  generalize (scans m n s true false).2.2.2 = b
  have hg := cur_getD a b h0
  simp only [cur_position] at hg ⊢
  rcases scan_position m a b h0 with hlt | ⟨he, ht, hc⟩
  · left; omega
  · right
    refine ⟨he, ht, hc, ?_⟩
    have hle := h0.length_le
    by_cases hr : rest = []
    · left; rw [hr]; simp
    · right
      have := List.length_pos.mpr hr
      exact ⟨by omega, by rw [hg]; exact hc⟩

set_option maxRecDepth 100000 in
/-- C12 (as stated) fails on an input with a NUL byte: on New of the one-byte
input NUL the first call returns EOF and leaves the position at 0, which is
not the length of the input. -/
theorem C12_counterexample :
    NextToken id (New (goStr "\x00")) = some (⟨EOF, goStr ""⟩,
      { input := goStr "\x00", position := 0, readPosition := 1, ch := 0,
        atStartOfLine := false, lineNumberRead := false }) ∧
    (New (goStr "\x00")).position = 0 ∧
    (goStr "\x00").length = 1 ∧
    ¬ ((New (goStr "\x00")).position + 1 ≤ 0 ∨
       (New (goStr "\x00")).position = (goStr "\x00").length) := by
  decide

set_option maxRecDepth 100000 in
theorem keywordMap_facts : ∀ e ∈ keywordMap,
    e.1 ∈ keywordSpellings ∧ e.2 = e.1.map upperByte ∧ e.2 ∈ keywordKinds := by
  decide

set_option maxRecDepth 100000 in
theorem keywordSpellings_keys : ∀ k ∈ keywordSpellings, k ∈ keywordMap.map Prod.fst := by
  decide

set_option maxRecDepth 100000 in
theorem upper_lower : ∀ c : Byte, upperByte (lowerByte c) = upperByte c := by
  decide

theorem map_upper_lower (s : GoString) : (s.map lowerByte).map upperByte = s.map upperByte := by
  induction s with
  | nil => rfl
  | cons c t ih => simp only [List.map_cons, upper_lower, ih]

set_option maxRecDepth 100000 in
/-- C13: for every ASCII string s, LookupIdentifier(s) is a keyword kind exactly
when s lower-cased is one of the 24 keyword spellings, and then it is s
upper-cased; otherwise it is IDENT.  Two ASCII strings that differ only in
letter case get the same result. -/
theorem C13_LookupIdentifier_ascii (m : GoString → GoString) :
    (∀ s : GoString, (∀ x ∈ s, x.val < 128) →
      (LookupIdentifier m s ∈ keywordKinds ↔ s.map lowerByte ∈ keywordSpellings) ∧
      (s.map lowerByte ∈ keywordSpellings → LookupIdentifier m s = s.map upperByte) ∧
      (s.map lowerByte ∉ keywordSpellings → LookupIdentifier m s = IDENT)) ∧
    (∀ s t : GoString, (∀ x ∈ s, x.val < 128) → (∀ x ∈ t, x.val < 128) →
      s.map lowerByte = t.map lowerByte → LookupIdentifier m s = LookupIdentifier m t) ∧
    keywordSpellings.length = 24 ∧ keywordSpellings.Nodup ∧ IDENT ∉ keywordKinds ∧
    LookupIdentifier m (goStr "GoTo") = GOTO ∧
    LookupIdentifier m (goStr "custom") = IDENT := by
  have hident : IDENT ∉ keywordKinds := by decide
  have key : ∀ s : GoString, (∀ x ∈ s, x.val < 128) →
      (s.map lowerByte ∈ keywordSpellings →
        LookupIdentifier m s = s.map upperByte ∧ LookupIdentifier m s ∈ keywordKinds) ∧
      (s.map lowerByte ∉ keywordSpellings → LookupIdentifier m s = IDENT) := by
    intro s hs
    rcases LookupIdentifier_ascii m s hs with ⟨e, he, h1, h2⟩ | ⟨h1, h2⟩
    · have hf := keywordMap_facts e he
      constructor
      · intro _
        rw [h2, hf.2.1, ← h1, map_upper_lower]
        refine ⟨rfl, ?_⟩
        have := hf.2.2
        rwa [hf.2.1, ← h1, map_upper_lower] at this
      · intro hn
        rw [h1] at hn
        exact absurd hf.1 hn
    · constructor
      · intro hin
        have := keywordSpellings_keys _ hin
        obtain ⟨e, he, hk⟩ := List.mem_map.mp this
        exact absurd hk.symm (h1 e he)
      · intro _; exact h2
  refine ⟨?_, ?_, by decide, by decide, hident, ?_, ?_⟩
  · intro s hs
    refine ⟨⟨?_, fun h => ((key s hs).1 h).2⟩, fun h => ((key s hs).1 h).1, (key s hs).2⟩
    intro hk
    by_contra hn
    rw [(key s hs).2 hn] at hk
    exact hident hk
  · intro s t hs ht hst
    simp only [LookupIdentifier, ToLower_ascii m s hs, ToLower_ascii m t ht, hst]
  · simp only [LookupIdentifier, ToLower_ascii m (goStr "GoTo") (by decide)]
    decide
  · simp only [LookupIdentifier, ToLower_ascii m (goStr "custom") (by decide)]
    decide

set_option maxRecDepth 100000 in
theorem operatorMap_facts : ∀ e ∈ operatorMap, e.1 ∈ operatorSpellings ∧ e.2 = e.1 := by
  decide

set_option maxRecDepth 100000 in
theorem operatorSpellings_found : ∀ k ∈ operatorSpellings, (LookupOperator k).2 = true := by
  decide

theorem LookupOperator_found (op : GoString) (h : (LookupOperator op).2 = true) :
    ∃ v, operatorMap.lookup op = some v ∧ (LookupOperator op).1 = v := by
  unfold LookupOperator mapIndex at h ⊢
  cases hl : operatorMap.lookup op with
  | none => rw [hl] at h; simp at h
  | some v => exact ⟨v, rfl, rfl⟩

theorem operator_found_iff (op : GoString) :
    (LookupOperator op).2 = true ↔ op ∈ operatorSpellings := by
  constructor
  · intro h
    obtain ⟨v, hv, _⟩ := LookupOperator_found op h
    exact (operatorMap_facts _ (lookup_mem_pair _ _ _ hv)).1
  · exact operatorSpellings_found op

/-- C14: LookupOperator(op) reports found exactly for the 19 operator
spellings, and the kind it then returns is op itself. -/
theorem C14_LookupOperator (op : GoString) :
    ((LookupOperator op).2 = true ↔ op ∈ operatorSpellings) ∧
    ((LookupOperator op).2 = true → (LookupOperator op).1 = op) := by
  refine ⟨operator_found_iff op, ?_⟩
  · intro h
    obtain ⟨v, hv, he⟩ := LookupOperator_found op h
    rw [he]
    exact (operatorMap_facts _ (lookup_mem_pair _ _ _ hv)).2

set_option maxRecDepth 100000 in
theorem operatorSpellings_split : ∀ k ∈ operatorSpellings,
    k ∈ singleCharOperators ∨ k ∈ twoCharOperators := by
  decide

set_option maxRecDepth 100000 in
theorem operator_keys_found : ∀ k ∈ operatorMap.map Prod.fst, (LookupOperator k).2 = true := by
  decide

set_option maxRecDepth 100000 in
/-- C17 (as amended): the strings on which LookupOperator reports found are
exactly 16 single-character spellings and exactly 3 two-character spellings
("<=", ">=", "<>"). -/
theorem C17_operator_table_size :
    (∀ op : GoString, (LookupOperator op).2 = true ↔
      (op ∈ singleCharOperators ∨ op ∈ twoCharOperators)) ∧
    singleCharOperators.Nodup ∧ singleCharOperators.length = 16 ∧
    (∀ k ∈ singleCharOperators, k.length = 1) ∧
    twoCharOperators.Nodup ∧ twoCharOperators.length = 3 ∧
    (∀ k ∈ twoCharOperators, k.length = 2) ∧
    (∀ k : GoString, k ∈ twoCharOperators ↔ k ∈ [goStr "<=", goStr ">=", goStr "<>"]) := by
  refine ⟨?_, by decide, by decide, by decide, by decide, by decide, by decide, ?_⟩
  · intro op
    constructor
    · intro h
      exact operatorSpellings_split op ((operator_found_iff op).mp h)
    · intro h
      rcases h with h | h
      · exact operator_keys_found op (List.mem_of_mem_filter h)
      · exact operator_keys_found op (List.mem_of_mem_filter h)
  · intro k
    have e : twoCharOperators = [goStr ">=", goStr "<=", goStr "<>"] := by decide
    rw [e]
    simp only [List.mem_cons, List.mem_singleton, List.not_mem_nil, or_false]
    tauto

set_option maxRecDepth 100000 in
/-- C17 (as stated) fails: sixteen distinct single-character strings are in the
operator table, not thirteen. -/
theorem C17_counterexample :
    singleCharOperators = [goStr "=", goStr "*", goStr ",", goStr "-", goStr "%", goStr "+",
      goStr "/", goStr "^", goStr ":", goStr ";", goStr "(", goStr ")", goStr "[", goStr "]",
      goStr ">", goStr "<"] ∧
    singleCharOperators.Nodup ∧
    singleCharOperators.all (fun k => k.length = 1 && (LookupOperator k).2) = true ∧
    singleCharOperators.length = 16 ∧
    singleCharOperators.length ≠ 13 := by
  decide

set_option maxRecDepth 100000 in
theorem escaped_printable : ∀ c : Byte, 0x20 ≤ c.val → c.val ≤ 0x7E → c ≠ 34 → c ≠ 92 →
    ∀ wide : Nat → Bool, appendEscapedRune wide c.val = [c] := by
  intro c h1 h2 h3 h4 wide
  have e1 : ¬ (c.val = 34 ∨ c.val = 92) := by
    intro e
    rcases e with e | e
    · exact h3 (Fin.ext e)
    · exact h4 (Fin.ext e)
  have e2 : IsPrint wide c.val = true := by
    simp only [IsPrint]
    rw [if_pos (by omega), if_pos ⟨h1, h2⟩]
  rw [appendEscapedRune, if_neg e1, if_pos e2]
  exact runeString_ascii c (by omega)

/-- Quoting printable ASCII without '"' and backslash only adds the quotes. -/
theorem quoteLoop_printable (wide : Nat → Bool) : ∀ s : GoString,
    (∀ x ∈ s, 0x20 ≤ x.val ∧ x.val ≤ 0x7E ∧ x ≠ 34 ∧ x ≠ 92) → quoteLoop wide 0 s = s := by
  intro s
  induction s with
  | nil => intro _; rfl
  | cons c t ih =>
    intro h
    have hc := h c (by simp)
    have h80 : ¬ (0x80 ≤ c.val) := by omega
    have hne : ¬ (True ∧ c.val = RuneError) := by
      simp only [RuneError]
      omega
    simp only [quoteLoop, if_neg h80, escaped_printable c hc.1 hc.2.1 hc.2.2.1 hc.2.2.2 wide]
    rw [ih (fun x hx => h x (List.mem_cons_of_mem _ hx)), if_neg hne]
    rfl

theorem scan_flags_inv (m : GoString → GoString) (rest : GoString) (a b : Bool)
    (hab : ¬ (a = true ∧ b = true)) :
    ¬ ((scan m rest a b).atStart = true ∧ (scan m rest a b).lineRead = true) := by
  rcases scan_flags m rest a b with ⟨_, h1, h2⟩ | ⟨_, _, _, _, h1, h2⟩ | ⟨_, _, h1, h2⟩
  · rw [h1, h2]; simp
  · rw [h1, h2]; simp
  · rw [h1, h2]; intro hc; apply hab; simpa using hc

theorem scans_flags_inv (m : GoString → GoString) : ∀ (n : Nat) (rest : GoString) (a b : Bool),
    ¬ (a = true ∧ b = true) →
    ¬ ((scans m n rest a b).2.2.1 = true ∧ (scans m n rest a b).2.2.2 = true) := by
  intro n
  induction n with
  | zero => intro rest a b h; exact h
  | succ n ih =>
    intro rest a b h
    exact ih _ _ _ (scan_flags_inv m rest a b h)

/-- C16: in every state reached from New(s), atStartOfLine and lineNumberRead
are not both true.  A call after which atStartOfLine is true, or in which
lineNumberRead goes from true to false, returns NEWLINE, and a NEWLINE call
sets atStartOfLine and clears lineNumberRead together; a call in which
lineNumberRead goes from false to true returns LINENO. -/
theorem C16_line_flags (m : GoString → GoString) (s : GoString) (n : Nat) :
    ∃ (toks : List Token) (l : Lexer) (tok : Token) (l1 : Lexer),
      NextTokens m n (New s) = some (toks, l) ∧
      NextToken m l = some (tok, l1) ∧
      ¬ (l.atStartOfLine = true ∧ l.lineNumberRead = true) ∧
      ¬ (l1.atStartOfLine = true ∧ l1.lineNumberRead = true) ∧
      (l1.atStartOfLine = true → tok.Type_ = NEWLINE) ∧
      (l.lineNumberRead = true → l1.lineNumberRead = false → tok.Type_ = NEWLINE) ∧
      (tok.Type_ = NEWLINE → l1.atStartOfLine = true ∧ l1.lineNumberRead = false) ∧
      (l.lineNumberRead = false → l1.lineNumberRead = true → tok.Type_ = LINENO) ∧
      (tok.Type_ = LINENO → l.atStartOfLine = true ∧ l.lineNumberRead = false ∧
        l1.atStartOfLine = false ∧ l1.lineNumberRead = true) := by
  have h0 := scans_suffix m n s true false
  have hinv := scans_flags_inv m n s true false (by simp)
  refine ⟨_, _, _, _, NextTokens_New m s n, NextToken_cur m _ _ h0, ?_⟩
  generalize (scans m n s true false).2.1 = rest at h0 hinv ⊢
  generalize (scans m n s true false).2.2.1 = a at hinv ⊢
  generalize (scans m n s true false).2.2.2 = b at hinv ⊢
  simp only [cur_atStartOfLine, cur_lineNumberRead]
  have hf := scan_flags m rest a b
  have hinv1 := scan_flags_inv m rest a b hinv
  refine ⟨hinv, hinv1, ?_, ?_, ?_, ?_, ?_⟩
  · intro h1
    rcases hf with ⟨h, _⟩ | ⟨_, _, _, _, h, _⟩ | ⟨_, _, h, _⟩
    · exact h
    · rw [h] at h1; exact absurd h1 (by decide)
    · rw [h] at h1
      exfalso; apply hinv; simpa using h1
  · intro hb h1
    rcases hf with ⟨h, _⟩ | ⟨_, _, _, _, _, h⟩ | ⟨_, _, _, h⟩
    · exact h
    · rw [h] at h1; exact absurd h1 (by decide)
    · rw [h, hb] at h1; exact absurd h1 (by decide)
  · intro ht
    rcases hf with ⟨_, h1, h2⟩ | ⟨h, _⟩ | ⟨h, _⟩
    · exact ⟨h1, h2⟩
    · rw [h] at ht; exact absurd ht (by decide)
    · exact absurd ht h
  · intro hb h1
    rcases hf with ⟨_, _, h⟩ | ⟨h, _⟩ | ⟨_, _, _, h⟩
    · rw [h] at h1; exact absurd h1 (by decide)
    · exact h
    · rw [h, hb] at h1; exact absurd h1 (by decide)
  · intro ht
    rcases hf with ⟨h, _⟩ | ⟨_, ha, hb, _, h1, h2⟩ | ⟨_, h, _⟩
    · rw [h] at ht; exact absurd ht (by decide)
    · exact ⟨ha, hb, h1, h2⟩
    · exact absurd ht h

set_option maxRecDepth 100000 in
/-- C18: for a non-empty digit string d1 and a digit string d2 (possibly
empty), the tokens of d1 "." d2 at the start of the input are LINENO d1,
FLOAT "." d2, EOF; "7." gives LINENO "7" and a FLOAT whose text is the bare
".". -/
theorem C18_decimal_at_line_start_is_split (m : GoString → GoString) (d1 d2 : GoString)
    (h1 : d1 ≠ []) (hd1 : ∀ x ∈ d1, isDigit x = true) (hd2 : ∀ x ∈ d2, isDigit x = true) :
    Tokens m 3 (d1 ++ goStr "." ++ d2)
      = some [⟨LINENO, d1⟩, ⟨FLOAT, goStr "." ++ d2⟩, ⟨EOF, goStr ""⟩] ∧
    Tokens m 3 (goStr "7.")
      = some [⟨LINENO, goStr "7"⟩, ⟨FLOAT, goStr "."⟩, ⟨EOF, goStr ""⟩] := by
  have main : ∀ e1 e2 : GoString, e1 ≠ [] → (∀ x ∈ e1, isDigit x = true) →
      (∀ x ∈ e2, isDigit x = true) →
      Tokens m 3 (e1 ++ (46 :: e2)) = some [⟨LINENO, e1⟩, ⟨FLOAT, 46 :: e2⟩, ⟨EOF, []⟩] := by
    intro e1 e2 hne he1 he2
    rw [Tokens_eq]
    simp only [scans]
    rw [scan_LINENO m e1 (46 :: e2) hne he1 (show isDigit 46 = false by decide)]
    simp only []
    have hf := scan_FLOAT m [] e2 [] false true rfl (by simp) he2
      (show isDigit 0 = false by decide)
    simp only [List.nil_append, List.append_nil] at hf
    rw [hf]
    simp only [scan_end]
  constructor
  · have e : d1 ++ goStr "." ++ d2 = d1 ++ (46 :: d2) := by
      rw [List.append_assoc]; rfl
    rw [e]
    exact main d1 d2 h1 hd1 hd2
  · exact main (goStr "7") [] (by decide) (by decide) (by simp)

set_option maxRecDepth 100000 in
theorem C18_witness :
    (goStr "3" ≠ [] ∧ (∀ x ∈ goStr "3", isDigit x = true) ∧
      (∀ x ∈ goStr "14", isDigit x = true)) ∧
    Tokens id 3 (goStr "3" ++ goStr "." ++ goStr "14")
      = some [⟨LINENO, goStr "3"⟩, ⟨FLOAT, goStr "." ++ goStr "14"⟩, ⟨EOF, goStr ""⟩] :=
  ⟨⟨by decide, by decide, by decide⟩,
   (C18_decimal_at_line_start_is_split id (goStr "3") (goStr "14") (by decide) (by decide)
     (by decide)).1⟩

theorem scans_of_blank (m : GoString → GoString) (w s : GoString) (a b : Bool)
    (hw : ∀ x ∈ w, isBlank x = true) :
    ∀ n : Nat, (scans m n (w ++ s) a b).1 = (scans m n s a b).1 := by
  intro n
  cases n with
  | zero => rfl
  | succ n => simp only [scans, scan_of_blank m w s a b hw]

/-- C19: for every string w of spaces, tabs and carriage returns and every
input s, the first n calls of NextToken on New(w s) return the same tokens
(kinds and texts) as on New(s), for every n. -/
theorem C19_leading_blank_invisible (m : GoString → GoString) (w s : GoString) (n : Nat)
    (hw : ∀ x ∈ w, x = 32 ∨ x = 9 ∨ x = 13) :
    Tokens m n (w ++ s) = Tokens m n s := by
  have hw2 : ∀ x ∈ w, isBlank x = true := by
    intro x hx
    rcases hw x hx with h | h | h <;> rw [h] <;> decide
  rw [Tokens_eq, Tokens_eq, scans_of_blank m w s true false hw2 n]

set_option maxRecDepth 100000 in
theorem C19_witness :
    (∀ x ∈ goStr " \t\r ", x = 32 ∨ x = 9 ∨ x = 13) ∧
    Tokens id 4 (goStr " \t\r " ++ goStr "10 PRINT x")
      = Tokens id 4 (goStr "10 PRINT x") ∧
    Tokens id 4 (goStr "10 PRINT x")
      = some [⟨LINENO, goStr "10"⟩, ⟨PRINT, goStr "PRINT"⟩, ⟨IDENT, goStr "x"⟩,
              ⟨EOF, goStr ""⟩] :=
  ⟨by decide, C19_leading_blank_invisible id (goStr " \t\r ") (goStr "10 PRINT x") 4 (by decide),
   by decide⟩

/-! ## A NUL byte inside the input -/

theorem takeWhile_nul (p : Byte → Bool) (hp : p 0 = false) (tl : GoString) :
    ∀ r : GoString, (r ++ 0 :: tl).takeWhile p = r.takeWhile p := by
  intro r
  induction r with
  | nil => simp [List.takeWhile_cons, hp]
  | cons c t ih =>
    simp only [List.cons_append, List.takeWhile_cons, ih]

theorem dropWhile_nul (p : Byte → Bool) (hp : p 0 = false) (tl : GoString) :
    ∀ r : GoString, (r ++ 0 :: tl).dropWhile p = r.dropWhile p ++ 0 :: tl := by
  intro r
  induction r with
  | nil => simp [List.dropWhile_cons, hp]
  | cons c t ih =>
    simp only [List.cons_append, List.dropWhile_cons, ih]
    split_ifs <;> rfl

theorem headD_nul (tl : GoString) (r : GoString) : (r ++ 0 :: tl).headD 0 = r.headD 0 := by
  cases r <;> rfl

theorem tail_nul (tl : GoString) (r : GoString) (h : r ≠ []) :
    (r ++ 0 :: tl).tail = r.tail ++ 0 :: tl := by
  cases r with
  | nil => exact absurd rfl h
  | cons c t => rfl

theorem numberRest_nul (tl : GoString) : ∀ (r : GoString) (d : Bool) (ty : GoString),
    numberRest (r ++ 0 :: tl) d ty = ((numberRest r d ty).1 ++ 0 :: tl, (numberRest r d ty).2) := by
  intro r
  induction r with
  | nil =>
    intro d ty
    have h0 : isDigit 0 = false := by decide
    have h46 : ¬ ((0 : Byte) = 46 ∧ (!d) = true) := by
      intro h; exact absurd h.1 (by decide)
    simp only [List.nil_append, numberRest, h0, Bool.false_eq_true, if_false, if_neg h46]
  | cons c t ih =>
    intro d ty
    simp only [List.cons_append, numberRest]
    split_ifs
    · exact ih d ty
    · exact ih true FLOAT
    · rfl

theorem take_nul (tl r R : GoString) (h : R <:+ r) :
    (r ++ 0 :: tl).take ((r ++ 0 :: tl).length - (R ++ 0 :: tl).length)
      = r.take (r.length - R.length) := by
  have hl := h.length_le
  have e : (r ++ 0 :: tl).length - (R ++ 0 :: tl).length = r.length - R.length := by
    simp only [List.length_append, List.length_cons]
    omega
  rw [e, List.take_append_of_le_length (by omega)]

theorem scanOp_nul (tl : GoString) (c : Byte) (t : GoString) :
    scanOp c (t ++ 0 :: tl) = ((scanOp c t).1, (scanOp c t).2 ++ 0 :: tl) := by
  simp only [scanOp, headD_nul]
  by_cases h1 : c = 60 ∨ c = 62
  · rw [if_pos h1, if_pos h1]
    by_cases h2 : t.headD 0 = 61 ∨ (c = 60 ∧ t.headD 0 = 62)
    · rw [if_pos h2, if_pos h2]
      have hne : t ≠ [] := by
        intro e; subst e
        simp at h2
      rw [tail_nul tl t hne]
      split_ifs <;> rfl
    · rw [if_neg h2, if_neg h2]
  · rw [if_neg h1, if_neg h1]

/-- One call with a NUL byte after the NUL-free text `r` returns the token it
returns on `r` alone, and leaves the NUL byte and what follows it unread. -/
theorem scan_nul (m : GoString → GoString) (r tl : GoString) (a b : Bool)
    (hr : ∀ x ∈ r, x ≠ 0) :
    scan m (r ++ 0 :: tl) a b =
      ⟨(scan m r a b).tok, (scan m r a b).rest ++ 0 :: tl, (scan m r a b).atStart,
        (scan m r a b).lineRead⟩ := by
  have hbl := dropWhile_nul isBlank isBlank_zero tl r
  cases hd : r.dropWhile isBlank with
  | nil =>
    rw [hd, List.nil_append] at hbl
    rw [scan_nil m r a b hd, scan_cons m _ a b 0 tl hbl, if_neg (by decide),
      if_neg (by simp [isDigit_zero]), if_neg (by decide), if_pos rfl]
    rfl
  | cons c t =>
    rw [hd, List.cons_append] at hbl
    have hc0 : c ≠ 0 := by
      apply hr c
      have : c ∈ r.dropWhile isBlank := by rw [hd]; simp
      exact (List.dropWhile_suffix isBlank).subset this
    rw [scan_cons m r a b c t hd, scan_cons m _ a b c (t ++ 0 :: tl) hbl]
    have econs : c :: (t ++ 0 :: tl) = (c :: t) ++ 0 :: tl := rfl
    by_cases h10 : c = 10
    · rw [if_pos h10, if_pos h10]
    rw [if_neg h10, if_neg h10]
    by_cases hln : ((a && !b) && isDigit c) = true
    · rw [if_pos hln, if_pos hln, econs, takeWhile_nul isDigit isDigit_zero,
        dropWhile_nul isDigit isDigit_zero]
    rw [if_neg hln, if_neg hln]
    by_cases h34 : c = 34
    · rw [if_pos h34, if_pos h34, takeWhile_nul isStrChar (by decide),
        dropWhile_nul isStrChar (by decide), headD_nul]
      by_cases hq : (t.dropWhile isStrChar).headD 0 = 34
      · have hne : t.dropWhile isStrChar ≠ [] := by
          intro e; rw [e] at hq; exact absurd hq (by decide)
        simp only [hq, if_true, tail_nul tl _ hne]
      · simp only [hq, if_false]
    rw [if_neg h34, if_neg h34, if_neg hc0, if_neg hc0]
    by_cases hdg : (isDigit c || decide (c = 46)) = true
    · rw [if_pos hdg, if_pos hdg, econs, numberRest_nul]
      simp only []
      rw [take_nul tl (c :: t) _ (numberRest_suffix (c :: t) false INTEGER)]
    rw [if_neg hdg, if_neg hdg]
    by_cases hl : (isLetter c || decide (c = 95) || decide (c = 36)) = true
    · rw [if_pos hl, if_pos hl, econs, takeWhile_nul isIdentifierChar isIdentifierChar_zero,
        dropWhile_nul isIdentifierChar isIdentifierChar_zero,
        dropWhile_nul isBlank isBlank_zero, takeWhile_nul isRemChar (by decide),
        dropWhile_nul isRemChar (by decide)]
      split_ifs <;> rfl
    rw [if_neg hl, if_neg hl, scanOp_nul]

theorem scans_nul (m : GoString → GoString) (tl : GoString) :
    ∀ (n : Nat) (r : GoString) (a b : Bool), (∀ x ∈ r, x ≠ 0) →
      (scans m n (r ++ 0 :: tl) a b).1 = (scans m n r a b).1 := by
  intro n
  induction n with
  | zero => intro r a b _; rfl
  | succ n ih =>
    intro r a b hr
    simp only [scans, scan_nul m r tl a b hr]
    rw [ih (scan m r a b).rest _ _
      (fun x hx => hr x ((scan_suffix m r a b).subset hx))]

/-- C20: for every string a with no NUL byte and every string b, the first n
calls of NextToken on New(a NUL b) return the same tokens as on New(a), for
every n: nothing after the first NUL byte is tokenized. -/
theorem C20_nul_ends_input (m : GoString → GoString) (a b : GoString) (n : Nat)
    (ha : ∀ x ∈ a, x ≠ 0) :
    Tokens m n (a ++ goStr "\x00" ++ b) = Tokens m n a := by
  have e : a ++ goStr "\x00" ++ b = a ++ 0 :: b := by
    rw [List.append_assoc]; rfl
  rw [Tokens_eq, Tokens_eq, e, scans_nul m b n a true false ha]

set_option maxRecDepth 100000 in
theorem C20_witness :
    (∀ x ∈ goStr "10 LET x", x ≠ 0) ∧
    Tokens id 5 (goStr "10 LET x" ++ goStr "\x00" ++ goStr "= 5\n20 END")
      = Tokens id 5 (goStr "10 LET x") ∧
    Tokens id 5 (goStr "10 LET x")
      = some [⟨LINENO, goStr "10"⟩, ⟨LET, goStr "LET"⟩, ⟨IDENT, goStr "x"⟩,
              ⟨EOF, goStr ""⟩, ⟨EOF, goStr ""⟩] :=
  ⟨by decide,
   C20_nul_ends_input id (goStr "10 LET x") (goStr "= 5\n20 END") 5 (by decide),
   by decide⟩

theorem byteOf_val (n : Nat) : (byteOf n).val = n % 256 := rfl

theorem Decode_one (b0 : Byte) (t : GoString) (h : b0.val < 0x80) :
    DecodeRuneInString (b0 :: t) = (b0.val, 1) := by
  simp only [DecodeRuneInString, if_pos h]

theorem Decode_two (b0 b1 : Byte) (t : GoString) (h0 : 0xC2 ≤ b0.val) (h0' : b0.val ≤ 0xDF)
    (h1 : 0x80 ≤ b1.val) (h1' : b1.val ≤ 0xBF) :
    DecodeRuneInString (b0 :: b1 :: t) = (b0.val % 32 * 64 + b1.val % 64, 2) := by
  have e1 : ¬ b0.val < 0x80 := by omega
  have e2 : ¬ (b0.val < 0xC2 ∨ 0xF4 < b0.val) := by omega
  have e3 : b0.val < 0xE0 := by omega
  have e4 : ¬ b0.val = 0xE0 := by omega
  have e5 : ¬ b0.val = 0xF0 := by omega
  have e6 : ¬ b0.val = 0xED := by omega
  have e7 : ¬ b0.val = 0xF4 := by omega
  simp only [DecodeRuneInString, if_neg e1, if_neg e2, if_pos e3, if_neg e4, if_neg e5,
    if_neg e6, if_neg e7, List.length_cons]
  rw [if_neg (by omega), if_neg (by omega), if_pos (Nat.le_refl 2)]

theorem Decode_three (b0 b1 b2 : Byte) (t : GoString) (h0 : 0xE0 ≤ b0.val)
    (h0' : b0.val ≤ 0xEF) (h1 : 0x80 ≤ b1.val) (h1' : b1.val ≤ 0xBF)
    (hE0 : b0.val = 0xE0 → 0xA0 ≤ b1.val) (hED : b0.val = 0xED → b1.val ≤ 0x9F)
    (h2 : 0x80 ≤ b2.val) (h2' : b2.val ≤ 0xBF) :
    DecodeRuneInString (b0 :: b1 :: b2 :: t)
      = (b0.val % 16 * 4096 + b1.val % 64 * 64 + b2.val % 64, 3) := by
  have e1 : ¬ b0.val < 0x80 := by omega
  have e2 : ¬ (b0.val < 0xC2 ∨ 0xF4 < b0.val) := by omega
  have e3 : ¬ b0.val < 0xE0 := by omega
  have e3' : b0.val < 0xF0 := by omega
  have e5 : ¬ b0.val = 0xF0 := by omega
  have e7 : ¬ b0.val = 0xF4 := by omega
  have hc : isCont b2 = true := by simp [isCont, h2, h2']
  simp only [DecodeRuneInString, if_neg e1, if_neg e2, if_neg e3, if_pos e3', if_neg e5,
    if_neg e7, List.length_cons, hc, Bool.not_true, Bool.false_eq_true, if_false]
  rw [if_neg (by omega), if_neg, if_neg (by omega), if_pos (Nat.le_refl 3)]
  intro h
  rcases h with h | h
  · split_ifs at h with ha
    · have := hE0 ha; omega
    · omega
  · split_ifs at h with ha
    · have := hED ha; omega
    · omega

theorem Decode_four (b0 b1 b2 b3 : Byte) (t : GoString) (h0 : 0xF0 ≤ b0.val)
    (h0' : b0.val ≤ 0xF4) (h1 : 0x80 ≤ b1.val) (h1' : b1.val ≤ 0xBF)
    (hF0 : b0.val = 0xF0 → 0x90 ≤ b1.val) (hF4 : b0.val = 0xF4 → b1.val ≤ 0x8F)
    (h2 : 0x80 ≤ b2.val) (h2' : b2.val ≤ 0xBF) (h3 : 0x80 ≤ b3.val) (h3' : b3.val ≤ 0xBF) :
    DecodeRuneInString (b0 :: b1 :: b2 :: b3 :: t)
      = (b0.val % 8 * 262144 + b1.val % 64 * 4096 + b2.val % 64 * 64 + b3.val % 64, 4) := by
  have e1 : ¬ b0.val < 0x80 := by omega
  have e2 : ¬ (b0.val < 0xC2 ∨ 0xF4 < b0.val) := by omega
  have e3 : ¬ b0.val < 0xE0 := by omega
  have e3' : ¬ b0.val < 0xF0 := by omega
  have e4 : ¬ b0.val = 0xE0 := by omega
  have e6 : ¬ b0.val = 0xED := by omega
  have hc2 : isCont b2 = true := by simp [isCont, h2, h2']
  have hc3 : isCont b3 = true := by simp [isCont, h3, h3']
  simp only [DecodeRuneInString, if_neg e1, if_neg e2, if_neg e3, if_neg e3', if_neg e4,
    if_neg e6, List.length_cons, hc2, hc3, Bool.not_true, Bool.false_eq_true, if_false]
  rw [if_neg (by omega), if_neg, if_neg (by omega), if_neg (by omega)]
  intro h
  rcases h with h | h
  · split_ifs at h with ha
    · have := hF0 ha; omega
    · omega
  · split_ifs at h with ha
    · have := hF4 ha; omega
    · omega

/-- The UTF-8 encoding of a valid code point is one of four shapes. -/
theorem runeString_shape (r : Nat) (hv : ValidRune r = true) :
    (r < 0x80 ∧ runeString r = [byteOf r]) ∨
    (0x80 ≤ r ∧ r < 0x800 ∧ runeString r = [byteOf (0xC0 + r / 64), byteOf (0x80 + r % 64)]) ∨
    (0x800 ≤ r ∧ r < 0x10000 ∧ ¬ (0xD800 ≤ r ∧ r < 0xE000) ∧ runeString r =
      [byteOf (0xE0 + r / 4096), byteOf (0x80 + r / 64 % 64), byteOf (0x80 + r % 64)]) ∨
    (0x10000 ≤ r ∧ r < 0x110000 ∧ runeString r =
      [byteOf (0xF0 + r / 262144), byteOf (0x80 + r / 4096 % 64),
       byteOf (0x80 + r / 64 % 64), byteOf (0x80 + r % 64)]) := by
  have hv' : r < 0xD800 ∨ (0xDFFF < r ∧ r ≤ 0x10FFFF) := by
    simpa [ValidRune] using hv
  by_cases h1 : r < 0x80
  · left; exact ⟨h1, by simp only [runeString, if_pos h1]⟩
  by_cases h2 : r < 0x800
  · right; left
    exact ⟨by omega, h2, by simp only [runeString, if_neg h1, if_pos h2]⟩
  have h3 : ¬ (0xD800 ≤ r ∧ r < 0xE000) := by omega
  by_cases h4 : r < 0x10000
  · right; right; left
    exact ⟨by omega, h4, h3, by simp only [runeString, if_neg h1, if_neg h2, if_neg h3, if_pos h4]⟩
  have h5 : r < 0x110000 := by omega
  right; right; right
  exact ⟨by omega, h5,
    by simp only [runeString, if_neg h1, if_neg h2, if_neg h3, if_neg h4, if_pos h5]⟩

/-- Decoding undoes encoding: a string that begins with the encoding of a
valid code point decodes to that code point and the width of its encoding. -/
theorem Decode_runeString (r : Nat) (t : GoString) (hv : ValidRune r = true) :
    DecodeRuneInString (runeString r ++ t) = (r, (runeString r).length) := by
  rcases runeString_shape r hv with ⟨h, e⟩ | ⟨h, h', e⟩ | ⟨h, h', hs, e⟩ | ⟨h, h', e⟩
  · rw [e]
    have hb : (byteOf r).val = r := by rw [byteOf_val]; omega
    simp only [List.singleton_append, List.length_singleton]
    rw [Decode_one _ _ (by omega), hb]
  · rw [e]
    have hb0 : (byteOf (0xC0 + r / 64)).val = 0xC0 + r / 64 := by rw [byteOf_val]; omega
    have hb1 : (byteOf (0x80 + r % 64)).val = 0x80 + r % 64 := by rw [byteOf_val]; omega
    simp only [List.cons_append, List.nil_append, List.length_cons, List.length_nil]
    rw [Decode_two _ _ _ (by omega) (by omega) (by omega) (by omega), hb0, hb1]
    simp only [Prod.mk.injEq, and_true]
    omega
  · rw [e]
    have hb0 : (byteOf (0xE0 + r / 4096)).val = 0xE0 + r / 4096 := by rw [byteOf_val]; omega
    have hb1 : (byteOf (0x80 + r / 64 % 64)).val = 0x80 + r / 64 % 64 := by
      rw [byteOf_val]; omega
    have hb2 : (byteOf (0x80 + r % 64)).val = 0x80 + r % 64 := by rw [byteOf_val]; omega
    simp only [List.cons_append, List.nil_append, List.length_cons, List.length_nil]
    rw [Decode_three _ _ _ _ (by omega) (by omega) (by omega) (by omega) (by omega) (by omega)
      (by omega) (by omega), hb0, hb1, hb2]
    simp only [Prod.mk.injEq, and_true]
    omega
  · rw [e]
    have hb0 : (byteOf (0xF0 + r / 262144)).val = 0xF0 + r / 262144 := by
      rw [byteOf_val]; omega
    have hb1 : (byteOf (0x80 + r / 4096 % 64)).val = 0x80 + r / 4096 % 64 := by
      rw [byteOf_val]; omega
    have hb2 : (byteOf (0x80 + r / 64 % 64)).val = 0x80 + r / 64 % 64 := by
      rw [byteOf_val]; omega
    have hb3 : (byteOf (0x80 + r % 64)).val = 0x80 + r % 64 := by rw [byteOf_val]; omega
    simp only [List.cons_append, List.nil_append, List.length_cons, List.length_nil]
    rw [Decode_four _ _ _ _ _ (by omega) (by omega) (by omega) (by omega) (by omega) (by omega)
      (by omega) (by omega) (by omega) (by omega), hb0, hb1, hb2, hb3]
    simp only [Prod.mk.injEq, and_true]
    omega

theorem isCont_iff (b : Byte) : isCont b = true ↔ 0x80 ≤ b.val ∧ b.val ≤ 0xBF := by
  simp [isCont]

/-- The decoder either reports an error of width 1 or has read one of the
three multi-byte shapes of well-formed UTF-8. -/
theorem Decode_shape (s0 : Byte) (t : GoString) (h : 0x80 ≤ s0.val) :
    DecodeRuneInString (s0 :: t) = (RuneError, 1) ∨
    (∃ s1 t1, t = s1 :: t1 ∧ 0xC2 ≤ s0.val ∧ s0.val ≤ 0xDF ∧ 0x80 ≤ s1.val ∧ s1.val ≤ 0xBF) ∨
    (∃ s1 s2 t2, t = s1 :: s2 :: t2 ∧ 0xE0 ≤ s0.val ∧ s0.val ≤ 0xEF ∧
      0x80 ≤ s1.val ∧ s1.val ≤ 0xBF ∧ (s0.val = 0xE0 → 0xA0 ≤ s1.val) ∧
      (s0.val = 0xED → s1.val ≤ 0x9F) ∧ 0x80 ≤ s2.val ∧ s2.val ≤ 0xBF) ∨
    (∃ s1 s2 s3 t3, t = s1 :: s2 :: s3 :: t3 ∧ 0xF0 ≤ s0.val ∧ s0.val ≤ 0xF4 ∧
      0x80 ≤ s1.val ∧ s1.val ≤ 0xBF ∧ (s0.val = 0xF0 → 0x90 ≤ s1.val) ∧
      (s0.val = 0xF4 → s1.val ≤ 0x8F) ∧ 0x80 ≤ s2.val ∧ s2.val ≤ 0xBF ∧
      0x80 ≤ s3.val ∧ s3.val ≤ 0xBF) := by
  have e1 : ¬ s0.val < 0x80 := by omega
  by_cases hbad : s0.val < 0xC2 ∨ 0xF4 < s0.val
  · left
    simp only [DecodeRuneInString, if_neg e1, if_pos hbad]
  rcases t with _ | ⟨s1, t1⟩
  · left
    simp only [DecodeRuneInString, if_neg e1, if_neg hbad, ite_self]
  by_cases hc1 : s1.val < (if s0.val = 0xE0 then 0xA0 else if s0.val = 0xF0 then 0x90 else 0x80) ∨
      (if s0.val = 0xED then 0x9F else if s0.val = 0xF4 then 0x8F else 0xBF) < s1.val
  · left
    simp only [DecodeRuneInString, if_neg e1, if_neg hbad, if_pos hc1, ite_self]
  have h1 : 0x80 ≤ s1.val ∧ s1.val ≤ 0xBF ∧ (s0.val = 0xE0 → 0xA0 ≤ s1.val) ∧
      (s0.val = 0xED → s1.val ≤ 0x9F) ∧ (s0.val = 0xF0 → 0x90 ≤ s1.val) ∧
      (s0.val = 0xF4 → s1.val ≤ 0x8F) := by
    split_ifs at hc1 <;> omega
  by_cases h2 : s0.val < 0xE0
  · right; left
    exact ⟨s1, t1, rfl, by omega, by omega, h1.1, h1.2.1⟩
  rcases t1 with _ | ⟨s2, t2⟩
  · left
    simp only [DecodeRuneInString, if_neg e1, if_neg hbad, if_neg h2, if_neg hc1,
      List.length_cons, List.length_nil]
    split_ifs <;> first | rfl | (exfalso; omega)
  by_cases hc2 : isCont s2 = true
  swap
  · left
    simp only [DecodeRuneInString, if_neg e1, if_neg hbad, if_neg h2, if_neg hc1, hc2,
      List.length_cons, List.length_nil]
    split_ifs <;> first | rfl | (exfalso; omega) | simp_all
  have hc2' := (isCont_iff s2).1 hc2
  by_cases h3 : s0.val < 0xF0
  · right; right; left
    exact ⟨s1, s2, t2, rfl, by omega, by omega, h1.1, h1.2.1, h1.2.2.1, h1.2.2.2.1,
      hc2'.1, hc2'.2⟩
  rcases t2 with _ | ⟨s3, t3⟩
  · left
    simp only [DecodeRuneInString, if_neg e1, if_neg hbad, if_neg h2, if_neg h3, if_neg hc1,
      List.length_cons, List.length_nil]
    split_ifs <;> first | rfl | (exfalso; omega)
  by_cases hc3 : isCont s3 = true
  swap
  · left
    simp only [DecodeRuneInString, if_neg e1, if_neg hbad, if_neg h2, if_neg h3, if_neg hc1,
      hc2, hc3, List.length_cons, List.length_nil]
    split_ifs <;> first | rfl | (exfalso; omega) | simp_all
  have hc3' := (isCont_iff s3).1 hc3
  right; right; right
  exact ⟨s1, s2, s3, t3, rfl, by omega, by omega, h1.1, h1.2.1, h1.2.2.2.2.1, h1.2.2.2.2.2,
    hc2'.1, hc2'.2, hc3'.1, hc3'.2⟩

theorem byteOf_self (c : Byte) : byteOf c.val = c := by
  apply Fin.ext
  rw [byteOf_val]
  exact Nat.mod_eq_of_lt c.isLt

theorem byteOf_eq (n : Nat) (c : Byte) (h : n = c.val) : byteOf n = c := by
  rw [h, byteOf_self]

theorem ValidRune_iff (r : Nat) :
    ValidRune r = true ↔ r < 0xD800 ∨ (0xDFFF < r ∧ r ≤ 0x10FFFF) := by
  simp [ValidRune]

theorem runeString_one (c : Byte) (h : c.val < 0x80) : runeString c.val = [c] := by
  simp only [runeString, if_pos h, byteOf_self]

theorem runeString_two (s0 s1 : Byte) (h0 : 0xC2 ≤ s0.val) (h0' : s0.val ≤ 0xDF)
    (h1 : 0x80 ≤ s1.val) (h1' : s1.val ≤ 0xBF) :
    ValidRune (s0.val % 32 * 64 + s1.val % 64) = true ∧
    0x80 ≤ s0.val % 32 * 64 + s1.val % 64 ∧
    runeString (s0.val % 32 * 64 + s1.val % 64) = [s0, s1] := by
  generalize hr : s0.val % 32 * 64 + s1.val % 64 = r
  have hlo : 0x80 ≤ r := by omega
  have hhi : r < 0x800 := by omega
  refine ⟨(ValidRune_iff r).2 (by omega), hlo, ?_⟩
  simp only [runeString, if_neg (show ¬ r < 0x80 by omega), if_pos hhi]
  rw [byteOf_eq _ s0 (by omega), byteOf_eq _ s1 (by omega)]

theorem runeString_three (s0 s1 s2 : Byte) (h0 : 0xE0 ≤ s0.val)
    (h0' : s0.val ≤ 0xEF) (h1 : 0x80 ≤ s1.val) (h1' : s1.val ≤ 0xBF)
    (hE0 : s0.val = 0xE0 → 0xA0 ≤ s1.val) (hED : s0.val = 0xED → s1.val ≤ 0x9F)
    (h2 : 0x80 ≤ s2.val) (h2' : s2.val ≤ 0xBF) :
    ValidRune (s0.val % 16 * 4096 + s1.val % 64 * 64 + s2.val % 64) = true ∧
    0x80 ≤ s0.val % 16 * 4096 + s1.val % 64 * 64 + s2.val % 64 ∧
    runeString (s0.val % 16 * 4096 + s1.val % 64 * 64 + s2.val % 64) = [s0, s1, s2] := by
  generalize hr : s0.val % 16 * 4096 + s1.val % 64 * 64 + s2.val % 64 = r
  have hlo : 0x800 ≤ r := by omega
  have hhi : r < 0x10000 := by omega
  have hs : ¬ (0xD800 ≤ r ∧ r < 0xE000) := by omega
  refine ⟨(ValidRune_iff r).2 (by omega), by omega, ?_⟩
  simp only [runeString, if_neg (show ¬ r < 0x80 by omega),
    if_neg (show ¬ r < 0x800 by omega), if_neg hs, if_pos hhi]
  rw [byteOf_eq _ s0 (by omega), byteOf_eq _ s1 (by omega), byteOf_eq _ s2 (by omega)]

theorem runeString_four (s0 s1 s2 s3 : Byte) (h0 : 0xF0 ≤ s0.val)
    (h0' : s0.val ≤ 0xF4) (h1 : 0x80 ≤ s1.val) (h1' : s1.val ≤ 0xBF)
    (hF0 : s0.val = 0xF0 → 0x90 ≤ s1.val) (hF4 : s0.val = 0xF4 → s1.val ≤ 0x8F)
    (h2 : 0x80 ≤ s2.val) (h2' : s2.val ≤ 0xBF) (h3 : 0x80 ≤ s3.val) (h3' : s3.val ≤ 0xBF) :
    ValidRune (s0.val % 8 * 262144 + s1.val % 64 * 4096 + s2.val % 64 * 64 + s3.val % 64)
      = true ∧
    0x80 ≤ s0.val % 8 * 262144 + s1.val % 64 * 4096 + s2.val % 64 * 64 + s3.val % 64 ∧
    runeString (s0.val % 8 * 262144 + s1.val % 64 * 4096 + s2.val % 64 * 64 + s3.val % 64)
      = [s0, s1, s2, s3] := by
  generalize hr : s0.val % 8 * 262144 + s1.val % 64 * 4096 + s2.val % 64 * 64 + s3.val % 64 = r
  have hlo : 0x10000 ≤ r := by omega
  have hhi : r < 0x110000 := by omega
  refine ⟨(ValidRune_iff r).2 (by omega), by omega, ?_⟩
  simp only [runeString, if_neg (show ¬ r < 0x80 by omega),
    if_neg (show ¬ r < 0x800 by omega), if_neg (show ¬ (0xD800 ≤ r ∧ r < 0xE000) by omega),
    if_neg (show ¬ r < 0x10000 by omega), if_pos hhi]
  rw [byteOf_eq _ s0 (by omega), byteOf_eq _ s1 (by omega), byteOf_eq _ s2 (by omega),
    byteOf_eq _ s3 (by omega)]

/-- A string that starts with a byte of 0x80 or more either decodes to an
error of width 1, or starts with the encoding of a valid code point of
U+0080 or more, whose second byte is a continuation byte. -/
theorem Decode_high (s0 : Byte) (t : GoString) (h : 0x80 ≤ s0.val) :
    DecodeRuneInString (s0 :: t) = (RuneError, 1) ∨
    ∃ r t', ValidRune r = true ∧ 0x80 ≤ r ∧ s0 :: t = runeString r ++ t' ∧
      ∃ s1 t1, t = s1 :: t1 ∧ isCont s1 = true := by
  rcases Decode_shape s0 t h with e | ⟨s1, t1, rfl, a, b, c, d⟩ |
    ⟨s1, s2, t2, rfl, a, b, c, d, e, f, g, i⟩ |
    ⟨s1, s2, s3, t3, rfl, a, b, c, d, e, f, g, i, j, k⟩
  · exact Or.inl e
  · obtain ⟨v, l, e⟩ := runeString_two s0 s1 a b c d
    exact Or.inr ⟨_, t1, v, l, by rw [e]; rfl, s1, t1, rfl, (isCont_iff s1).2 ⟨c, d⟩⟩
  · obtain ⟨v, l, e'⟩ := runeString_three s0 s1 s2 a b c d e f g i
    exact Or.inr ⟨_, t2, v, l, by rw [e']; rfl, s1, _, rfl, (isCont_iff s1).2 ⟨c, d⟩⟩
  · obtain ⟨v, l, e'⟩ := runeString_four s0 s1 s2 s3 a b c d e f g i j k
    exact Or.inr ⟨_, t3, v, l, by rw [e']; rfl, s1, _, rfl, (isCont_iff s1).2 ⟨c, d⟩⟩

/-- Encoding undoes decoding: a non-empty string either decodes to an error of
width 1 at a byte of 0x80 or more, or starts with the encoding of a valid code
point. -/
theorem Decode_cases (s : GoString) :
    s = [] ∨ (∃ b t, s = b :: t ∧ 0x80 ≤ b.val ∧ DecodeRuneInString s = (RuneError, 1)) ∨
    ∃ r t, ValidRune r = true ∧ s = runeString r ++ t := by
  rcases s with _ | ⟨s0, t⟩
  · exact Or.inl rfl
  right
  by_cases h : s0.val < 0x80
  · right
    exact ⟨s0.val, t, (ValidRune_iff _).2 (by omega), by rw [runeString_one s0 h]; rfl⟩
  rcases Decode_high s0 t (by omega) with e | ⟨r, t', v, -, e, -⟩
  · exact Or.inl ⟨s0, t, rfl, by omega, e⟩
  · exact Or.inr ⟨r, t', v, e⟩

theorem isCont_false_iff (b : Byte) : isCont b = false ↔ b.val < 0x80 ∨ 0xBF < b.val := by
  rw [← Bool.not_eq_true, isCont_iff]
  omega

/-- The first byte of an encoding is not a continuation byte. -/
theorem runeString_head (r : Nat) (hv : ValidRune r = true) :
    ∃ b t, runeString r = b :: t ∧ isCont b = false ∧ (r < 0x80 → t = [] ∧ b.val = r) ∧
      (0x80 ≤ r → 0x80 ≤ b.val) := by
  rcases runeString_shape r hv with ⟨h, e⟩ | ⟨h, h', e⟩ | ⟨h, h', hs, e⟩ | ⟨h, h', e⟩
  · refine ⟨_, _, e, ?_, fun _ => ⟨rfl, ?_⟩, fun h2 => by omega⟩
    · rw [isCont_false_iff, byteOf_val]; omega
    · rw [byteOf_val]; omega
  · refine ⟨_, _, e, ?_, fun h2 => by omega, fun _ => ?_⟩
    · rw [isCont_false_iff, byteOf_val]; omega
    · rw [byteOf_val]; omega
  · refine ⟨_, _, e, ?_, fun h2 => by omega, fun _ => ?_⟩
    · rw [isCont_false_iff, byteOf_val]; omega
    · rw [byteOf_val]; omega
  · refine ⟨_, _, e, ?_, fun h2 => by omega, fun _ => ?_⟩
    · rw [isCont_false_iff, byteOf_val]; omega
    · rw [byteOf_val]; omega

/-- The encoding of a code point of U+0080 or more is a lead byte followed by
one to three continuation bytes. -/
theorem runeString_tail (r : Nat) (hv : ValidRune r = true) (h : 0x80 ≤ r) :
    ∃ b cs, runeString r = b :: cs ∧ isCont b = false ∧ 0x80 ≤ b.val ∧
      (∀ c ∈ cs, isCont c = true) ∧ 1 ≤ cs.length ∧ cs.length ≤ 3 := by
  have hc : ∀ n : Nat, n < 64 → isCont (byteOf (0x80 + n)) = true := by
    intro n hn
    rw [isCont_iff, byteOf_val]
    omega
  obtain ⟨b, cs, e, hb, -, hb'⟩ := runeString_head r hv
  refine ⟨b, cs, e, hb, hb' h, ?_⟩
  rcases runeString_shape r hv with ⟨h1, -⟩ | ⟨-, -, e'⟩ | ⟨-, -, -, e'⟩ | ⟨-, -, e'⟩
  · omega
  all_goals
    rw [e'] at e
    injection e with _ e
    subst e
    refine ⟨?_, by simp, by simp⟩
    intro c hc'
    simp only [List.mem_cons, List.mem_singleton, List.not_mem_nil, or_false] at hc'
    rcases hc' with rfl | hc'
    · exact hc _ (by omega)
    try rcases hc' with rfl | hc'
    try exact hc _ (by omega)
    try rcases hc' with rfl | hc'
    try exact hc _ (by omega)

theorem scanBack_lead (t : GoString) (b : Byte) (cs : GoString) (lim : Nat)
    (hlim : lim ≤ t.length) (hb : isCont b = false) (hcs : ∀ c ∈ cs, isCont c = true)
    (j : Nat) (hj : j ≤ cs.length) :
    scanBack (t ++ b :: cs) lim (t.length + 1 + j) = t.length + 1 := by
  induction j with
  | zero =>
    have hg : (t ++ b :: cs).getD t.length 0 = b := by
      rw [List.getD_append_right _ _ _ _ (Nat.le_refl _)]
      simp
    simp only [Nat.add_zero, scanBack, if_neg (show ¬ t.length < lim by omega), hg, hb,
      Bool.not_false, if_true]
  | succ j ih =>
    have hg : isCont ((t ++ b :: cs).getD (t.length + 1 + j) 0) = true := by
      rw [List.getD_append_right _ _ _ _ (by omega)]
      have e : t.length + 1 + j - t.length = j + 1 := by omega
      rw [e, List.getD_cons_succ, List.getD_eq_getElem _ _ (by omega)]
      exact hcs _ (List.getElem_mem _)
    have e : t.length + 1 + (j + 1) = (t.length + 1 + j) + 1 := by omega
    rw [e]
    simp only [scanBack, if_neg (show ¬ t.length + 1 + j < lim by omega), hg,
      Bool.not_true, Bool.false_eq_true, if_false]
    exact ih (by omega)

/-- Decoding from the end undoes encoding: a string that ends with the
encoding of a valid code point decodes, from the end, to that code point and
the width of its encoding. -/
theorem DecodeLast_runeString (r : Nat) (t : GoString) (hv : ValidRune r = true) :
    DecodeLastRuneInString (t ++ runeString r) = (r, (runeString r).length) := by
  by_cases h : r < 0x80
  · obtain ⟨b, cs, e, -, hb, -⟩ := runeString_head r hv
    obtain ⟨rfl, hbv⟩ := hb h
    rw [e]
    have hg : (t ++ [b]).getD (t.length + 1 - 1) 0 = b := by
      rw [Nat.add_sub_cancel, List.getD_append_right _ _ _ _ (Nat.le_refl _)]
      simp
    simp only [DecodeLastRuneInString, List.length_append, List.length_singleton,
      if_neg (Nat.succ_ne_zero _), hg, hbv, if_pos h]
  · obtain ⟨b, cs, e, hb, hb', hcs, hl1, hl3⟩ := runeString_tail r hv (by omega)
    have hd := Decode_runeString r [] hv
    rw [List.append_nil] at hd
    rw [e] at hd ⊢
    have hn : (t ++ b :: cs).length = t.length + 1 + cs.length := by
      simp only [List.length_append, List.length_cons]; omega
    have hlast : 0x80 ≤ ((t ++ b :: cs).getD (t.length + 1 + cs.length - 1) 0).val := by
      rw [List.getD_append_right _ _ _ _ (by omega)]
      have e2 : t.length + 1 + cs.length - 1 - t.length = (cs.length - 1) + 1 := by omega
      rw [e2, List.getD_cons_succ, List.getD_eq_getElem _ _ (by omega)]
      exact ((isCont_iff _).1 (hcs _ (List.getElem_mem _))).1
    have hs := scanBack_lead t b cs (t.length + 1 + cs.length - 4) (by omega) hb hcs
      (cs.length - 1) (by omega)
    have e3 : t.length + 1 + (cs.length - 1) = t.length + 1 + cs.length - 1 := by omega
    rw [e3] at hs
    have hdrop : (t ++ b :: cs).drop t.length = b :: cs := by
      rw [List.drop_append_of_le_length (Nat.le_refl _), List.drop_length, List.nil_append]
    simp only [DecodeLastRuneInString, hn, if_neg (show ¬ t.length + 1 + cs.length = 0 by omega),
      if_neg (show ¬ ((t ++ b :: cs).getD (t.length + 1 + cs.length - 1) 0).val < 0x80 by omega),
      hs, Nat.add_sub_cancel, hdrop, hd, List.length_cons]
    rw [if_neg]
    omega

theorem scanBack_le (s : GoString) (lim k : Nat) : scanBack s lim k ≤ k := by
  induction k with
  | zero => simp [scanBack]
  | succ k ih =>
    simp only [scanBack]
    split_ifs
    · exact Nat.le_refl _
    · exact Nat.le_refl _
    · exact Nat.le_succ_of_le ih

/-- A non-empty string either ends with the encoding of a valid code point, or
decodes from the end to an error of width 1 at a last byte of 0x80 or more. -/
theorem DecodeLast_cases (X : GoString) (hX : X ≠ []) :
    (∃ r t, ValidRune r = true ∧ X = t ++ runeString r) ∨
    (DecodeLastRuneInString X = (RuneError, 1) ∧ ∃ t b, X = t ++ [b] ∧ 0x80 ≤ b.val) := by
  obtain ⟨t0, c, rfl⟩ : ∃ t0 c, X = t0 ++ [c] :=
    ⟨X.dropLast, X.getLast hX, (List.dropLast_append_getLast hX).symm⟩
  by_cases hc : c.val < 0x80
  · left
    exact ⟨c.val, t0, (ValidRune_iff _).2 (by omega), by rw [runeString_one c hc]⟩
  have hn : (t0 ++ [c]).length = t0.length + 1 := by simp
  have hg : (t0 ++ [c]).getD (t0.length + 1 - 1) 0 = c := by
    rw [Nat.add_sub_cancel, List.getD_append_right _ _ _ _ (Nat.le_refl _)]
    simp
  have hsb := scanBack_le (t0 ++ [c]) (t0.length + 1 - 4) (t0.length + 1 - 1)
  generalize hst : scanBack (t0 ++ [c]) (t0.length + 1 - 4) (t0.length + 1 - 1) - 1 = start
    at hsb
  have hstart : start ≤ t0.length := by omega
  have hD : DecodeLastRuneInString (t0 ++ [c]) =
      if start + (DecodeRuneInString ((t0 ++ [c]).drop start)).2 ≠ t0.length + 1
      then (RuneError, 1) else DecodeRuneInString ((t0 ++ [c]).drop start) := by
    simp only [DecodeLastRuneInString, hn, if_neg (Nat.succ_ne_zero _), hg, if_neg hc, hst]
  by_cases hw : start + (DecodeRuneInString ((t0 ++ [c]).drop start)).2 ≠ t0.length + 1
  · right
    rw [hD, if_pos hw]
    exact ⟨rfl, t0, c, rfl, by omega⟩
  rw [if_neg hw] at hD
  have hw' : start + (DecodeRuneInString ((t0 ++ [c]).drop start)).2 = t0.length + 1 := by
    omega
  have hlen : ((t0 ++ [c]).drop start).length = t0.length + 1 - start := by
    rw [List.length_drop, hn]
  rcases Decode_cases ((t0 ++ [c]).drop start) with e | ⟨b, t, -, -, e⟩ | ⟨r, t, v, e⟩
  · rw [e] at hlen
    simp only [List.length_nil] at hlen
    omega
  · right
    rw [hD, e]
    exact ⟨rfl, t0, c, rfl, by omega⟩
  · left
    rw [e, Decode_runeString r t v] at hw'
    rw [e] at hlen
    simp only [List.length_append] at hlen
    have ht : t = [] := List.eq_nil_of_length_eq_zero (by simp only at hw'; omega)
    rw [ht, List.append_nil] at e
    refine ⟨r, (t0 ++ [c]).take start, v, ?_⟩
    rw [← e, List.take_append_drop]

/-! ## `strings.TrimSpace` removes exactly the white space at both ends -/

theorem isSpace_valid (r : Nat) (h : isSpace r = true) : ValidRune r = true := by
  rw [ValidRune_iff]
  simp only [isSpace, Bool.or_eq_true, Bool.and_eq_true, decide_eq_true_eq] at h
  omega

theorem isSpace_RuneError : isSpace RuneError = false := by decide

theorem runeString_ne_nil (r : Nat) : runeString r ≠ [] := by
  unfold runeString
  split_ifs <;> simp

theorem runeString_length_pos (r : Nat) : 0 < (runeString r).length :=
  List.length_pos.2 (runeString_ne_nil r)

/-- Loop invariant of `indexFunc`: the bytes passed over are the encodings of
white-space code points, and the loop stops in front of a code point that is
not white space. -/
theorem indexNotSpace_spec : ∀ (fuel : Nat) (s : GoString) (i : Nat), s.length < fuel →
    ∃ pre : List Nat, (∀ r ∈ pre, isSpace r = true) ∧
      ((indexNotSpace fuel s i = none ∧ s = (pre.map runeString).flatten) ∨
       (∃ rest, indexNotSpace fuel s i = some (i + ((pre.map runeString).flatten).length) ∧
          s = (pre.map runeString).flatten ++ rest ∧
          isSpace (DecodeRuneInString rest).1 = false))
  | 0, s, i, h => absurd h (Nat.not_lt_zero _)
  | fuel + 1, s, i, h => by
    by_cases hs : s = []
    · exact ⟨[], by simp, Or.inl ⟨by simp [indexNotSpace, hs], by simp [hs]⟩⟩
    by_cases hsp : isSpace (DecodeRuneInString s).1 = true
    swap
    · refine ⟨[], by simp, Or.inr ⟨s, ?_, by simp, by simpa using hsp⟩⟩
      simp only [indexNotSpace, if_neg hs, hsp, Bool.not_false, if_true, List.map_nil,
        List.flatten_nil, List.length_nil, Nat.add_zero]
    rcases Decode_cases s with e | ⟨b, t, -, -, e⟩ | ⟨r, t, v, e⟩
    · exact absurd e hs
    · rw [e, show ((RuneError, 1) : Nat × Nat).1 = RuneError from rfl, isSpace_RuneError] at hsp
      exact absurd hsp (by decide)
    have hd := Decode_runeString r t v
    rw [← e] at hd
    rw [hd] at hsp
    have hlen : t.length < fuel := by
      have := runeString_length_pos r
      rw [e, List.length_append] at h
      omega
    obtain ⟨pre, hpre, hcase⟩ := indexNotSpace_spec fuel t (i + (runeString r).length) hlen
    have hstep : indexNotSpace (fuel + 1) s i
        = indexNotSpace fuel t (i + (runeString r).length) := by
      simp only [indexNotSpace, if_neg hs, hd, hsp, Bool.not_true, Bool.false_eq_true, if_false]
      rw [e, List.drop_left]
    refine ⟨r :: pre, ?_, ?_⟩
    · intro x hx
      rcases List.mem_cons.1 hx with rfl | hx
      · exact hsp
      · exact hpre x hx
    rcases hcase with ⟨hn, ht⟩ | ⟨rest, hsome, ht, hns⟩
    · left
      refine ⟨by rw [hstep, hn], ?_⟩
      rw [e, List.map_cons, List.flatten_cons, ← ht]
    · right
      refine ⟨rest, ?_, ?_, hns⟩
      · rw [hstep, hsome, List.map_cons, List.flatten_cons, List.length_append, Nat.add_assoc]
      · rw [e, List.map_cons, List.flatten_cons, List.append_assoc, ← ht]

/-- What `TrimLeftFunc(s, unicode.IsSpace)` removes is a sequence of encoded
white-space code points, and what it leaves does not begin with one. -/
theorem TrimLeftSpace_spec (s : GoString) :
    ∃ pre : List Nat, (∀ r ∈ pre, isSpace r = true) ∧
      s = (pre.map runeString).flatten ++ TrimLeftSpace s ∧
      isSpace (DecodeRuneInString (TrimLeftSpace s)).1 = false := by
  obtain ⟨pre, hpre, ⟨hn, hs⟩ | ⟨rest, hsome, hs, hns⟩⟩ :=
    indexNotSpace_spec (s.length + 1) s 0 (Nat.lt_succ_self _)
  · refine ⟨pre, hpre, ?_, ?_⟩
    · simp only [TrimLeftSpace, hn, List.append_nil]
      exact hs
    · simp only [TrimLeftSpace, hn]
      decide
  · have hT : TrimLeftSpace s = rest := by
      simp only [TrimLeftSpace, hsome, Nat.zero_add]
      conv_lhs => rw [hs]
      rw [List.drop_left]
    exact ⟨pre, hpre, by rw [hT]; exact hs, by rw [hT]; exact hns⟩

/-- Loop invariant of `lastIndexFunc`: the bytes passed over from the end are
the encodings of white-space code points, and the loop stops behind a code
point that is not white space. -/
theorem lastIndexNotSpace_spec (s : GoString) : ∀ (fuel i : Nat), i < fuel → i ≤ s.length →
    ∃ suf : List Nat, (∀ r ∈ suf, isSpace r = true) ∧
      ((lastIndexNotSpace s fuel i = none ∧ s.take i = (suf.map runeString).flatten) ∨
       (∃ X, X ≠ [] ∧ s.take i = X ++ (suf.map runeString).flatten ∧
          isSpace (DecodeLastRuneInString X).1 = false ∧
          lastIndexNotSpace s fuel i = some (X.length - (DecodeLastRuneInString X).2)))
  | 0, i, h, _ => absurd h (Nat.not_lt_zero _)
  | fuel + 1, i, h, hi => by
    by_cases h0 : i = 0
    · exact ⟨[], by simp, Or.inl ⟨by simp [lastIndexNotSpace, h0], by simp [h0]⟩⟩
    have hlen : (s.take i).length = i := List.length_take_of_le hi
    have hne : s.take i ≠ [] := by
      intro e
      rw [e] at hlen
      exact h0 hlen.symm
    by_cases hsp : isSpace (DecodeLastRuneInString (s.take i)).1 = true
    swap
    · refine ⟨[], by simp, Or.inr ⟨s.take i, hne, by simp, by simpa using hsp, ?_⟩⟩
      simp only [lastIndexNotSpace, if_neg h0, hsp, Bool.not_false, if_true, hlen]
    rcases DecodeLast_cases (s.take i) hne with ⟨r, t, v, e⟩ | ⟨e, -⟩
    swap
    · rw [e, show ((RuneError, 1) : Nat × Nat).1 = RuneError from rfl, isSpace_RuneError] at hsp
      exact absurd hsp (by decide)
    have hd := DecodeLast_runeString r t v
    rw [← e] at hd
    rw [hd] at hsp
    have hpos := runeString_length_pos r
    have hi' : i = t.length + (runeString r).length := by
      rw [← hlen, e, List.length_append]
    have ht : s.take (i - (runeString r).length) = t := by
      have e1 : i - (runeString r).length = t.length := by omega
      have e2 : s.take t.length = (s.take i).take t.length := by
        rw [List.take_take, Nat.min_eq_left (by omega)]
      rw [e1, e2, e, List.take_left]
    obtain ⟨suf, hsuf, hcase⟩ := lastIndexNotSpace_spec s fuel (i - (runeString r).length)
      (by omega) (by omega)
    have hstep : lastIndexNotSpace s (fuel + 1) i
        = lastIndexNotSpace s fuel (i - (runeString r).length) := by
      simp only [lastIndexNotSpace, if_neg h0, hd, hsp, Bool.not_true, Bool.false_eq_true,
        if_false]
    refine ⟨suf ++ [r], ?_, ?_⟩
    · intro x hx
      rcases List.mem_append.1 hx with hx | hx
      · exact hsuf x hx
      · rw [List.mem_singleton.1 hx]
        exact hsp
    have hfl : ((suf ++ [r]).map runeString).flatten
        = (suf.map runeString).flatten ++ runeString r := by
      simp
    rcases hcase with ⟨hn, hs⟩ | ⟨X, hX, hs, hns, hsome⟩
    · left
      refine ⟨by rw [hstep, hn], ?_⟩
      rw [hfl, e, ← hs, ht]
    · right
      refine ⟨X, hX, ?_, hns, by rw [hstep, hsome]⟩
      rw [hfl, e, ← List.append_assoc, ← hs, ht]

/-- The encodings of a non-empty sequence of white-space code points do not
begin with a continuation byte. -/
theorem flatten_head (suf : List Nat) (hsuf : ∀ r ∈ suf, isSpace r = true) (s1 : Byte)
    (t1 : GoString) (h : (suf.map runeString).flatten = s1 :: t1) : isCont s1 = false := by
  rcases suf with _ | ⟨r, suf⟩
  · simp at h
  obtain ⟨b, cs, e, hb, -⟩ := runeString_head r (isSpace_valid r (hsuf r (List.mem_cons_self _ _)))
  rw [List.map_cons, List.flatten_cons, e] at h
  injection h with h1 _
  rw [← h1]
  exact hb

/-- What `TrimRightFunc(s, unicode.IsSpace)` removes is a sequence of encoded
white-space code points, and what it leaves does not end with one. -/
theorem TrimRightSpace_spec (s : GoString) :
    ∃ suf : List Nat, (∀ r ∈ suf, isSpace r = true) ∧
      s = TrimRightSpace s ++ (suf.map runeString).flatten ∧
      isSpace (DecodeLastRuneInString (TrimRightSpace s)).1 = false := by
  obtain ⟨suf, hsuf, ⟨hn, hs⟩ | ⟨X, hX, hs, hns, hsome⟩⟩ :=
    lastIndexNotSpace_spec s (s.length + 1) s.length (Nat.lt_succ_self _) (Nat.le_refl _)
  · rw [List.take_length] at hs
    refine ⟨suf, hsuf, ?_, ?_⟩
    · simp only [TrimRightSpace, hn, List.nil_append]
      exact hs
    · simp only [TrimRightSpace, hn]
      decide
  rw [List.take_length] at hs
  suffices hT : TrimRightSpace s = X from
    ⟨suf, hsuf, by rw [hT]; exact hs, by rw [hT]; exact hns⟩
  rcases DecodeLast_cases X hX with ⟨r, t, v, e⟩ | ⟨e, t, b, eX, hb⟩
  · have hd := DecodeLast_runeString r t v
    rw [← e] at hd
    have hj : X.length - (DecodeLastRuneInString X).2 = t.length := by
      rw [hd, e, List.length_append]
      exact Nat.add_sub_cancel _ _
    rw [hj] at hsome
    obtain ⟨b, cs, eb, -, hlo, hhi⟩ := runeString_head r v
    have hs' : s = t ++ (runeString r ++ (suf.map runeString).flatten) := by
      rw [hs, e, List.append_assoc]
    have hg : s.getD t.length 0 = b := by
      rw [hs', List.getD_append_right _ _ _ _ (Nat.le_refl _), eb]
      simp
    have hdrop : s.drop t.length = runeString r ++ (suf.map runeString).flatten := by
      rw [hs', List.drop_left]
    by_cases hr : r < 0x80
    · obtain ⟨rfl, hbv⟩ := hlo hr
      simp only [TrimRightSpace, hsome, hg, if_neg (show ¬ 0x80 ≤ b.val by omega)]
      rw [hs', eb, e, eb]
      have : t ++ ([b] ++ (suf.map runeString).flatten)
          = (t ++ [b]) ++ (suf.map runeString).flatten := by simp
      rw [this]
      exact List.take_left' (by simp)
    · have hb := hhi (by omega)
      simp only [TrimRightSpace, hsome, hg, if_pos hb, hdrop, Decode_runeString r _ v]
      rw [hs, e]
      exact List.take_left' (by simp)
  · have hj : X.length - (DecodeLastRuneInString X).2 = t.length := by
      rw [e, eX, List.length_append]
      exact Nat.add_sub_cancel _ _
    rw [hj] at hsome
    have hs' : s = t ++ (b :: (suf.map runeString).flatten) := by
      rw [hs, eX, List.append_assoc]
      rfl
    have hg : s.getD t.length 0 = b := by
      rw [hs', List.getD_append_right _ _ _ _ (Nat.le_refl _)]
      simp
    have hdrop : s.drop t.length = b :: (suf.map runeString).flatten := by
      rw [hs', List.drop_left]
    have hw : DecodeRuneInString (b :: (suf.map runeString).flatten) = (RuneError, 1) := by
      rcases Decode_high b _ hb with h | ⟨r, t', -, -, -, s1, t1, e1, hc⟩
      · exact h
      · rw [flatten_head suf hsuf s1 t1 e1] at hc
        exact absurd hc (by decide)
    simp only [TrimRightSpace, hsome, hg, if_pos hb, hdrop, hw]
    rw [hs, eX]
    exact List.take_left' (by simp)

theorem isSpace_ascii (c : Byte) (h : c.val < 0x80) : isSpace c.val = asciiSpace c := by
  rw [Bool.eq_iff_iff]
  simp only [isSpace, asciiSpace, Bool.or_eq_true, Bool.and_eq_true, decide_eq_true_eq]
  omega

/-- The second loop of `strings.TrimSpace`: what it removes from the end is a
sequence of encoded white-space code points, and what it leaves does not end
with one. -/
theorem trimSpaceEnd_spec : ∀ l : GoString,
    ∃ suf : List Nat, (∀ r ∈ suf, isSpace r = true) ∧
      l.reverse = trimSpaceEnd l ++ (suf.map runeString).flatten ∧
      isSpace (DecodeLastRuneInString (trimSpaceEnd l)).1 = false
  | [] => ⟨[], by simp, by simp [trimSpaceEnd], by simp only [trimSpaceEnd]; decide⟩
  | c :: t => by
    by_cases hc : 0x80 ≤ c.val
    · simp only [trimSpaceEnd, if_pos hc]
      exact TrimRightSpace_spec _
    by_cases ha : asciiSpace c = true
    · obtain ⟨suf, hsuf, hs, hns⟩ := trimSpaceEnd_spec t
      simp only [trimSpaceEnd, if_neg hc, ha, if_true]
      refine ⟨suf ++ [c.val], ?_, ?_, hns⟩
      · intro x hx
        rcases List.mem_append.1 hx with hx | hx
        · exact hsuf x hx
        · rw [List.mem_singleton.1 hx, isSpace_ascii c (by omega)]
          exact ha
      · rw [List.reverse_cons, hs, List.map_append, List.flatten_append, List.append_assoc]
        simp only [List.map_cons, List.map_nil, List.flatten_cons, List.flatten_nil,
          List.append_nil, runeString_one c (show c.val < 0x80 by omega)]
    · simp only [trimSpaceEnd, if_neg hc, ha, Bool.false_eq_true, if_false]
      refine ⟨[], by simp, by simp, ?_⟩
      have hd := DecodeLast_runeString c.val t.reverse ((ValidRune_iff _).2 (by omega))
      rw [runeString_one c (by omega)] at hd
      rw [List.reverse_cons, hd, isSpace_ascii c (by omega)]
      simpa using ha

/-- A prefix of a string that does not begin with a white-space code point
does not begin with one either. -/
theorem Decode_prefix_notSpace (R T : GoString)
    (h : isSpace (DecodeRuneInString (R ++ T)).1 = false) :
    isSpace (DecodeRuneInString R).1 = false := by
  by_cases hsp : isSpace (DecodeRuneInString R).1 = true
  swap
  · simpa using hsp
  rcases Decode_cases R with e | ⟨b, t, -, -, e⟩ | ⟨r, t, v, e⟩
  · rw [e] at hsp
    exact absurd hsp (by decide)
  · rw [e] at hsp
    exact absurd hsp (by decide)
  · rw [e, Decode_runeString r t v] at hsp
    rw [e, List.append_assoc, Decode_runeString r _ v, hsp] at h
    exact absurd h (by decide)

/-- What `strings.TrimSpace` removes from the two ends are sequences of
encoded white-space code points, and what it leaves neither begins nor ends
with a white-space code point. -/
theorem TrimSpace_decode_spec : ∀ s : GoString,
    ∃ pre suf : List Nat, (∀ r ∈ pre, isSpace r = true) ∧ (∀ r ∈ suf, isSpace r = true) ∧
      s = (pre.map runeString).flatten ++ TrimSpace s ++ (suf.map runeString).flatten ∧
      isSpace (DecodeRuneInString (TrimSpace s)).1 = false ∧
      isSpace (DecodeLastRuneInString (TrimSpace s)).1 = false
  | [] => ⟨[], [], by simp, by simp, by simp [TrimSpace], by simp only [TrimSpace]; decide,
      by simp only [TrimSpace]; decide⟩
  | c :: t => by
    by_cases hc : 0x80 ≤ c.val
    · obtain ⟨pre, hpre, hL, hnL⟩ := TrimLeftSpace_spec (c :: t)
      obtain ⟨suf, hsuf, hR, hnR⟩ := TrimRightSpace_spec (TrimLeftSpace (c :: t))
      simp only [TrimSpace, if_pos hc]
      refine ⟨pre, suf, hpre, hsuf, ?_, ?_, hnR⟩
      · rw [List.append_assoc, ← hR]
        exact hL
      · rw [hR] at hnL
        exact Decode_prefix_notSpace _ _ hnL
    by_cases ha : asciiSpace c = true
    · obtain ⟨pre, suf, hpre, hsuf, hs, h1, h2⟩ := TrimSpace_decode_spec t
      simp only [TrimSpace, if_neg hc, ha, if_true]
      refine ⟨c.val :: pre, suf, ?_, hsuf, ?_, h1, h2⟩
      · intro x hx
        rcases List.mem_cons.1 hx with rfl | hx
        · rw [isSpace_ascii c (by omega)]
          exact ha
        · exact hpre x hx
      · rw [List.map_cons, List.flatten_cons, runeString_one c (by omega), List.append_assoc,
          List.append_assoc, ← List.append_assoc _ (TrimSpace t), ← hs]
        rfl
    · obtain ⟨suf, hsuf, hs, hns⟩ := trimSpaceEnd_spec (c :: t).reverse
      simp only [TrimSpace, if_neg hc, ha, Bool.false_eq_true, if_false]
      rw [List.reverse_reverse] at hs
      refine ⟨[], suf, by simp, hsuf, by simpa using hs, ?_, hns⟩
      apply Decode_prefix_notSpace _ ((suf.map runeString).flatten)
      rw [← hs, Decode_one c t (by omega), isSpace_ascii c (by omega)]
      simpa using ha

/-- Leading and trailing white space, as sequences of code points: the result
of `strings.TrimSpace` is what remains of `s` after a sequence of encoded
white-space code points is taken from each end, and it neither begins nor ends
with the encoding of a white-space code point. -/
theorem TrimSpace_spec (s : GoString) :
    ∃ pre suf : List Nat, (∀ r ∈ pre, isSpace r = true) ∧ (∀ r ∈ suf, isSpace r = true) ∧
      s = (pre.map runeString).flatten ++ TrimSpace s ++ (suf.map runeString).flatten ∧
      (∀ r t, isSpace r = true → TrimSpace s ≠ runeString r ++ t) ∧
      (∀ r t, isSpace r = true → TrimSpace s ≠ t ++ runeString r) := by
  obtain ⟨pre, suf, hpre, hsuf, hs, h1, h2⟩ := TrimSpace_decode_spec s
  refine ⟨pre, suf, hpre, hsuf, hs, ?_, ?_⟩
  · intro r t hr e
    rw [e, Decode_runeString r t (isSpace_valid r hr), hr] at h1
    exact absurd h1 (by decide)
  · intro r t hr e
    rw [e, DecodeLast_runeString r t (isSpace_valid r hr), hr] at h2
    exact absurd h2 (by decide)

/-- Stripping encoded white-space code points from the front up to a code
point that is not white space has one result only. -/
theorem strip_front_unique : ∀ (pre pre' : List Nat) (A B : GoString),
    (∀ r ∈ pre, isSpace r = true) → (∀ r ∈ pre', isSpace r = true) →
    isSpace (DecodeRuneInString A).1 = false → isSpace (DecodeRuneInString B).1 = false →
    (pre.map runeString).flatten ++ A = (pre'.map runeString).flatten ++ B → A = B
  | [], [], A, B, _, _, _, _, h => by simpa using h
  | [], r :: p', A, B, _, h', hA, _, h => by
    have hr := h' r (List.mem_cons_self _ _)
    simp only [List.map_nil, List.flatten_nil, List.nil_append, List.map_cons,
      List.flatten_cons, List.append_assoc] at h
    rw [h, Decode_runeString r _ (isSpace_valid r hr), hr] at hA
    exact absurd hA (by decide)
  | r :: p, [], A, B, h', _, _, hB, h => by
    have hr := h' r (List.mem_cons_self _ _)
    simp only [List.map_nil, List.flatten_nil, List.nil_append, List.map_cons,
      List.flatten_cons, List.append_assoc] at h
    rw [← h, Decode_runeString r _ (isSpace_valid r hr), hr] at hB
    exact absurd hB (by decide)
  | r :: p, r' :: p', A, B, hp, hp', hA, hB, h => by
    have hr := hp r (List.mem_cons_self _ _)
    have hr' := hp' r' (List.mem_cons_self _ _)
    simp only [List.map_cons, List.flatten_cons, List.append_assoc] at h
    have hd := Decode_runeString r ((p.map runeString).flatten ++ A) (isSpace_valid r hr)
    rw [h, Decode_runeString r' _ (isSpace_valid r' hr')] at hd
    have e : r' = r := congrArg Prod.fst hd
    subst e
    exact strip_front_unique p p' A B (fun x hx => hp x (List.mem_cons_of_mem _ hx))
      (fun x hx => hp' x (List.mem_cons_of_mem _ hx)) hA hB (List.append_cancel_left h)

/-- Stripping encoded white-space code points from the end down to a code
point that is not white space has one result only. -/
theorem strip_back_unique (suf : List Nat) : ∀ (suf' : List Nat) (A B : GoString),
    (∀ r ∈ suf, isSpace r = true) → (∀ r ∈ suf', isSpace r = true) →
    isSpace (DecodeLastRuneInString A).1 = false →
    isSpace (DecodeLastRuneInString B).1 = false →
    A ++ (suf.map runeString).flatten = B ++ (suf'.map runeString).flatten → A = B := by
  induction suf using List.reverseRecOn with
  | nil =>
    intro suf' A B _ h' hA _ h
    rcases List.eq_nil_or_concat suf' with rfl | ⟨q, r, rfl⟩
    · simpa using h
    · have hr := h' r (by simp)
      have h3 : A = (B ++ (q.map runeString).flatten) ++ runeString r := by
        simpa [List.concat_eq_append, List.append_assoc] using h
      rw [h3, DecodeLast_runeString r _ (isSpace_valid r hr), hr] at hA
      exact absurd hA (by decide)
  | append_singleton p r ih =>
    intro suf' A B hp h' hA hB h
    have hr := hp r (by simp)
    rcases List.eq_nil_or_concat suf' with rfl | ⟨q, r', rfl⟩
    · have h3 : B = (A ++ (p.map runeString).flatten) ++ runeString r := by
        simpa [List.append_assoc] using h.symm
      rw [h3, DecodeLast_runeString r _ (isSpace_valid r hr), hr] at hB
      exact absurd hB (by decide)
    · have hr' := h' r' (by simp)
      have h3 : (A ++ (p.map runeString).flatten) ++ runeString r
          = (B ++ (q.map runeString).flatten) ++ runeString r' := by
        simpa [List.concat_eq_append, List.append_assoc] using h
      have hd := DecodeLast_runeString r (A ++ (p.map runeString).flatten) (isSpace_valid r hr)
      rw [h3, DecodeLast_runeString r' _ (isSpace_valid r' hr')] at hd
      have e : r' = r := congrArg Prod.fst hd
      subst e
      exact ih q A B (fun x hx => hp x (by simp [hx])) (fun x hx => h' x (by simp [hx]))
        hA hB (List.append_cancel_right h3)

/-- A non-empty string that does not begin with a white-space code point
still does not when encoded white-space code points are put after it. -/
theorem Decode_append_notSpace (R : GoString) (suf : List Nat) (hR : R ≠ [])
    (hsuf : ∀ r ∈ suf, isSpace r = true) (h : isSpace (DecodeRuneInString R).1 = false) :
    isSpace (DecodeRuneInString (R ++ (suf.map runeString).flatten)).1 = false := by
  by_cases hsp : isSpace (DecodeRuneInString (R ++ (suf.map runeString).flatten)).1 = true
  swap
  · simpa using hsp
  exfalso
  rcases Decode_cases (R ++ (suf.map runeString).flatten) with e | ⟨b, t, -, -, e⟩ | ⟨r, t, v, e⟩
  · exact hR (List.append_eq_nil.1 e).1
  · rw [e] at hsp
    exact absurd hsp (by decide)
  rw [e, Decode_runeString r t v] at hsp
  rcases List.append_eq_append_iff.1 e with ⟨a, e1, e2⟩ | ⟨c, e1, -⟩
  · rcases a with _ | ⟨a0, a'⟩
    · rw [List.append_nil] at e1
      have := Decode_runeString r [] v
      rw [List.append_nil] at this
      rw [← e1, this, hsp] at h
      exact absurd h (by decide)
    · have hnc := flatten_head suf hsuf a0 (a' ++ t) e2
      by_cases hr : r < 0x80
      · obtain ⟨b, cs, eb, -, hlo, -⟩ := runeString_head r v
        obtain ⟨rfl, -⟩ := hlo hr
        rw [eb] at e1
        have hl := congrArg List.length e1
        have := List.length_pos.2 hR
        simp only [List.length_append, List.length_cons, List.length_nil] at hl
        omega
      · obtain ⟨b, cs, eb, -, -, hcs, -, -⟩ := runeString_tail r v (by omega)
        rcases R with _ | ⟨b', R'⟩
        · exact hR rfl
        rw [eb, List.cons_append] at e1
        injection e1 with _ e1
        have : a0 ∈ cs := by rw [e1]; simp
        rw [hcs a0 this] at hnc
        exact absurd hnc (by decide)
  · rw [e1, Decode_runeString r c v, hsp] at h
    exact absurd h (by decide)

/-- The decomposition of a string into leading white space, a core that
neither begins nor ends with a white-space code point, and trailing white
space has one core only. -/
theorem trim_core_unique (pre suf pre' suf' : List Nat) (R R' : GoString)
    (hpre : ∀ r ∈ pre, isSpace r = true) (hsuf : ∀ r ∈ suf, isSpace r = true)
    (hpre' : ∀ r ∈ pre', isSpace r = true) (hsuf' : ∀ r ∈ suf', isSpace r = true)
    (h1 : isSpace (DecodeRuneInString R).1 = false)
    (h2 : isSpace (DecodeLastRuneInString R).1 = false)
    (h1' : isSpace (DecodeRuneInString R').1 = false)
    (h2' : isSpace (DecodeLastRuneInString R').1 = false)
    (h : (pre.map runeString).flatten ++ R ++ (suf.map runeString).flatten
      = (pre'.map runeString).flatten ++ R' ++ (suf'.map runeString).flatten) : R = R' := by
  have hnil : isSpace (DecodeRuneInString ([] : GoString)).1 = false := by decide
  rw [List.append_assoc, List.append_assoc] at h
  by_cases hR : R = []
  · by_cases hR' : R' = []
    · rw [hR, hR']
    · exfalso
      subst hR
      have hA := Decode_append_notSpace R' suf' hR' hsuf' h1'
      have e : ((pre ++ suf).map runeString).flatten ++ []
          = (pre'.map runeString).flatten ++ (R' ++ (suf'.map runeString).flatten) := by
        rw [← h]
        simp
      have := strip_front_unique (pre ++ suf) pre' [] _
        (fun x hx => (List.mem_append.1 hx).elim (hpre x) (hsuf x)) hpre' hnil hA e
      exact hR' (List.append_eq_nil.1 this.symm).1
  · by_cases hR' : R' = []
    · exfalso
      subst hR'
      have hA := Decode_append_notSpace R suf hR hsuf h1
      have e : (pre.map runeString).flatten ++ (R ++ (suf.map runeString).flatten)
          = ((pre' ++ suf').map runeString).flatten ++ [] := by
        rw [h]
        simp
      have := strip_front_unique pre (pre' ++ suf') _ [] hpre
        (fun x hx => (List.mem_append.1 hx).elim (hpre' x) (hsuf' x)) hA hnil e
      exact hR (List.append_eq_nil.1 this).1
    · have e := strip_front_unique pre pre' _ _ hpre hpre'
        (Decode_append_notSpace R suf hR hsuf h1) (Decode_append_notSpace R' suf' hR' hsuf' h1') h
      exact strip_back_unique suf suf' R R' hsuf hsuf' h2 h2' e

theorem notSpace_front (R : GoString)
    (h : ∀ r t, isSpace r = true → R ≠ runeString r ++ t) :
    isSpace (DecodeRuneInString R).1 = false := by
  rcases Decode_cases R with e | ⟨b, t, -, -, e⟩ | ⟨r, t, v, e⟩
  · rw [e]; decide
  · rw [e]; decide
  · rw [e, Decode_runeString r t v]
    by_cases hr : isSpace r = true
    · exact absurd e (h r t hr)
    · simpa using hr

theorem notSpace_back (R : GoString)
    (h : ∀ r t, isSpace r = true → R ≠ t ++ runeString r) :
    isSpace (DecodeLastRuneInString R).1 = false := by
  by_cases hR : R = []
  · rw [hR]; decide
  rcases DecodeLast_cases R hR with ⟨r, t, v, e⟩ | ⟨e, -⟩
  · rw [e, DecodeLast_runeString r t v]
    by_cases hr : isSpace r = true
    · exact absurd e (h r t hr)
    · simpa using hr
  · rw [e]; decide

/-- The result of `strings.TrimSpace` on white space, a core and white space is
the core, when the core neither begins nor ends with the encoding of a
white-space code point. -/
theorem TrimSpace_parts (pre suf : List Nat) (core : GoString)
    (hpre : ∀ r ∈ pre, isSpace r = true) (hsuf : ∀ r ∈ suf, isSpace r = true)
    (h1 : ∀ r t, isSpace r = true → core ≠ runeString r ++ t)
    (h2 : ∀ r t, isSpace r = true → core ≠ t ++ runeString r) :
    TrimSpace ((pre.map runeString).flatten ++ core ++ (suf.map runeString).flatten) = core := by
  obtain ⟨p, q, hp, hq, hs, d1, d2⟩ :=
    TrimSpace_decode_spec ((pre.map runeString).flatten ++ core ++ (suf.map runeString).flatten)
  exact (trim_core_unique pre suf p q core _ hpre hsuf hp hq (notSpace_front core h1)
    (notSpace_back core h2) d1 d2 hs).symm

/-! ## `strconv.Quote` writes every code point in its escaped form -/

theorem quoteLoop_skip (wide : Nat → Bool) : ∀ (cs t : GoString),
    quoteLoop wide cs.length (cs ++ t) = quoteLoop wide 0 t
  | [], t => rfl
  | c :: cs, t => by
    simp only [List.length_cons, List.cons_append, quoteLoop]
    exact quoteLoop_skip wide cs t

/-- One step of the quoting loop at the encoding of a valid code point. -/
theorem quoteLoop_rune (wide : Nat → Bool) (r : Nat) (t : GoString) (hv : ValidRune r = true) :
    quoteLoop wide 0 (runeString r ++ t) = appendEscapedRune wide r ++ quoteLoop wide 0 t := by
  obtain ⟨b, cs, e, -, hlo, hhi⟩ := runeString_head r hv
  have hd := Decode_runeString r t hv
  rw [e] at hd ⊢
  rw [List.cons_append] at hd ⊢
  by_cases hr : r < 0x80
  · obtain ⟨rfl, hbv⟩ := hlo hr
    simp only [quoteLoop, hbv, if_neg (show ¬ 0x80 ≤ r by omega), true_and,
      if_neg (show ¬ r = RuneError by simp only [RuneError]; omega),
      List.nil_append, Nat.sub_self]
  · have hb := hhi (by omega)
    obtain ⟨b', cs', e', -, -, -, hl, -⟩ := runeString_tail r hv (by omega)
    rw [e] at e'
    injection e' with _ e'
    subst e'
    have hne : ¬ (cs.length + 1 = 1 ∧ r = RuneError) := by omega
    simp only [quoteLoop, if_pos hb, hd, List.length_cons, if_neg hne, Nat.add_sub_cancel]
    rw [quoteLoop_skip]

theorem runeString_RuneError_length : (runeString RuneError).length = 3 := by decide

/-- A string on which the decoder reports an error does not begin with the
encoding of a valid code point. -/
theorem Decode_error_not_rune (s : GoString) (h : DecodeRuneInString s = (RuneError, 1))
    (r : Nat) (u : GoString) (hv : ValidRune r = true) : s ≠ runeString r ++ u := by
  intro e
  rw [e, Decode_runeString r u hv] at h
  have h1 : r = RuneError := congrArg Prod.fst h
  have h2 : (runeString r).length = 1 := congrArg Prod.snd h
  rw [h1, runeString_RuneError_length] at h2
  exact absurd h2 (by decide)

/-- One step of the quoting loop at a byte that begins no encoding of a valid
code point. -/
theorem quoteLoop_invalid (wide : Nat → Bool) (b : Byte) (t : GoString)
    (h : ∀ r u, ValidRune r = true → b :: t ≠ runeString r ++ u) :
    0x80 ≤ b.val ∧
    quoteLoop wide 0 (b :: t)
      = [92, 120, lowerhex (b.val / 16), lowerhex (b.val % 16)] ++ quoteLoop wide 0 t := by
  rcases Decode_cases (b :: t) with e | ⟨b', t', e, hb, hd⟩ | ⟨r, u, v, e⟩
  · exact absurd e (by simp)
  · injection e with e1 e2
    subst e1
    subst e2
    refine ⟨hb, ?_⟩
    simp only [quoteLoop, if_pos hb, hd, true_and, if_true, Nat.sub_self]
  · exact absurd e (h r u v)

/-- Every string is empty, or begins with the encoding of a valid code point,
or begins with a byte of 0x80 or more that begins no such encoding. -/
theorem utf8_cases (s : GoString) :
    s = [] ∨ (∃ r t, ValidRune r = true ∧ s = runeString r ++ t) ∨
    (∃ b t, s = b :: t ∧ 0x80 ≤ b.val ∧
      ∀ r u, ValidRune r = true → s ≠ runeString r ++ u) := by
  rcases Decode_cases s with e | ⟨b, t, e, hb, hd⟩ | h
  · exact Or.inl e
  · exact Or.inr (Or.inr ⟨b, t, e, hb, Decode_error_not_rune s hd⟩)
  · exact Or.inr (Or.inl h)

/-- Quoting the encodings of valid code points writes each in its escaped form
between two double quotes. -/
theorem Quote_runes (wide : Nat → Bool) (rs : List Nat) (h : ∀ r ∈ rs, ValidRune r = true) :
    Quote wide ((rs.map runeString).flatten)
      = goStr "\"" ++ (rs.map (appendEscapedRune wide)).flatten ++ goStr "\"" := by
  have key : ∀ rs : List Nat, (∀ r ∈ rs, ValidRune r = true) →
      quoteLoop wide 0 ((rs.map runeString).flatten)
        = (rs.map (appendEscapedRune wide)).flatten := by
    intro rs
    induction rs with
    | nil => intro _; rfl
    | cons r rs ih =>
      intro h
      rw [List.map_cons, List.flatten_cons, quoteLoop_rune wide r _ (h r (List.mem_cons_self _ _)),
        ih (fun x hx => h x (List.mem_cons_of_mem _ hx)), List.map_cons, List.flatten_cons]
  simp only [Quote, key rs h]
  rfl

theorem lowerhex_table : ∀ n, n < 16 →
    lowerhex n = (goStr "0123456789abcdef").getD n 0 := by
  decide

theorem IsPrint_latin1 (wide : Nat → Bool) (r : Nat) (h : r ≤ 0xFF) :
    IsPrint wide r = true ↔ (0x20 ≤ r ∧ r ≤ 0x7E) ∨ (0xA1 ≤ r ∧ r ≠ 0xAD) := by
  simp only [IsPrint, if_pos h]
  split_ifs with h1 h2
  · simp only [true_iff]; omega
  · simp only [bne_iff_ne, ne_eq]; omega
  · simp only [Bool.false_eq_true, false_iff]; omega

theorem IsPrint_wide (wide : Nat → Bool) (r : Nat) (h : 0xFF < r) : IsPrint wide r = wide r := by
  simp only [IsPrint, if_neg (show ¬ r ≤ 0xFF by omega)]

/-- The escaped form of a code point, case by case. -/
theorem escape_table (wide : Nat → Bool) :
    appendEscapedRune wide 34 = goStr "\\\"" ∧
    appendEscapedRune wide 92 = goStr "\\\\" ∧
    appendEscapedRune wide 7 = goStr "\\a" ∧
    appendEscapedRune wide 8 = goStr "\\b" ∧
    appendEscapedRune wide 12 = goStr "\\f" ∧
    appendEscapedRune wide 10 = goStr "\\n" ∧
    appendEscapedRune wide 13 = goStr "\\r" ∧
    appendEscapedRune wide 9 = goStr "\\t" ∧
    appendEscapedRune wide 11 = goStr "\\v" ∧
    (∀ r, 0x20 ≤ r → r ≤ 0x7E → r ≠ 34 → r ≠ 92 → appendEscapedRune wide r = [byteOf r]) ∧
    (∀ r, r < 7 ∨ (13 < r ∧ r < 0x20) ∨ r = 0x7F →
      appendEscapedRune wide r = goStr "\\x" ++ [lowerhex (r / 16), lowerhex (r % 16)]) ∧
    (∀ r, (0x80 ≤ r ∧ r ≤ 0xA0) ∨ r = 0xAD →
      appendEscapedRune wide r = goStr "\\u00" ++ [lowerhex (r / 16), lowerhex (r % 16)]) ∧
    (∀ r, 0xA1 ≤ r → r ≤ 0xFF → r ≠ 0xAD → appendEscapedRune wide r = runeString r) ∧
    (∀ r, 0xFF < r → wide r = true → appendEscapedRune wide r = runeString r) ∧
    (∀ r, 0xFF < r → r < 0x10000 → ValidRune r = true → wide r = false →
      appendEscapedRune wide r = goStr "\\u" ++
        [lowerhex (r / 4096), lowerhex (r / 256 % 16), lowerhex (r / 16 % 16),
          lowerhex (r % 16)]) ∧
    (∀ r, 0x10000 ≤ r → r ≤ 0x10FFFF → wide r = false →
      appendEscapedRune wide r = goStr "\\U00" ++
        [lowerhex (r / 1048576), lowerhex (r / 65536 % 16), lowerhex (r / 4096 % 16),
          lowerhex (r / 256 % 16), lowerhex (r / 16 % 16), lowerhex (r % 16)]) := by
  refine ⟨rfl, rfl, rfl, rfl, rfl, rfl, rfl, rfl, rfl, ?_, ?_, ?_, ?_, ?_, ?_, ?_⟩
  · intro r h1 h2 h3 h4
    have hp : IsPrint wide r = true := (IsPrint_latin1 wide r (by omega)).2 (Or.inl ⟨h1, h2⟩)
    simp only [appendEscapedRune, if_neg (show ¬ (r = 34 ∨ r = 92) by omega), hp, if_true,
      runeString, if_pos (show r < 0x80 by omega)]
  · intro r h
    have hp : ¬ IsPrint wide r = true := by
      rw [IsPrint_latin1 wide r (by omega)]
      omega
    have e : r / 16 % 16 = r / 16 := by omega
    simp only [appendEscapedRune, if_neg (show ¬ (r = 34 ∨ r = 92) by omega), hp, if_false,
      if_neg (show ¬ r = 7 by omega), if_neg (show ¬ r = 8 by omega),
      if_neg (show ¬ r = 12 by omega), if_neg (show ¬ r = 10 by omega),
      if_neg (show ¬ r = 13 by omega), if_neg (show ¬ r = 9 by omega),
      if_neg (show ¬ r = 11 by omega), if_pos (show r < 32 ∨ r = 0x7F by omega), e]
    rfl
  · intro r h
    have hp : ¬ IsPrint wide r = true := by
      rw [IsPrint_latin1 wide r (by omega)]
      omega
    have hv : ValidRune r = true := (ValidRune_iff r).2 (by omega)
    have e1 : r / 4096 % 16 = 0 := by omega
    have e2 : r / 256 % 16 = 0 := by omega
    have e3 : r / 16 % 16 = r / 16 := by omega
    simp only [appendEscapedRune, if_neg (show ¬ (r = 34 ∨ r = 92) by omega), hp, if_false,
      if_neg (show ¬ r = 7 by omega), if_neg (show ¬ r = 8 by omega),
      if_neg (show ¬ r = 12 by omega), if_neg (show ¬ r = 10 by omega),
      if_neg (show ¬ r = 13 by omega), if_neg (show ¬ r = 9 by omega),
      if_neg (show ¬ r = 11 by omega), if_neg (show ¬ (r < 32 ∨ r = 0x7F) by omega), hv,
      Bool.not_true, Bool.false_eq_true, if_pos (show r < 0x10000 by omega), e1, e2, e3]
    rfl
  · intro r h1 h2 h3
    have hp : IsPrint wide r = true := (IsPrint_latin1 wide r h2).2 (Or.inr ⟨h1, h3⟩)
    simp only [appendEscapedRune, if_neg (show ¬ (r = 34 ∨ r = 92) by omega), hp, if_true]
  · intro r h1 h2
    have hp : IsPrint wide r = true := by rw [IsPrint_wide wide r h1, h2]
    simp only [appendEscapedRune, if_neg (show ¬ (r = 34 ∨ r = 92) by omega), hp, if_true]
  · intro r h1 h2 hv hw
    have hp : ¬ IsPrint wide r = true := by rw [IsPrint_wide wide r h1, hw]; decide
    have e1 : r / 4096 % 16 = r / 4096 := by omega
    simp only [appendEscapedRune, if_neg (show ¬ (r = 34 ∨ r = 92) by omega), hp, if_false,
      if_neg (show ¬ r = 7 by omega), if_neg (show ¬ r = 8 by omega),
      if_neg (show ¬ r = 12 by omega), if_neg (show ¬ r = 10 by omega),
      if_neg (show ¬ r = 13 by omega), if_neg (show ¬ r = 9 by omega),
      if_neg (show ¬ r = 11 by omega), if_neg (show ¬ (r < 32 ∨ r = 0x7F) by omega), hv,
      Bool.not_true, Bool.false_eq_true, if_pos h2, e1]
    rfl
  · intro r h1 h2 hw
    have hp : ¬ IsPrint wide r = true := by
      rw [IsPrint_wide wide r (by omega), hw]; decide
    have hv : ValidRune r = true := (ValidRune_iff r).2 (by omega)
    have e1 : r / 268435456 % 16 = 0 := by omega
    have e2 : r / 16777216 % 16 = 0 := by omega
    have e3 : r / 1048576 % 16 = r / 1048576 := by omega
    simp only [appendEscapedRune, if_neg (show ¬ (r = 34 ∨ r = 92) by omega), hp, if_false,
      if_neg (show ¬ r = 7 by omega), if_neg (show ¬ r = 8 by omega),
      if_neg (show ¬ r = 12 by omega), if_neg (show ¬ r = 10 by omega),
      if_neg (show ¬ r = 13 by omega), if_neg (show ¬ r = 9 by omega),
      if_neg (show ¬ r = 11 by omega), if_neg (show ¬ (r < 32 ∨ r = 0x7F) by omega), hv,
      Bool.not_true, Bool.false_eq_true, if_neg (show ¬ r < 0x10000 by omega), e1, e2, e3]
    rfl

theorem isSpace_table (r : Nat) :
    isSpace r = true ↔
      r ∈ [0x09, 0x0A, 0x0B, 0x0C, 0x0D, 0x20, 0x85, 0xA0, 0x1680, 0x2000, 0x2001, 0x2002,
        0x2003, 0x2004, 0x2005, 0x2006, 0x2007, 0x2008, 0x2009, 0x200A, 0x2028, 0x2029,
        0x202F, 0x205F, 0x3000] := by
  simp only [isSpace, Bool.or_eq_true, Bool.and_eq_true, decide_eq_true_eq, List.mem_cons,
    List.mem_singleton, List.not_mem_nil, or_false]
  omega

set_option maxRecDepth 100000 in
/-- C8 (as amended): for every spelling k of "rem" and every body with no line
feed and no NUL byte, the first token of k " " body has kind REM and its text
is strings.TrimSpace(body), that is body with its leading and trailing Unicode
white space removed and nothing else removed or changed: body is a sequence of
UTF-8 encoded white-space code points, then the text, then a sequence of
encoded white-space code points; the text neither begins nor ends with the
encoding of a white-space code point; and the text is the only string with
these properties.  The white-space code points are tab, line feed, vertical
tab, form feed, carriage return, space, U+0085, U+00A0, U+1680, U+2000 to
U+200A, U+2028, U+2029, U+202F, U+205F and U+3000.  When body is ASCII with no
vertical tab or form feed the text is body with its leading and trailing
space, tab and carriage return removed.  Examples: vertical tab, form feed,
U+0085, U+00A0, U+2003 and U+3000 are removed at both ends; white space inside
the text stays; a byte 0xA0 that is not the encoding of U+00A0 stays. -/
theorem C8_rem_text_is_TrimSpace (m : GoString → GoString) (k body : GoString)
    (hk : k ∈ remSpellings) (hbody : ∀ x ∈ body, x ≠ 10 ∧ x ≠ 0) :
    (NextToken m (New (k ++ goStr " " ++ body))).map Prod.fst
      = some ⟨REM, TrimSpace body⟩ ∧
    ((∀ x ∈ body, x.val < 128 ∧ x ≠ 11 ∧ x ≠ 12) → TrimSpace body = trimHorizontal body) ∧
    (∃ pre suf : List Nat, (∀ r ∈ pre, isSpace r = true) ∧ (∀ r ∈ suf, isSpace r = true) ∧
      body = (pre.map runeString).flatten ++ TrimSpace body ++ (suf.map runeString).flatten) ∧
    (∀ r t, isSpace r = true → TrimSpace body ≠ runeString r ++ t) ∧
    (∀ r t, isSpace r = true → TrimSpace body ≠ t ++ runeString r) ∧
    (∀ (pre suf : List Nat) (core : GoString),
      (∀ r ∈ pre, isSpace r = true) → (∀ r ∈ suf, isSpace r = true) →
      body = (pre.map runeString).flatten ++ core ++ (suf.map runeString).flatten →
      (∀ r t, isSpace r = true → core ≠ runeString r ++ t) →
      (∀ r t, isSpace r = true → core ≠ t ++ runeString r) →
      TrimSpace body = core) ∧
    (∀ r, isSpace r = true ↔
      r ∈ [0x09, 0x0A, 0x0B, 0x0C, 0x0D, 0x20, 0x85, 0xA0, 0x1680, 0x2000, 0x2001, 0x2002,
        0x2003, 0x2004, 0x2005, 0x2006, 0x2007, 0x2008, 0x2009, 0x200A, 0x2028, 0x2029,
        0x202F, 0x205F, 0x3000]) ∧
    (NextToken m (New (goStr "REM \x0b\x0c\u0085\u00a0\u2003\u3000 a b \u3000\u2003\u00a0\u0085\x0c\x0b"))).map
        Prod.fst = some ⟨REM, goStr "a b"⟩ ∧
    TrimSpace (goStr "\u00a0a\u00a0\x0c\u3000b\u00a0") = goStr "a\u00a0\x0c\u3000b" ∧
    TrimSpace [0xA0, 0x61, 0xA0, 0x20] = [0xA0, 0x61, 0xA0] := by
  have key : ∀ k body : GoString, k ∈ remSpellings → (∀ x ∈ body, x ≠ 10 ∧ x ≠ 0) →
      (NextToken m (New (k ++ goStr " " ++ body))).map Prod.fst
        = some ⟨REM, TrimSpace body⟩ := by
    intro k body hk hbody
    have e : k ++ goStr " " ++ body = k ++ (32 :: body) := by
      rw [List.append_assoc]; rfl
    rw [First_eq, e, scan_REM m k (32 :: body) true false hk
      (show isIdentifierChar 32 = false by decide)]
    have hd : ((32 : Byte) :: body).dropWhile isBlank = body.dropWhile isBlank :=
      List.dropWhile_cons_of_pos (by decide)
    have hall : ∀ x ∈ body.dropWhile isBlank, isRemChar x = true := by
      intro x hx
      have := hbody x ((List.dropWhile_suffix isBlank).subset hx)
      simp [isRemChar, this.1, this.2]
    simp only [Option.map, hd, takeWhile_all isRemChar _ hall, TrimSpace_dropWhile_blank]
  obtain ⟨pre, suf, hpre, hsuf, hs, h1, h2⟩ := TrimSpace_spec body
  refine ⟨key k body hk hbody, ?_, ⟨pre, suf, hpre, hsuf, hs⟩, h1, h2, ?_, isSpace_table, ?_,
    by decide, by decide⟩
  · intro h
    exact TrimSpace_horizontal body
      (fun x hx => ⟨(h x hx).1, (hbody x hx).1, (h x hx).2.1, (h x hx).2.2⟩)
  · intro pre suf core hpre hsuf hb c1 c2
    rw [hb]
    exact TrimSpace_parts pre suf core hpre hsuf c1 c2
  · have := key (goStr "REM")
      (goStr "\x0b\x0c\u0085\u00a0\u2003\u3000 a b \u3000\u2003\u00a0\u0085\x0c\x0b")
      (by decide) (by decide)
    have e : TrimSpace
        (goStr "\x0b\x0c\u0085\u00a0\u2003\u3000 a b \u3000\u2003\u00a0\u0085\x0c\x0b")
        = goStr "a b" := by decide
    rw [e] at this
    exact this

set_option maxRecDepth 100000 in
theorem C8_witness :
    (goStr "rEm" ∈ remSpellings ∧ (∀ x ∈ goStr "\t\x0c a\u00a0b \u00a0\x0b\r", x ≠ 10 ∧ x ≠ 0)) ∧
    (NextToken id (New (goStr "rEm" ++ goStr " " ++ goStr "\t\x0c a\u00a0b \u00a0\x0b\r"))).map
      Prod.fst = some ⟨REM, goStr "a\u00a0b"⟩ :=
  ⟨⟨by decide, by decide⟩,
   (C8_rem_text_is_TrimSpace id (goStr "rEm") (goStr "\t\x0c a\u00a0b \u00a0\x0b\r")
      (by decide) (by decide)).1.trans (by decide)⟩

set_option maxRecDepth 100000 in
/-- C15: t.String() is `Token{Type: NEWLINE, Value: \n}` (backslash and the
letter n, no line feed) when t.Type is NEWLINE and `Token{Type: EOF}` when it
is EOF, whatever the literal; for every other kind it is `Token{Type: `, the
type, `, Value: `, the literal in Go double-quoted form, `}`, and the
double-quoted form of printable ASCII without '"' and backslash is the literal
between double quotes; INTEGER "42" gives `Token{Type: INTEGER, Value: "42"}`.
The double-quoted form is a double quote, then for each part of the literal in
order its escaped form, then a double quote, where a part is the UTF-8
encoding of a valid code point or a single byte of 0x80 or more that begins no
such encoding.  Such a byte is written `\x` and two lower-case hexadecimal
digits.  A code point is written: `\"` and `\\` for the double quote and the
backslash; `\a`, `\b`, `\f`, `\n`, `\r`, `\t`, `\v` for U+0007 to U+000D;
itself for other printable ASCII; `\x` and two digits for the other controls
below U+0020 and for U+007F; `\u00` and two digits for U+0080 to U+00A0 and
U+00AD; its UTF-8 encoding for the other code points up to U+00FF and for the
printable ones above; `\u` and four digits, or `\U00` and six digits from
U+10000 on, for the code points above U+00FF that are not printable.
Examples: the STRING text a, double quote, b, backslash, c, line feed, d, tab,
e gives the value `"a\"b\\c\nd\te"`; the bytes 01 7F E2 28 FF give
`"\x01\x7f\xe2(\xff"`; U+00A0, U+00E9, U+00AD give `\u00a0`, the letter
itself and `\u00ad`; printable Japanese text is written as it is; the
non-printable U+200B and U+E0001 give `\u200b\U000e0001`. -/
theorem C15_Token_String (wide : Nat → Bool) (t : Token) :
    (t.Type_ = NEWLINE →
      t.String wide = goStr "Token\x7bType: NEWLINE, Value: \\n\x7d") ∧
    (goStr "Token\x7bType: NEWLINE, Value: \\n\x7d"
      = goStr "Token\x7bType: NEWLINE, Value: " ++ [92, 110, 125]) ∧
    (t.Type_ = EOF → t.String wide = goStr "Token\x7bType: EOF\x7d") ∧
    (t.Type_ ≠ NEWLINE → t.Type_ ≠ EOF →
      t.String wide = goStr "Token\x7bType: " ++ t.Type_ ++ goStr ", Value: " ++
        Quote wide t.Literal ++ goStr "\x7d") ∧
    ((∀ x ∈ t.Literal, 0x20 ≤ x.val ∧ x.val ≤ 0x7E ∧ x ≠ 34 ∧ x ≠ 92) →
      Quote wide t.Literal = goStr "\"" ++ t.Literal ++ goStr "\"") ∧
    Token.String wide ⟨INTEGER, goStr "42"⟩
      = goStr "Token\x7bType: INTEGER, Value: \"42\"\x7d" ∧
    Token.String wide ⟨STRING, goStr "Hello"⟩
      = goStr "Token\x7bType: STRING, Value: \"Hello\"\x7d" ∧
    Token.String wide ⟨NEWLINE, goStr ""⟩ = goStr "Token\x7bType: NEWLINE, Value: \\n\x7d" ∧
    Token.String wide ⟨EOF, goStr ""⟩ = goStr "Token\x7bType: EOF\x7d" ∧
    Quote wide t.Literal = goStr "\"" ++ quoteLoop wide 0 t.Literal ++ goStr "\"" ∧
    quoteLoop wide 0 [] = [] ∧
    (∀ r s, ValidRune r = true →
      quoteLoop wide 0 (runeString r ++ s) = appendEscapedRune wide r ++ quoteLoop wide 0 s) ∧
    (∀ b s, (∀ r u, ValidRune r = true → b :: s ≠ runeString r ++ u) →
      quoteLoop wide 0 (b :: s)
        = goStr "\\x" ++ [lowerhex (b.val / 16), lowerhex (b.val % 16)] ++ quoteLoop wide 0 s) ∧
    (∀ s : GoString, s = [] ∨ (∃ r u, ValidRune r = true ∧ s = runeString r ++ u) ∨
      (∃ b u, s = b :: u ∧ 0x80 ≤ b.val ∧
        ∀ r v, ValidRune r = true → s ≠ runeString r ++ v)) ∧
    (∀ rs : List Nat, (∀ r ∈ rs, ValidRune r = true) →
      Quote wide ((rs.map runeString).flatten)
        = goStr "\"" ++ (rs.map (appendEscapedRune wide)).flatten ++ goStr "\"") ∧
    (∀ n, n < 16 → lowerhex n = (goStr "0123456789abcdef").getD n 0) ∧
    (appendEscapedRune wide 34 = goStr "\\\"" ∧
     appendEscapedRune wide 92 = goStr "\\\\" ∧
     appendEscapedRune wide 7 = goStr "\\a" ∧
     appendEscapedRune wide 8 = goStr "\\b" ∧
     appendEscapedRune wide 12 = goStr "\\f" ∧
     appendEscapedRune wide 10 = goStr "\\n" ∧
     appendEscapedRune wide 13 = goStr "\\r" ∧
     appendEscapedRune wide 9 = goStr "\\t" ∧
     appendEscapedRune wide 11 = goStr "\\v" ∧
     (∀ r, 0x20 ≤ r → r ≤ 0x7E → r ≠ 34 → r ≠ 92 → appendEscapedRune wide r = [byteOf r]) ∧
     (∀ r, r < 7 ∨ (13 < r ∧ r < 0x20) ∨ r = 0x7F →
       appendEscapedRune wide r = goStr "\\x" ++ [lowerhex (r / 16), lowerhex (r % 16)]) ∧
     (∀ r, (0x80 ≤ r ∧ r ≤ 0xA0) ∨ r = 0xAD →
       appendEscapedRune wide r = goStr "\\u00" ++ [lowerhex (r / 16), lowerhex (r % 16)]) ∧
     (∀ r, 0xA1 ≤ r → r ≤ 0xFF → r ≠ 0xAD → appendEscapedRune wide r = runeString r) ∧
     (∀ r, 0xFF < r → wide r = true → appendEscapedRune wide r = runeString r) ∧
     (∀ r, 0xFF < r → r < 0x10000 → ValidRune r = true → wide r = false →
       appendEscapedRune wide r = goStr "\\u" ++
         [lowerhex (r / 4096), lowerhex (r / 256 % 16), lowerhex (r / 16 % 16),
           lowerhex (r % 16)]) ∧
     (∀ r, 0x10000 ≤ r → r ≤ 0x10FFFF → wide r = false →
       appendEscapedRune wide r = goStr "\\U00" ++
         [lowerhex (r / 1048576), lowerhex (r / 65536 % 16), lowerhex (r / 4096 % 16),
           lowerhex (r / 256 % 16), lowerhex (r / 16 % 16), lowerhex (r % 16)])) ∧
    Token.String wide ⟨STRING, goStr "a\"b\\c\nd\te"⟩
      = goStr "Token\x7bType: STRING, Value: \"a\\\"b\\\\c\\nd\\te\"\x7d" ∧
    Token.String wide ⟨STRING, [0x01, 0x7F, 0xE2, 0x28, 0xFF]⟩
      = goStr "Token\x7bType: STRING, Value: \"\\x01\\x7f\\xe2(\\xff\"\x7d" ∧
    Token.String wide ⟨STRING, goStr "\u00a0\u00e9\u00ad"⟩
      = goStr "Token\x7bType: STRING, Value: \"\\u00a0\u00e9\\u00ad\"\x7d" ∧
    Token.String (fun _ => true) ⟨STRING, goStr "\u3053\u3093\u306b\u3061\u306f\u4e16\u754c"⟩
      = goStr "Token\x7bType: STRING, Value: \"\u3053\u3093\u306b\u3061\u306f\u4e16\u754c\"\x7d" ∧
    Token.String (fun _ => false) ⟨STRING, runeString 0x200B ++ runeString 0xE0001⟩
      = goStr "Token\x7bType: STRING, Value: \"\\u200b\\U000e0001\"\x7d" := by
  have hq : ∀ lit : GoString, (∀ x ∈ lit, 0x20 ≤ x.val ∧ x.val ≤ 0x7E ∧ x ≠ 34 ∧ x ≠ 92) →
      Quote wide lit = goStr "\"" ++ lit ++ goStr "\"" := by
    intro lit h
    simp only [Quote, quoteLoop_printable wide lit h]
    rfl
  have hne : EOF ≠ NEWLINE := by decide
  refine ⟨?_, by decide, ?_, ?_, hq t.Literal, ?_, ?_, ?_, ?_, rfl, rfl, ?_, ?_, utf8_cases,
    Quote_runes wide, lowerhex_table, escape_table wide, rfl, rfl, rfl, by decide, by decide⟩
  · intro h
    simp only [Token.String, h, if_true]
  · intro h
    simp only [Token.String, h, hne, if_false, if_true]
  · intro h1 h2
    simp only [Token.String, h1, h2, if_false]
  · have h1 : INTEGER ≠ NEWLINE := by decide
    have h2 : INTEGER ≠ EOF := by decide
    simp only [Token.String, h1, h2, if_false, hq (goStr "42") (by decide)]
    decide
  · have h1 : STRING ≠ NEWLINE := by decide
    have h2 : STRING ≠ EOF := by decide
    simp only [Token.String, h1, h2, if_false, hq (goStr "Hello") (by decide)]
    decide
  · simp only [Token.String, if_true]
  · simp only [Token.String, hne, if_false, if_true]
  · intro r s hv
    exact quoteLoop_rune wide r s hv
  · intro b s h
    exact (quoteLoop_invalid wide b s h).2

end GoBAS
